import Mathlib

/-!
# upb message storage: `core/upb_msg.c`

A shallow embedding of the message / array life-cycle functions of
`core/upb_msg.c` (`upb_msg_new`, `_upb_msg_free`, `upb_msg_sethas`,
`upb_array_new`, `_upb_array_free` and the static helpers `upb_elem_free`,
`upb_elem_unref`, `upb_field_free`, `upb_field_unref`).

Memory is a heap of blocks addressed by natural numbers (`0` is `NULL`).
Functions that touch memory thread a `State` (heap plus a trace of the calls
and memory effects performed) and return a `Res`: either a normal return or a
fault (`abort()`, a failed `assert`, an invalid memory access, or exhaustion
of the recursion budget of the model).

The declarations of `upb_msg.h`, `upb_def.h` and `upb_atomic.h` that the file
uses but does not define (field classification, value widths, the descriptor
table) are the fields of `Config`; every theorem holds for every `Config`.
-/

namespace Upb

/-! ## Data model -/

/-- Address of a heap block; `0` is the null pointer. -/
abbrev Ptr := Nat

/-- The field kinds `upb_elem_free` switches on: the four cases it names, and
every other value of `f->type` (all of which take the `default:` branch). -/
inductive upb_fieldtype where
  | MESSAGE
  | GROUP
  | STRING
  | BYTES
  | other (code : Nat)
  deriving DecidableEq, Repr

/-- The members of `upb_fielddef` that `upb_msg.c` reads: `type`, `def`,
`field_index`, and, through the header helpers, `label` and `byte_offset`. -/
structure upb_fielddef where
  type : upb_fieldtype
  label : Nat
  field_index : Nat
  byte_offset : Nat
  def_ : Ptr
  deriving DecidableEq, Repr

/-- The members of `upb_msgdef` that `upb_msg.c` reads: `size`, and the field
table that `upb_msg_begin` / `upb_msg_next` / `upb_msg_done` walk, as the list
of its fields in iteration order. -/
structure upb_msgdef where
  size : Nat
  fields : List upb_fielddef
  deriving DecidableEq, Repr

/-- A `upb_value` is carried as the number stored in the union; a pointer
member holds the address of the block it points to. -/
abbrev upb_value := Nat

/-- Tag passed to `upb_value_read`. -/
abbrev upb_valuetype_t := Nat

/-- Declarations used by `upb_msg.c` whose definitions live in headers outside
the source tree, taken as parameters. -/
structure Config where
  /-- `upb_elem_ismm(f)` -/
  upb_elem_ismm : upb_fielddef → Bool
  /-- `upb_field_ismm(f)` -/
  upb_field_ismm : upb_fielddef → Bool
  /-- `upb_isarray(f)` -/
  upb_isarray : upb_fielddef → Bool
  /-- `upb_field_valuetype(f)` -/
  upb_field_valuetype : upb_fielddef → upb_valuetype_t
  /-- `upb_elem_valuetype(f)` -/
  upb_elem_valuetype : upb_fielddef → upb_valuetype_t
  /-- number of bytes `upb_value_read(p, type)` reads for `type` -/
  sizeof_value : upb_valuetype_t → Nat
  /-- the value `upb_value_read` makes of the bytes it read -/
  decode_value : List Nat → upb_value
  /-- `sizeof(upb_atomic_refcount_t)`, the header of `upb_msg` before `data` -/
  sizeof_refcount : Nat
  /-- `upb_downcast_msgdef(f->def)`: the message descriptor a `def` pointer
  designates, if it designates one -/
  upb_downcast_msgdef : Ptr → Option upb_msgdef

/-- A `upb_msg` block: the reference count followed by the `data` bytes
(presence bitmap and field slots). -/
structure upb_msg where
  refcount : Int
  data : List Nat
  deriving DecidableEq, Repr

/-- A `upb_array` block, with the four members `upb_array_new` initialises. -/
structure upb_array where
  refcount : Int
  size : Nat
  len : Nat
  elements : Ptr
  deriving DecidableEq, Repr

/-- A `upb_string` block; only its reference count is visible to this file. -/
structure upb_string where
  refcount : Int
  deriving DecidableEq, Repr

/-- A live heap block. -/
inductive Obj where
  | msg (m : upb_msg)
  | arr (a : upb_array)
  | str (s : upb_string)
  | raw (bytes : List Nat)
  deriving DecidableEq, Repr

/-- Calls and memory effects, recorded in program order. -/
inductive Event where
  | msg_free (msg : Ptr) (md : upb_msgdef)
  | array_free (arr : Ptr) (f : upb_fielddef)
  | string_free (str : Ptr)
  | elem_free (v : upb_value) (f : upb_fielddef)
  | elem_unref (v : upb_value) (f : upb_fielddef)
  | field_free (v : upb_value) (f : upb_fielddef)
  | field_unref (v : upb_value) (f : upb_fielddef)
  | read (base : Ptr) (off : Nat) (width : Nat)
  | unref (rc : Ptr)
  | free (p : Ptr)
  deriving DecidableEq, Repr

/-- Program state: the heap and the trace of events so far. -/
structure State where
  heap : Ptr → Option Obj
  trace : List Event

/-- Ways a call can fail to return normally: `abort()`, a failed `assert`
(assertions are compiled in), an access to memory that is not a live block of
the expected kind, the exhaustion of the nesting budget of `_upb_msg_free`,
and an allocation failure signalled to the caller (the "allocation failure"
of the specification's error taxonomy). -/
inductive Fault where
  | abort
  | assertion
  | invalid
  | fuel
  | alloc_failure
  deriving DecidableEq, Repr

/-- Outcome of a call: a normal return with a value, or a fault, each with
the state reached. -/
inductive Res (α : Type) where
  | ok (a : α) (s : State)
  | fail (e : Fault) (s : State)

/-! ## Memory primitives -/

/-- Append an event to the trace. -/
def log (e : Event) (s : State) : State :=
  { s with trace := s.trace ++ [e] }

/-- The block a pointer designates; nothing is allocated at `NULL`. -/
def deref (s : State) (p : Ptr) : Option Obj :=
  if p = 0 then none else s.heap p

/-- Store a block at an address. -/
def store (s : State) (p : Ptr) (o : Option Obj) : State :=
  { s with heap := Function.update s.heap p o }

/-- The `n` bytes of `mem` starting at `off`, when they lie inside `mem`. -/
def read_bytes (mem : List Nat) (off n : Nat) : Option (List Nat) :=
  if off + n ≤ mem.length then some ((mem.drop off).take n) else none

/-- `upb_value_read(p, type)` where `p` is `off` bytes into `mem`: the value
stored in the `sizeof_value type` bytes of the slot; `none` when the slot does
not lie inside `mem`. -/
def upb_value_read (cfg : Config) (mem : List Nat) (off : Nat)
    (type : upb_valuetype_t) : Option upb_value :=
  (read_bytes mem off (cfg.sizeof_value type)).map cfg.decode_value

/-- Modelled from the spec: `_upb_msg_getptr` of `upb_msg.h`, which is not in
the source tree. "`locate-slot(message, field)` → address/offset of the
field's storage within the message's fixed buffer, computed once from the
Field Descriptor": the offset into `data` is `f->byte_offset`. -/
abbrev _upb_msg_getptr (f : upb_fielddef) : Nat := f.byte_offset

/-- Modelled from the spec: `_upb_array_getptr` of `upb_msg.h`, which is not
in the source tree. The buffer is a "contiguous buffer of capacity homogeneous
element slots": slot `i` starts `i` element widths into it. -/
abbrev _upb_array_getptr (cfg : Config) (f : upb_fielddef) (i : Nat) : Nat :=
  i * cfg.sizeof_value (cfg.upb_elem_valuetype f)

/-- `upb_value_getrefcount(v)`: the pointer member of the union. -/
def upb_value_getrefcount (v : upb_value) : Ptr := v

/-- `upb_value_getmsg(v)` -/
def upb_value_getmsg (v : upb_value) : Ptr := v

/-- `upb_value_getstr(v)` -/
def upb_value_getstr (v : upb_value) : Ptr := v

/-- `upb_value_getarr(v)` -/
def upb_value_getarr (v : upb_value) : Ptr := v

/-- Reference count of a block that starts with one. -/
def Obj.refcount : Obj → Option Int
  | .msg m => some m.refcount
  | .arr a => some a.refcount
  | .str s => some s.refcount
  | .raw _ => none

/-- The block with its reference count replaced. -/
def Obj.setRefcount (c : Int) : Obj → Obj
  | .msg m => .msg { m with refcount := c }
  | .arr a => .arr { a with refcount := c }
  | .str s => .str { s with refcount := c }
  | .raw b => .raw b

/-- Modelled from the spec: `upb_atomic_unref` of `upb_atomic.h`, which is not
in the source tree. "Atomically decrements the counter"; the result tells
whether the decrement reached zero. One indivisible step on the state. -/
def upb_atomic_unref (rc : Ptr) (s : State) : Res Bool :=
  let s1 := log (.unref rc) s
  match deref s1 rc with
  | some o =>
    match o.refcount with
    | some c => .ok (decide (c - 1 = 0)) (store s1 rc (some (o.setRefcount (c - 1))))
    | none => .fail .invalid s1
  | none => .fail .invalid s1

/-- The C library `free(p)`: no effect on `NULL`, releases a live block,
undefined on anything else. -/
def free (p : Ptr) (s : State) : Res Unit :=
  let s1 := log (.free p) s
  if p = 0 then .ok () s1
  else
    match s1.heap p with
    | some _ => .ok () (store s1 p none)
    | none => .fail .invalid s1

/-- Modelled from the spec: `_upb_string_free` of `upb_string.c`, which is not
in the source tree. "Destroy the held byte buffer": the string block is
released. -/
def _upb_string_free (str : Ptr) (s : State) : Res Unit :=
  let s1 := log (.string_free str) s
  match deref s1 str with
  | some (.str _) => .ok () (store s1 str none)
  | _ => .fail .invalid s1

/-! ## `upb_msg_new`, `upb_msg_sethas`, `upb_array_new` -/

/-- `upb_msg_new(md)`, where `p` is the pointer `malloc(md->size)` returned
(`0` when the allocation failed). `memset` clears the `md->size` bytes of the
block and `upb_atomic_refcount_init` stores 1 in its first
`sizeof_refcount` bytes; both writes need the block to exist and to be large
enough. -/
def upb_msg_new (cfg : Config) (md : upb_msgdef) (p : Ptr) (s : State) : Res Ptr :=
  if p = 0 then .fail .invalid s
  else if md.size < cfg.sizeof_refcount then .fail .invalid s
  else
    .ok p (store s p (some (.msg
      { refcount := 1, data := List.replicate (md.size - cfg.sizeof_refcount) 0 })))

/-- `upb_msg_sethas(msg, f)` on the block `msg` points to:
`msg->data[f->field_index/8] |= (1 << (f->field_index % 8))`, a write of one
`uint8_t`; `none` when the byte lies outside `data`. -/
def upb_msg_sethas (m : upb_msg) (f : upb_fielddef) : Option upb_msg :=
  match m.data[f.field_index / 8]? with
  | some b =>
    some { m with
      data := m.data.set (f.field_index / 8) ((b ||| (1 <<< (f.field_index % 8))) % 256) }
  | none => none

/-- Modelled from the spec: the presence check `upb_msg_has` of `upb_msg.h`,
which is not in the source tree. The presence bit of `f` is "bit = index mod 8
within byte index div 8"; `none` when the byte lies outside `data`. -/
def upb_msg_has (m : upb_msg) (f : upb_fielddef) : Option Bool :=
  (m.data[f.field_index / 8]?).map
    (fun b => decide (b &&& (1 <<< (f.field_index % 8)) ≠ 0))

/-- `upb_array_new()`, where `p` is the pointer `malloc(sizeof(*arr))`
returned (`0` when the allocation failed). -/
def upb_array_new (p : Ptr) (s : State) : Res Ptr :=
  if p = 0 then .fail .invalid s
  else
    .ok p (store s p (some (.arr { refcount := 1, size := 0, len := 0, elements := 0 })))

/-! ## Release of sub-objects

The release functions are mutually recursive through the call of
`_upb_msg_free` in `upb_elem_free`. Each is written over a parameter
`msg_free` standing for that call; `_upb_msg_free` closes the recursion, with
a budget that bounds the nesting depth of message releases. Every function
records its own call in the trace on entry. -/

/-- `upb_elem_free(v, f)` -/
def upb_elem_free (cfg : Config) (msg_free : Ptr → upb_msgdef → State → Res Unit)
    (v : upb_value) (f : upb_fielddef) (s : State) : Res Unit :=
  let s1 := log (.elem_free v f) s
  match f.type with
  | .MESSAGE | .GROUP =>
    match cfg.upb_downcast_msgdef f.def_ with
    | some md => msg_free (upb_value_getmsg v) md s1
    | none => .fail .invalid s1
  | .STRING | .BYTES => _upb_string_free (upb_value_getstr v) s1
  | .other _ => .fail .abort s1

/-- `upb_elem_unref(v, f)` -/
def upb_elem_unref (cfg : Config) (msg_free : Ptr → upb_msgdef → State → Res Unit)
    (v : upb_value) (f : upb_fielddef) (s : State) : Res Unit :=
  let s1 := log (.elem_unref v f) s
  if cfg.upb_elem_ismm f = false then .fail .assertion s1
  else if upb_value_getrefcount v = 0 then .ok () s1
  else
    match upb_atomic_unref (upb_value_getrefcount v) s1 with
    | .ok true s2 => upb_elem_free cfg msg_free v f s2
    | .ok false s2 => .ok () s2
    | .fail e s2 => .fail e s2

/-- The loop of `_upb_array_free`, with `k` iterations left and `i` the loop
variable: each iteration reads `arr->elements` and the slot of index `i`
through `_upb_array_getptr` / `upb_value_read`, and calls `upb_elem_unref`.
No function of the file writes `arr->size`, so the bound `i < arr->size` is
the number of iterations fixed on entry; an array that is gone when an
iteration starts is an invalid access. -/
def array_free_loop (cfg : Config) (msg_free : Ptr → upb_msgdef → State → Res Unit)
    (arr : Ptr) (f : upb_fielddef) : Nat → Nat → State → Res Unit
  | 0, _, s => .ok () s
  | k + 1, i, s =>
    match deref s arr with
    | some (.arr a) =>
      match deref s a.elements with
      | some (.raw bytes) =>
        let w := cfg.sizeof_value (cfg.upb_elem_valuetype f)
        let p := _upb_array_getptr cfg f i
        match upb_value_read cfg bytes p (cfg.upb_elem_valuetype f) with
        | some v =>
          match upb_elem_unref cfg msg_free v f (log (.read a.elements p w) s) with
          | .ok _ s1 => array_free_loop cfg msg_free arr f k (i + 1) s1
          | .fail e s1 => .fail e s1
        | none => .fail .invalid s
      | _ => .fail .invalid s
    | _ => .fail .invalid s

/-- `_upb_array_free(arr, f)`: the loop runs while `i < arr->size`. -/
def _upb_array_free (cfg : Config) (msg_free : Ptr → upb_msgdef → State → Res Unit)
    (arr : Ptr) (f : upb_fielddef) (s : State) : Res Unit :=
  let s1 := log (.array_free arr f) s
  let r :=
    if cfg.upb_elem_ismm f then
      match deref s1 arr with
      | some (.arr a) => array_free_loop cfg msg_free arr f a.size 0 s1
      | _ => .fail .invalid s1
    else .ok () s1
  match r with
  | .ok _ s2 =>
    match deref s2 arr with
    | some (.arr a) =>
      if a.elements ≠ 0 then
        match free a.elements s2 with
        | .ok _ s3 => free arr s3
        | .fail e s3 => .fail e s3
      else free arr s2
    | _ => .fail .invalid s2
  | .fail e s2 => .fail e s2

/-- `upb_field_free(v, f)` -/
def upb_field_free (cfg : Config) (msg_free : Ptr → upb_msgdef → State → Res Unit)
    (v : upb_value) (f : upb_fielddef) (s : State) : Res Unit :=
  let s1 := log (.field_free v f) s
  if cfg.upb_isarray f then _upb_array_free cfg msg_free (upb_value_getarr v) f s1
  else upb_elem_free cfg msg_free v f s1

/-- `upb_field_unref(v, f)` -/
def upb_field_unref (cfg : Config) (msg_free : Ptr → upb_msgdef → State → Res Unit)
    (v : upb_value) (f : upb_fielddef) (s : State) : Res Unit :=
  let s1 := log (.field_unref v f) s
  if cfg.upb_field_ismm f = false then .fail .assertion s1
  else if upb_value_getrefcount v = 0 then .ok () s1
  else
    match upb_atomic_unref (upb_value_getrefcount v) s1 with
    | .ok true s2 => upb_field_free cfg msg_free v f s2
    | .ok false s2 => .ok () s2
    | .fail e s2 => .fail e s2

/-- The loop of `_upb_msg_free` over the fields still to visit: for a field
classified memory-managed the value is read from the slot at
`&msg->data[f->byte_offset]` and passed to `upb_field_unref`. -/
def msg_free_loop (cfg : Config) (msg_free : Ptr → upb_msgdef → State → Res Unit)
    (msg : Ptr) : List upb_fielddef → State → Res Unit
  | [], s => .ok () s
  | f :: fs, s =>
    if cfg.upb_field_ismm f then
      match deref s msg with
      | some (.msg m) =>
        let w := cfg.sizeof_value (cfg.upb_field_valuetype f)
        let p := _upb_msg_getptr f
        match upb_value_read cfg m.data p (cfg.upb_field_valuetype f) with
        | some v =>
          match upb_field_unref cfg msg_free v f (log (.read msg p w) s) with
          | .ok _ s1 => msg_free_loop cfg msg_free msg fs s1
          | .fail e s1 => .fail e s1
        | none => .fail .invalid s
      | _ => .fail .invalid s
    else msg_free_loop cfg msg_free msg fs s

/-- `_upb_msg_free(msg, md)`; the first argument bounds how deeply message
releases may nest, and `Fault.fuel` reports that the bound was hit. -/
def _upb_msg_free (cfg : Config) : Nat → Ptr → upb_msgdef → State → Res Unit
  | 0, _, _, s => .fail .fuel s
  | n + 1, msg, md, s =>
    match msg_free_loop cfg (_upb_msg_free cfg n) msg md.fields (log (.msg_free msg md) s) with
    | .ok _ s1 => free msg s1
    | .fail e s1 => .fail e s1

/-! ## Observations on outcomes -/

/-- The trace of an outcome. -/
def Res.trace {α : Type} : Res α → List Event
  | .ok _ s => s.trace
  | .fail _ s => s.trace

/-- The heap of an outcome. -/
def Res.heap {α : Type} : Res α → Ptr → Option Obj
  | .ok _ s => s.heap
  | .fail _ s => s.heap

/-- The fault of an outcome, if it is one. -/
def Res.fault {α : Type} : Res α → Option Fault
  | .ok _ _ => none
  | .fail e _ => some e

/-- Whether the call returned normally. -/
def Res.returned {α : Type} (r : Res α) : Bool := r.fault.isNone

/-- The empty heap with an empty trace. -/
def State.empty : State := { heap := fun _ => none, trace := [] }

/-! ## Concrete configuration and descriptors used by the witnesses -/

/-- Modelled from the spec: the classification of `upb_def.h`, which is not in
the source tree. An element is memory-managed "iff kind ∈ {STRING, BYTES,
MESSAGE, GROUP}", "is-array" is "the repeated-field flag" (label 3), and a
field is memory-managed when it is an array or its element is. -/
def witnessElemIsmm (f : upb_fielddef) : Bool :=
  match f.type with
  | .other _ => false
  | _ => true

/-- Little-endian value of a byte string. -/
def le_decode : List Nat → Nat
  | [] => 0
  | b :: bs => b + 256 * le_decode bs

/-- A configuration for the witnesses: the classification above, 8-byte
little-endian pointers, 4-byte scalars, a 4-byte reference count, and the
descriptor table given as argument. -/
def mkConfig (defs : Ptr → Option upb_msgdef) : Config :=
  { upb_elem_ismm := witnessElemIsmm
    upb_field_ismm := fun f => decide (f.label = 3) || witnessElemIsmm f
    upb_isarray := fun f => decide (f.label = 3)
    upb_field_valuetype := fun f =>
      if f.label = 3 then 0 else if witnessElemIsmm f then 1 else 2
    upb_elem_valuetype := fun f => if witnessElemIsmm f then 1 else 2
    sizeof_value := fun t => if t = 2 then 4 else 8
    decode_value := le_decode
    sizeof_refcount := 4
    upb_downcast_msgdef := defs }

/-- A message type with one scalar field: one bitmap byte, 3 bytes of padding
and a 4-byte slot after the 4-byte reference count. -/
def witnessLeaf : upb_msgdef :=
  { size := 12
    fields := [{ type := .other 5, label := 1, field_index := 0, byte_offset := 4, def_ := 0 }] }

/-- The witness configuration: descriptor 100 is `witnessLeaf`. -/
def witnessConfig : Config :=
  mkConfig (fun d => if d = 100 then some witnessLeaf else none)

/-- A field whose presence bit is bit 0 of bitmap byte 1. -/
def witnessField8 : upb_fielddef :=
  { type := .other 5, label := 1, field_index := 8, byte_offset := 4, def_ := 0 }

/-- A message with two bitmap bytes (bit 7 of byte 0 set), two bytes of
padding and a 4-byte slot holding 9. -/
def witnessBitmapMsg : upb_msg :=
  { refcount := 1, data := [128, 0, 0, 0, 9, 0, 0, 0] }

/-- The MESSAGE field of the teardown witness: slot at offset 8, nested
descriptor 100. -/
def witnessSubField : upb_fielddef :=
  { type := .MESSAGE, label := 1, field_index := 0, byte_offset := 8, def_ := 100 }

/-- The repeated STRING field of the teardown witness: slot at offset 16. -/
def witnessStrsField : upb_fielddef :=
  { type := .STRING, label := 3, field_index := 1, byte_offset := 16, def_ := 0 }

/-- The message type of the teardown witness: a 4-byte reference count, one
bitmap byte padded to 8, and two 8-byte pointer slots. -/
def witnessRoot : upb_msgdef :=
  { size := 28, fields := [witnessSubField, witnessStrsField] }

/-- The heap of the teardown witness: the root message at 10 holds the
sub-message at 20 and the array at 30; the array has 3 elements in the buffer
at 31, which holds the strings at 41, 42 and 43. Every count is 1. -/
def witnessHeap : Ptr → Option Obj := fun p =>
  if p = 10 then
    some (.msg { refcount := 1
                 data := [3, 0, 0, 0, 0, 0, 0, 0, 20, 0, 0, 0, 0, 0, 0, 0,
                          30, 0, 0, 0, 0, 0, 0, 0] })
  else if p = 20 then some (.msg { refcount := 1, data := [1, 0, 0, 0, 42, 0, 0, 0] })
  else if p = 30 then some (.arr { refcount := 1, size := 3, len := 3, elements := 31 })
  else if p = 31 then
    some (.raw [41, 0, 0, 0, 0, 0, 0, 0, 42, 0, 0, 0, 0, 0, 0, 0,
                43, 0, 0, 0, 0, 0, 0, 0])
  else if p = 41 ∨ p = 42 ∨ p = 43 then some (.str { refcount := 1 })
  else none

/-- The state of the teardown witness. -/
def witnessState : State := { heap := witnessHeap, trace := [] }

/-- Whether an event releases a block. -/
def Event.isRelease : Event → Bool
  | .free _ => true
  | .string_free _ => true
  | _ => false

/-! ## The array destroy operation as the specification words it -/

/-- Continue with `k` from the state of a normal return; a fault ends the
run. -/
def Res.andThen (r : Res Unit) (k : State → Res Unit) : Res Unit :=
  match r with
  | .ok _ s => k s
  | .fail e s => .fail e s

/-- "Invoking the element-release path" on slot `i` of the array at `arr`:
the value stored in the slot is read and passed to `upb_elem_unref`. -/
def release_slot (cfg : Config) (msg_free : Ptr → upb_msgdef → State → Res Unit)
    (arr : Ptr) (f : upb_fielddef) (i : Nat) (s : State) : Res Unit :=
  match deref s arr with
  | some (.arr a) =>
    match deref s a.elements with
    | some (.raw bytes) =>
      let w := cfg.sizeof_value (cfg.upb_elem_valuetype f)
      let p := _upb_array_getptr cfg f i
      match upb_value_read cfg bytes p (cfg.upb_elem_valuetype f) with
      | some v => upb_elem_unref cfg msg_free v f (log (.read a.elements p w) s)
      | none => .fail .invalid s
    | _ => .fail .invalid s
  | _ => .fail .invalid s

/-- The specification's `destroy(array, field)`, following its words: "if
`field`'s element kind is memory-managed, iterates slots `0 .. n-1`, invoking
the element-release path on each"; "after element release, releases the
backing buffer if" it has one, "then releases the Array structure itself".
Two readings are left open as parameters: the number `n = slots a` of slots
iterated (the specification says the length, `fun a => a.len`) and the test
`has_buffer a` for a backing buffer (the specification says `capacity > 0`,
`fun a => decide (0 < a.size)`). -/
def array_destroy (slots : upb_array → Nat) (has_buffer : upb_array → Bool) (cfg : Config)
    (msg_free : Ptr → upb_msgdef → State → Res Unit)
    (arr : Ptr) (f : upb_fielddef) (s : State) : Res Unit :=
  let s1 := log (.array_free arr f) s
  let released : Res Unit :=
    if cfg.upb_elem_ismm f then
      match deref s1 arr with
      | some (.arr a) =>
        (List.range (slots a)).foldl
          (fun r i => r.andThen (release_slot cfg msg_free arr f i)) (.ok () s1)
      | _ => .fail .invalid s1
    else .ok () s1
  released.andThen fun s2 =>
    match deref s2 arr with
    | some (.arr a) =>
      (if has_buffer a then free a.elements s2 else .ok () s2).andThen (free arr)
    | _ => .fail .invalid s2

/-- An array whose count has just reached zero, with `len` 0 and `size` 1:
its one allocated slot still holds the string at 41. -/
def cachedArrayState : State :=
  { heap := fun p =>
      if p = 30 then some (.arr { refcount := 0, size := 1, len := 0, elements := 31 })
      else if p = 31 then some (.raw [41, 0, 0, 0, 0, 0, 0, 0])
      else if p = 41 then some (.str { refcount := 1 })
      else none
    trace := [] }

/-- An array whose count has just reached zero, with `len` 1 and `size` 2:
slot 0 holds the string at 41 and slot 1, beyond `len`, the string at 42. -/
def truncatedArrayState : State :=
  { heap := fun p =>
      if p = 30 then some (.arr { refcount := 0, size := 2, len := 1, elements := 31 })
      else if p = 31 then some (.raw [41, 0, 0, 0, 0, 0, 0, 0, 42, 0, 0, 0, 0, 0, 0, 0])
      else if p = 41 ∨ p = 42 then some (.str { refcount := 1 })
      else none
    trace := [] }

/-- An array with `size` 0 next to an unrelated block. -/
def emptyArrayState : State :=
  { heap := fun p =>
      if p = 30 then some (.arr { refcount := 0, size := 0, len := 0, elements := 0 })
      else if p = 41 then some (.str { refcount := 1 })
      else none
    trace := [] }

/-! ## The objects a message owns

`reach_msg` lists the blocks reachable from a message through the slots of
its memory-managed fields and the slots of the arrays it holds, in depth-first
order with each block after the blocks reached through it. A block reached
along two paths is listed twice, and a cycle exhausts the depth bound, so the
reachable blocks form a tree exactly when the list exists and has no
duplicates. The functions take the nested traversal `reach` as parameter in
the same way the release functions take `msg_free`. -/

/-- Blocks reached through an element value of field `f`: nothing for a null
handle, the string for STRING / BYTES, the nested message and what it reaches
for MESSAGE / GROUP. -/
def reach_elem (cfg : Config) (reach : Ptr → upb_msgdef → Option (List Ptr))
    (s0 : State) (v : upb_value) (f : upb_fielddef) : Option (List Ptr) :=
  if v = 0 then some []
  else
    match f.type with
    | .MESSAGE | .GROUP =>
      match cfg.upb_downcast_msgdef f.def_ with
      | some md => (reach v md).map (fun l => l ++ [v])
      | none => none
    | .STRING | .BYTES =>
      match deref s0 v with
      | some (.str _) => some [v]
      | _ => none
    | .other _ => none

/-- Blocks reached through the `k` slots from index `i` on of an element
buffer holding `bytes`. -/
def reach_slots (cfg : Config) (reach : Ptr → upb_msgdef → Option (List Ptr))
    (s0 : State) (bytes : List Nat) (f : upb_fielddef) : Nat → Nat → Option (List Ptr)
  | 0, _ => some []
  | k + 1, i =>
    match upb_value_read cfg bytes (_upb_array_getptr cfg f i) (cfg.upb_elem_valuetype f) with
    | some v =>
      match reach_elem cfg reach s0 v f, reach_slots cfg reach s0 bytes f k (i + 1) with
      | some l1, some l2 => some (l1 ++ l2)
      | _, _ => none
    | none => none

/-- Blocks reached through the array at `arr` held by field `f`: what its
`size` slots reach when the element kind is memory-managed, then its buffer
when it has one, then the array itself. -/
def reach_array (cfg : Config) (reach : Ptr → upb_msgdef → Option (List Ptr))
    (s0 : State) (arr : Ptr) (f : upb_fielddef) : Option (List Ptr) :=
  match deref s0 arr with
  | some (.arr a) =>
    if a.elements = 0 then
      if cfg.upb_elem_ismm f = true ∧ a.size ≠ 0 then none else some [arr]
    else
      match deref s0 a.elements with
      | some (.raw bytes) =>
        if cfg.upb_elem_ismm f then
          (reach_slots cfg reach s0 bytes f a.size 0).map (fun l => l ++ [a.elements, arr])
        else some [a.elements, arr]
      | _ => none
  | _ => none

/-- Blocks reached through the value of a memory-managed field. -/
def reach_field (cfg : Config) (reach : Ptr → upb_msgdef → Option (List Ptr))
    (s0 : State) (v : upb_value) (f : upb_fielddef) : Option (List Ptr) :=
  if v = 0 then some []
  else if cfg.upb_isarray f then reach_array cfg reach s0 v f
  else reach_elem cfg reach s0 v f

/-- Blocks reached through the memory-managed fields among `fs` of a message
whose `data` is given. -/
def reach_fields (cfg : Config) (reach : Ptr → upb_msgdef → Option (List Ptr))
    (s0 : State) (data : List Nat) : List upb_fielddef → Option (List Ptr)
  | [] => some []
  | f :: fs =>
    if cfg.upb_field_ismm f then
      match upb_value_read cfg data (_upb_msg_getptr f) (cfg.upb_field_valuetype f) with
      | some v =>
        match reach_field cfg reach s0 v f, reach_fields cfg reach s0 data fs with
        | some l1, some l2 => some (l1 ++ l2)
        | _, _ => none
      | none => none
    else reach_fields cfg reach s0 data fs

/-- Blocks reachable from the message at `msg` of type `md` (the message
itself excluded), through at most `n` levels of nested messages. -/
def reach_msg (cfg : Config) (s0 : State) : Nat → Ptr → upb_msgdef → Option (List Ptr)
  | 0, _, _ => none
  | n + 1, msg, md =>
    match deref s0 msg with
    | some (.msg m) => reach_fields cfg (reach_msg cfg s0 n) s0 m.data md.fields
    | _ => none

/-- Whether a block is live with a reference count of 1 (a raw buffer has no
count). -/
def rc_one : Option Obj → Bool
  | some o =>
    match o.refcount with
    | some c => decide (c = 1)
    | none => true
  | none => false

/-- The block an event releases, if it releases one. -/
def Event.released : Event → Option Ptr
  | .free p => if p = 0 then none else some p
  | .string_free p => some p
  | _ => none

/-- The blocks released along a trace, in order. -/
def releases (t : List Event) : List Ptr := t.filterMap Event.released

/-- State `s1` is reached from `s` by releasing exactly the blocks `L`, in
that order: the releases of the trace grow by `L`, the blocks of `L` are gone,
and every other block is untouched. -/
def Released (s s1 : State) (L : List Ptr) : Prop :=
  releases s1.trace = releases s.trace ++ L ∧
    ∀ q, s1.heap q = if q ∈ L then none else s.heap q

/-- State `s` holds the blocks `L` as `s0` does, except that the count of the
block at `v` has been lowered to 0. -/
def Ready (s0 s : State) (L : List Ptr) (v : Ptr) : Prop :=
  (∀ q ∈ L, q ≠ v → s.heap q = s0.heap q) ∧
    s.heap v = (s0.heap v).map (Obj.setRefcount 0)

/-- The statement that `_upb_msg_free` with budget `n` releases the tree below
the message at `p` and then the message, from every state that holds the tree
as `s0` does and the message with the same `data`. -/
def MsgFreeOk (cfg : Config) (s0 : State) (n : Nat) : Prop :=
  ∀ (p : Ptr) (md : upb_msgdef) (L : List Ptr) (s : State),
    reach_msg cfg s0 n p md = some L →
    (L ++ [p]).Nodup →
    (∀ q ∈ L, rc_one (s0.heap q) = true) →
    (∀ q ∈ L, s.heap q = s0.heap q) →
    (∀ m, deref s0 p = some (.msg m) → ∃ m1, deref s p = some (.msg m1) ∧ m1.data = m.data) →
    ∃ s1, _upb_msg_free cfg n p md s = .ok () s1 ∧ Released s s1 (L ++ [p])

/-! ## Concurrent release calls on one object

`upb_field_unref` and `upb_elem_unref` each consist of the atomic
decrement-and-test `upb_atomic_unref` and, after it, the call of the free
routine when the test succeeded. Threads releasing the same object interleave
at this granularity: a schedule is the list of thread numbers in the order in
which they take their next step. -/

/-- One release call on the value `v`: `upb_elem_unref(v, f)` when `elem`,
`upb_field_unref(v, f)` otherwise. -/
structure ReleaseCall where
  elem : Bool
  f : upb_fielddef
  deriving DecidableEq, Repr

/-- Where a thread stands in its release call: before it, after the
decrement-and-test with its result in hand, or returned. -/
inductive Pc where
  | start
  | decided (zero : Bool)
  | finished
  deriving DecidableEq, Repr

/-- A record of one executed decrement-and-test: the thread, the count of the
object before and after it, and the result of the test. -/
structure Dec where
  tid : Nat
  before : Int
  after : Int
  zero : Bool
  deriving DecidableEq, Repr

/-- The count stored in the block at `v` (0 when there is none). -/
def count_at (s : State) (v : Ptr) : Int :=
  ((deref s v).bind Obj.refcount).getD 0

/-- The release call up to and including `upb_atomic_unref`: the assertion,
the null test and the decrement-and-test, whose result is returned. -/
def unref_enter (cfg : Config) (c : ReleaseCall) (v : upb_value) (s : State) : Res Bool :=
  let s1 := log (if c.elem then .elem_unref v c.f else .field_unref v c.f) s
  if (if c.elem then cfg.upb_elem_ismm c.f else cfg.upb_field_ismm c.f) = false then
    .fail .assertion s1
  else if upb_value_getrefcount v = 0 then .ok false s1
  else upb_atomic_unref (upb_value_getrefcount v) s1

/-- The release call after `upb_atomic_unref`: the free routine
(`upb_elem_free` or `upb_field_free`) when the test succeeded. -/
def unref_finish (cfg : Config) (msg_free : Ptr → upb_msgdef → State → Res Unit)
    (c : ReleaseCall) (v : upb_value) (zero : Bool) (s : State) : Res Unit :=
  if zero then
    if c.elem then upb_elem_free cfg msg_free v c.f s
    else upb_field_free cfg msg_free v c.f s
  else .ok () s

/-- The threads and the memory they share. `decs` records the
decrement-and-test steps executed and `frees` the threads that invoked the
free routine, both most recent first; after a fault no thread runs. -/
structure Sys where
  st : State
  crashed : Option Fault
  pcs : List Pc
  decs : List Dec
  frees : List Nat

/-- The system before any thread has started: thread `i` is to perform the
`i`-th call. -/
def Sys.init (calls : List ReleaseCall) (s : State) : Sys :=
  { st := s, crashed := none, pcs := calls.map (fun _ => .start), decs := [], frees := [] }

/-- The system after thread `i`, whose test gave `zero`, ran the rest of its
call with outcome `r`: the thread invoked the free routine exactly when
`zero`; it has returned unless the routine ended in a fault. -/
def Sys.returned (sys : Sys) (i : Nat) (zero : Bool) (r : Res Unit) : Sys :=
  match r with
  | .ok _ s1 =>
    { sys with
      st := s1
      pcs := sys.pcs.set i .finished
      frees := if zero then i :: sys.frees else sys.frees }
  | .fail e s1 =>
    { sys with
      st := s1
      crashed := some e
      frees := if zero then i :: sys.frees else sys.frees }

/-- Thread `i` takes its next step. -/
def Sys.step (cfg : Config) (msg_free : Ptr → upb_msgdef → State → Res Unit)
    (v : upb_value) (calls : List ReleaseCall) (sys : Sys) (i : Nat) : Sys :=
  match sys.crashed, calls[i]?, sys.pcs[i]? with
  | none, some c, some .start =>
    match unref_enter cfg c v sys.st with
    | .ok z s1 =>
      { sys with
        st := s1
        pcs := sys.pcs.set i (.decided z)
        decs := { tid := i, before := count_at sys.st v, after := count_at s1 v, zero := z }
          :: sys.decs }
    | .fail e s1 => { sys with st := s1, crashed := some e }
  | none, some c, some (.decided z) =>
    sys.returned i z (unref_finish cfg msg_free c v z sys.st)
  | _, _, _ => sys

/-- The system after the steps of a schedule. -/
def Sys.run (cfg : Config) (msg_free : Ptr → upb_msgdef → State → Res Unit)
    (v : upb_value) (calls : List ReleaseCall) (sys : Sys) (sched : List Nat) : Sys :=
  sched.foldl (Sys.step cfg msg_free v calls) sys

/-- Every call has returned, or the process has been ended by a fault. -/
def Sys.complete (sys : Sys) : Prop :=
  sys.crashed ≠ none ∨ ∀ pc ∈ sys.pcs, pc = .finished

instance (sys : Sys) : Decidable sys.complete := by
  unfold Sys.complete
  exact inferInstance

/-- The records `decs` (most recent first) count down from `N`: each
decrement found the count left by the previous one, lowered it by one, and
tested the result against zero. -/
def DecsOk (N : Nat) : List Dec → Prop
  | [] => True
  | d :: rest =>
    d.before = (N : Int) - rest.length ∧ d.after = d.before - 1 ∧
      d.zero = decide (d.after = 0) ∧ DecsOk N rest

/-- What holds of the system after any number of steps of `N` threads
releasing the object at `v`, whose count was `N`. -/
structure SysInv (v : Ptr) (N : Nat) (sys : Sys) : Prop where
  len : sys.pcs.length = N
  tid_lt : ∀ d ∈ sys.decs, d.tid < N
  tid_nodup : (sys.decs.map Dec.tid).Nodup
  started : ∀ i, sys.pcs[i]? = some .start → i ∉ sys.decs.map Dec.tid
  decided : ∀ i z, sys.pcs[i]? = some (.decided z) → ∃ d ∈ sys.decs, d.tid = i ∧ d.zero = z
  decs_ok : DecsOk N sys.decs
  live : sys.frees = [] → sys.crashed = none ∧
    ∃ o, sys.st.heap v = some o ∧ o.refcount = some ((N : Int) - sys.decs.length)
  freed : sys.frees = [] ∨ ∃ d rest, sys.decs = d :: rest ∧ d.zero = true ∧
    sys.frees = [d.tid] ∧ (sys.crashed = none → sys.pcs[d.tid]? = some .finished)
  finished : ∀ i, sys.pcs[i]? = some .finished →
    ∃ d ∈ sys.decs, d.tid = i ∧ (d.zero = true → i ∈ sys.frees)

/-- Two threads releasing the string at 41, whose count is 2: one through an
array element, one through a field. -/
def sharedStringState : State :=
  { heap := fun p => if p = 41 then some (.str { refcount := 2 }) else none
    trace := [] }

/-- A non-repeated STRING field. -/
def witnessStrField : upb_fielddef :=
  { type := .STRING, label := 1, field_index := 2, byte_offset := 24, def_ := 0 }

/-- The two calls on the shared string. -/
def sharedCalls : List ReleaseCall :=
  [{ elem := true, f := witnessStrsField }, { elem := false, f := witnessStrField }]

/-- A field whose presence bit is bit 7 of bitmap byte 0, which is set in
`witnessBitmapMsg`. -/
def witnessField7 : upb_fielddef :=
  { type := .other 5, label := 1, field_index := 7, byte_offset := 4, def_ := 0 }

/-! ## The message destroy operation as the specification words it -/

/-- "Reads the stored Value and invokes `release-field-value`" for the field
`f` of the message at `msg`: the value stored in the slot of `f` is read and
passed to `upb_field_unref`. -/
def release_field (cfg : Config) (msg_free : Ptr → upb_msgdef → State → Res Unit)
    (msg : Ptr) (f : upb_fielddef) (s : State) : Res Unit :=
  match deref s msg with
  | some (.msg m) =>
    let w := cfg.sizeof_value (cfg.upb_field_valuetype f)
    let p := _upb_msg_getptr f
    match upb_value_read cfg m.data p (cfg.upb_field_valuetype f) with
    | some v => upb_field_unref cfg msg_free v f (log (.read msg p w) s)
    | none => .fail .invalid s
  | _ => .fail .invalid s

/-- The specification's `destroy(message, descriptor)`, following its words:
"traverses every Field Descriptor in the message's descriptor's stable order;
for each field classified memory-managed, reads the stored Value and invokes
`release-field-value`; after all fields are processed, releases the message's
own backing storage". A fault ends the run. -/
def msg_destroy (cfg : Config) (msg_free : Ptr → upb_msgdef → State → Res Unit)
    (msg : Ptr) (md : upb_msgdef) (s : State) : Res Unit :=
  (md.fields.foldl
    (fun (r : Res Unit) f =>
      if cfg.upb_field_ismm f then r.andThen (release_field cfg msg_free msg f) else r)
    (.ok () (log (.msg_free msg md) s))).andThen (free msg)

/-- The events of the loop of `_upb_msg_free` on a message at `p` all of whose
slots hold null handles: for each field classified memory-managed, the read
of its slot and the call of `upb_field_unref` on the null value. -/
def null_release_events (cfg : Config) (p : Ptr) : List upb_fielddef → List Event
  | [] => []
  | f :: fs =>
    if cfg.upb_field_ismm f then
      .read p (_upb_msg_getptr f) (cfg.sizeof_value (cfg.upb_field_valuetype f))
        :: .field_unref 0 f :: null_release_events cfg p fs
    else null_release_events cfg p fs

/-! ## Well-formed classification -/

/-- Whether a kind is one of the four that `upb_elem_free` can free. -/
def upb_fieldtype.owned : upb_fieldtype → Bool
  | .other _ => false
  | _ => true

/-- The field is "classified memory-managed only when its kind is STRING,
BYTES, MESSAGE or GROUP (or, for the field-level predicate, when it is an
array)". -/
def classified_ok (cfg : Config) (f : upb_fielddef) : Bool :=
  (!cfg.upb_elem_ismm f || f.type.owned) &&
    (!cfg.upb_field_ismm f || cfg.upb_isarray f || f.type.owned)

/-- Descriptor `md2` is `md` itself or is nested in it: designated by the
`def` of a MESSAGE or GROUP field of `md` or of a descriptor nested in it. -/
inductive Nested (cfg : Config) : upb_msgdef → upb_msgdef → Prop where
  | refl (md : upb_msgdef) : Nested cfg md md
  | step (md md1 md2 : upb_msgdef) (f : upb_fielddef) :
      f ∈ md.fields → (f.type = .MESSAGE ∨ f.type = .GROUP) →
      cfg.upb_downcast_msgdef f.def_ = some md1 → Nested cfg md1 md2 → Nested cfg md md2

/-- Every field of the descriptor and, recursively, of every nested
descriptor is classified consistently. -/
def DescOk (cfg : Config) (md : upb_msgdef) : Prop :=
  ∀ md2, Nested cfg md md2 → ∀ f ∈ md2.fields, classified_ok cfg f = true

/-- The field is classified consistently, and so is every field of the
descriptor it designates, recursively. -/
def FieldOk (cfg : Config) (f : upb_fielddef) : Prop :=
  classified_ok cfg f = true ∧
    ∀ md1, (f.type = .MESSAGE ∨ f.type = .GROUP) →
      cfg.upb_downcast_msgdef f.def_ = some md1 → DescOk cfg md1

/-- The call did not end in `abort()` nor in a failed assertion. -/
def Res.safe {α : Type} (r : Res α) : Prop :=
  r.fault ≠ some .abort ∧ r.fault ≠ some .assertion

/-! ## Termination -/

/-- The call did not stop for lack of nesting budget: it came to an end of
its own, by returning or by a fault of the program. -/
def Res.ended {α : Type} (r : Res α) : Prop := r.fault ≠ some .fuel

instance {α : Type} (r : Res α) : Decidable r.ended := by
  unfold Res.ended
  exact inferInstance

/-- Wherever `f` comes to an end of its own, `g` does the same as `f`. -/
def Extends (f g : Ptr → upb_msgdef → State → Res Unit) : Prop :=
  ∀ p md s, (f p md s).ended → g p md s = f p md s

/-! ## Nesting depth of the object graph

`msg_depth_ok cfg s0 n msg md` holds when every chain of messages nested in
one another that starts at the message at `msg`, following the handles stored
in memory-managed field slots and in the slots of held arrays, has at most
`n` members. A cycle in the graph is a chain without end, so the graph below a
message is acyclic exactly when its chains are bounded, and in a finite heap
that is when some `n` makes `msg_depth_ok` hold. -/

/-- The chains through an element value: those of the nested message for a
non-null MESSAGE / GROUP handle, none otherwise. -/
def elem_depth_ok (cfg : Config) (nested : Ptr → upb_msgdef → Bool)
    (v : upb_value) (f : upb_fielddef) : Bool :=
  if v = 0 then true
  else
    match f.type with
    | .MESSAGE | .GROUP =>
      match cfg.upb_downcast_msgdef f.def_ with
      | some md => nested v md
      | none => true
    | _ => true

/-- The chains through the `k` slots from index `i` on of an element buffer. -/
def slots_depth_ok (cfg : Config) (nested : Ptr → upb_msgdef → Bool)
    (bytes : List Nat) (f : upb_fielddef) : Nat → Nat → Bool
  | 0, _ => true
  | k + 1, i =>
    (match upb_value_read cfg bytes (_upb_array_getptr cfg f i) (cfg.upb_elem_valuetype f) with
      | some v => elem_depth_ok cfg nested v f
      | none => true) &&
      slots_depth_ok cfg nested bytes f k (i + 1)

/-- The chains through the array at `arr` held by field `f`. -/
def array_depth_ok (cfg : Config) (nested : Ptr → upb_msgdef → Bool)
    (s0 : State) (arr : Ptr) (f : upb_fielddef) : Bool :=
  if cfg.upb_elem_ismm f then
    match deref s0 arr with
    | some (.arr a) =>
      match deref s0 a.elements with
      | some (.raw bytes) => slots_depth_ok cfg nested bytes f a.size 0
      | _ => true
    | _ => true
  else true

/-- The chains through the value of a memory-managed field. -/
def field_depth_ok (cfg : Config) (nested : Ptr → upb_msgdef → Bool)
    (s0 : State) (v : upb_value) (f : upb_fielddef) : Bool :=
  if v = 0 then true
  else if cfg.upb_isarray f then array_depth_ok cfg nested s0 v f
  else elem_depth_ok cfg nested v f

/-- The chains through the memory-managed fields among `fs` of a message
whose `data` is given. -/
def fields_depth_ok (cfg : Config) (nested : Ptr → upb_msgdef → Bool)
    (s0 : State) (data : List Nat) : List upb_fielddef → Bool
  | [] => true
  | f :: fs =>
    (if cfg.upb_field_ismm f then
      match upb_value_read cfg data (_upb_msg_getptr f) (cfg.upb_field_valuetype f) with
      | some v => field_depth_ok cfg nested s0 v f
      | none => true
    else true) &&
      fields_depth_ok cfg nested s0 data fs

/-- Every chain of nested messages from the message at `msg` of type `md` has
at most `n` members. -/
def msg_depth_ok (cfg : Config) (s0 : State) : Nat → Ptr → upb_msgdef → Bool
  | 0, _, _ => false
  | n + 1, msg, md =>
    match deref s0 msg with
    | some (.msg m) => fields_depth_ok cfg (msg_depth_ok cfg s0 n) s0 m.data md.fields
    | _ => true

/-- Every live block of `s` is a block of `s0`, up to its reference count:
the release functions only lower counts and free blocks. -/
def Same (s0 s : State) : Prop :=
  ∀ q o, s.heap q = some o →
    ∃ o0, s0.heap q = some o0 ∧ o0.setRefcount 0 = o.setRefcount 0

/-- The call came to an end of its own, and when it returned the blocks are
still those of `s0` up to their counts. -/
def Keeps {α : Type} (s0 : State) (r : Res α) : Prop :=
  match r with
  | .ok _ s1 => Same s0 s1
  | .fail e _ => e ≠ .fuel

/-! ## A shared sub-message and a cycle -/

/-- A message type with two MESSAGE fields of type `witnessLeaf`. -/
def witnessTwoSubs : upb_msgdef :=
  { size := 28
    fields :=
      [{ type := .MESSAGE, label := 1, field_index := 0, byte_offset := 8, def_ := 100 },
       { type := .MESSAGE, label := 1, field_index := 1, byte_offset := 16, def_ := 100 }] }

/-- An acyclic graph that is not a tree: both fields of the message at 10 hold
the sub-message at 20, whose count is 2. -/
def sharedSubState : State :=
  { heap := fun p =>
      if p = 10 then
        some (.msg { refcount := 1
                     data := [3, 0, 0, 0, 0, 0, 0, 0, 20, 0, 0, 0, 0, 0, 0, 0,
                              20, 0, 0, 0, 0, 0, 0, 0] })
      else if p = 20 then some (.msg { refcount := 2, data := [1, 0, 0, 0, 42, 0, 0, 0] })
      else none
    trace := [] }

/-- A message type with one MESSAGE field of its own type (descriptor 200). -/
def cycleNode : upb_msgdef :=
  { size := 20
    fields := [{ type := .MESSAGE, label := 1, field_index := 0, byte_offset := 8, def_ := 200 }] }

/-- The configuration of the cycle: descriptor 200 is `cycleNode`. -/
def cycleConfig : Config :=
  mkConfig (fun d => if d = 200 then some cycleNode else none)

/-- The heap of a cycle of two messages: the field of the message at 10 holds
the message at 20, whose field holds the message at 10; the message at 20 has
count 1 and the message at 10 has count `c`. -/
def cycleHeap (c : Int) : Ptr → Option Obj := fun p =>
  if p = 10 then
    some (.msg { refcount := c, data := [1, 0, 0, 0, 0, 0, 0, 0, 20, 0, 0, 0, 0, 0, 0, 0] })
  else if p = 20 then
    some (.msg { refcount := 1, data := [1, 0, 0, 0, 0, 0, 0, 0, 10, 0, 0, 0, 0, 0, 0, 0] })
  else none

/-- The cycle in which each message holds the only reference to the other. -/
def cycleState : State := { heap := cycleHeap 1, trace := [] }

/-- The cycle in which the message at 10 is also referenced from outside
(count 2). -/
def ownedCycleState : State := { heap := cycleHeap 2, trace := [] }

/-- The block at `q` is live with a count of at least 1: a decrement can still
take its count from 1 to 0. -/
def armed (s : State) (q : Ptr) : Prop :=
  ∃ o c, s.heap q = some o ∧ o.refcount = some c ∧ 1 ≤ c

/-- The call came to an end of its own, and when it returned it armed no
block. -/
def Disarms {α : Type} (s : State) (r : Res α) : Prop :=
  match r with
  | .ok _ s1 => ∀ q, armed s1 q → armed s q
  | .fail e _ => e ≠ .fuel

/-! ## Independence of a message's own count

`msg_avoids cfg s0 tgt n msg md` holds when no memory-managed slot that the
release of the message at `msg` can reach within `n` nested message releases,
following the handles stored in field slots and in the slots of held arrays,
holds a handle to the block at `tgt`. With `tgt = msg` it says that the
message is not held below itself: no cycle of the object graph passes through
it. -/

/-- No handle to `tgt` through an element value: the value itself is not
`tgt`, and for a MESSAGE / GROUP handle neither is any handle below the nested
message. -/
def elem_avoids (cfg : Config) (nested : Ptr → upb_msgdef → Bool) (tgt : Ptr)
    (v : upb_value) (f : upb_fielddef) : Bool :=
  if v = 0 then true
  else if v = tgt then false
  else
    match f.type with
    | .MESSAGE | .GROUP =>
      match cfg.upb_downcast_msgdef f.def_ with
      | some md => nested v md
      | none => true
    | _ => true

/-- No handle to `tgt` through the `k` slots from index `i` on of an element
buffer. -/
def slots_avoid (cfg : Config) (nested : Ptr → upb_msgdef → Bool) (tgt : Ptr)
    (bytes : List Nat) (f : upb_fielddef) : Nat → Nat → Bool
  | 0, _ => true
  | k + 1, i =>
    (match upb_value_read cfg bytes (_upb_array_getptr cfg f i) (cfg.upb_elem_valuetype f) with
      | some v => elem_avoids cfg nested tgt v f
      | none => true) &&
      slots_avoid cfg nested tgt bytes f k (i + 1)

/-- No handle to `tgt` through the array at `arr` held by field `f`. -/
def array_avoids (cfg : Config) (nested : Ptr → upb_msgdef → Bool) (tgt : Ptr)
    (s0 : State) (arr : Ptr) (f : upb_fielddef) : Bool :=
  if cfg.upb_elem_ismm f then
    match deref s0 arr with
    | some (.arr a) =>
      match deref s0 a.elements with
      | some (.raw bytes) => slots_avoid cfg nested tgt bytes f a.size 0
      | _ => true
    | _ => true
  else true

/-- No handle to `tgt` through the value of a memory-managed field. -/
def field_avoids (cfg : Config) (nested : Ptr → upb_msgdef → Bool) (tgt : Ptr)
    (s0 : State) (v : upb_value) (f : upb_fielddef) : Bool :=
  if v = 0 then true
  else if v = tgt then false
  else if cfg.upb_isarray f then array_avoids cfg nested tgt s0 v f
  else elem_avoids cfg nested tgt v f

/-- No handle to `tgt` through the memory-managed fields among `fs` of a
message whose `data` is given. -/
def fields_avoid (cfg : Config) (nested : Ptr → upb_msgdef → Bool) (tgt : Ptr)
    (s0 : State) (data : List Nat) : List upb_fielddef → Bool
  | [] => true
  | f :: fs =>
    (if cfg.upb_field_ismm f then
      match upb_value_read cfg data (_upb_msg_getptr f) (cfg.upb_field_valuetype f) with
      | some v => field_avoids cfg nested tgt s0 v f
      | none => true
    else true) &&
      fields_avoid cfg nested tgt s0 data fs

/-- No slot reachable from the message at `msg` of type `md` within `n`
nested message releases holds a handle to `tgt`. -/
def msg_avoids (cfg : Config) (s0 : State) (tgt : Ptr) : Nat → Ptr → upb_msgdef → Bool
  | 0, _, _ => true
  | n + 1, msg, md =>
    match deref s0 msg with
    | some (.msg m) => fields_avoid cfg (msg_avoids cfg s0 tgt n) tgt s0 m.data md.fields
    | _ => true

/-- The call only adds events to the trace. -/
def Grows {α : Type} (s : State) (r : Res α) : Prop :=
  ∀ e, s.trace.count e ≤ r.trace.count e

/-- The call, started in `s`, recorded no decrement of the count at `msg`. -/
def Quiet {α : Type} (msg : Ptr) (s : State) (r : Res α) : Prop :=
  r.trace.count (.unref msg) ≤ s.trace.count (.unref msg)

/-- The call recorded no decrement of the count at `tgt`, and when it returned
the blocks are still those of `s0` up to their counts. -/
def Calm {α : Type} (tgt : Ptr) (s0 s : State) (r : Res α) : Prop :=
  Quiet tgt s r ∧
    match r with
    | .ok _ s1 => Same s0 s1
    | .fail _ _ => True

/-- States `s` and `t` have the same trace and the same heap, except that the
message at `msg` may carry another reference count in `t`. -/
def Agree (msg : Ptr) (s t : State) : Prop :=
  t.trace = s.trace ∧
    ∀ q, t.heap q = s.heap q ∨
      (q = msg ∧ ∃ m c, s.heap q = some (.msg m) ∧
        t.heap q = some (.msg (upb_msg.mk c m.data)))

/-- The two outcomes are the same return or the same fault, in states that
agree. -/
def Alike {α : Type} (msg : Ptr) (r r2 : Res α) : Prop :=
  match r, r2 with
  | .ok a s1, .ok b t1 => a = b ∧ Agree msg s1 t1
  | .fail e s1, .fail e2 t1 => e = e2 ∧ Agree msg s1 t1
  | _, _ => False

/-! # Theorems -/

/-! ## Bytes and bits -/

theorem and_one_shiftLeft_ne_zero (b k : Nat) :
    (b &&& (1 <<< k) ≠ 0) ↔ b.testBit k = true := by
  rw [Nat.one_shiftLeft]
  constructor
  · intro h
    by_contra hb
    apply h
    apply Nat.eq_of_testBit_eq
    intro i
    simp only [Nat.testBit_and, Nat.zero_testBit, Nat.testBit_two_pow]
    by_cases hik : k = i
    · subst hik; simp [hb]
    · simp [hik]
  · intro hb h
    have := congrArg (fun x => x.testBit k) h
    simp [hb, Nat.testBit_two_pow_self] at this

theorem testBit_sethas_byte (b k j : Nat) (hj : j < 8) :
    ((b ||| (1 <<< k)) % 256).testBit j = (b.testBit j || decide (k = j)) := by
  have h256 : (256 : Nat) = 2 ^ 8 := by norm_num
  rw [h256, Nat.testBit_mod_two_pow, Nat.one_shiftLeft, Nat.testBit_or, Nat.testBit_two_pow]
  simp [hj]

theorem le_decode_zero (bs : List Nat) (h : ∀ b ∈ bs, b = 0) : le_decode bs = 0 := by
  induction bs with
  | nil => rfl
  | cons b bs ih =>
    have hb : b = 0 := h b (List.mem_cons_self _ _)
    have ht : le_decode bs = 0 := ih (fun x hx => h x (List.mem_cons_of_mem _ hx))
    simp [le_decode, hb, ht]

theorem read_bytes_mem (mem : List Nat) (off n : Nat) (bs : List Nat)
    (h : read_bytes mem off n = some bs) : ∀ b ∈ bs, b ∈ mem := by
  unfold read_bytes at h
  split at h
  · cases h
    intro b hb
    exact List.mem_of_mem_drop (List.mem_of_mem_take hb)
  · cases h

/-! ## C1: `upb_msg_new` -/

/-- C1: when `malloc` returns a block (`p` is not null) for a descriptor whose
`size` covers the reference-count header, `upb_msg_new` returns `p`, and the
block at `p` is a message of `md.size` bytes whose reference count is 1, whose
every other byte is zero (so every slot holds zero bytes only), and for which
the presence check of every field is never "present" and is "absent" whenever the
bitmap byte of the field lies inside the instance. No other block changes. -/
theorem upb_msg_new_zeroed (cfg : Config) (md : upb_msgdef) (p : Ptr) (s : State)
    (hp : p ≠ 0) (hsize : cfg.sizeof_refcount ≤ md.size) :
    ∃ (m : upb_msg) (s1 : State),
      upb_msg_new cfg md p s = .ok p s1 ∧
      deref s1 p = some (.msg m) ∧
      (∀ q, q ≠ p → s1.heap q = s.heap q) ∧
      s1.trace = s.trace ∧
      cfg.sizeof_refcount + m.data.length = md.size ∧
      m.refcount = 1 ∧
      (∀ b ∈ m.data, b = 0) ∧
      (∀ off n bs, read_bytes m.data off n = some bs → ∀ b ∈ bs, b = 0) ∧
      (∀ f, upb_msg_has m f ≠ some true) ∧
      (∀ f, f.field_index / 8 < md.size - cfg.sizeof_refcount →
        upb_msg_has m f = some false) := by
  have hz : ∀ b ∈ List.replicate (md.size - cfg.sizeof_refcount) 0, b = 0 := by
    intro b hb
    exact (List.mem_replicate.mp hb).2
  refine ⟨{ refcount := 1, data := List.replicate (md.size - cfg.sizeof_refcount) 0 },
    store s p (some (.msg
      { refcount := 1, data := List.replicate (md.size - cfg.sizeof_refcount) 0 })),
    ?_, ?_, ?_, rfl, ?_, rfl, hz, ?_, ?_, ?_⟩
  · simp [upb_msg_new, hp, Nat.not_lt.mpr hsize]
  · simp [deref, store, hp]
  · intro q hq
    simp [store, Function.update, hq]
  · simp
    omega
  · intro off n bs hbs b hb
    exact hz b (read_bytes_mem _ off n bs hbs b hb)
  · intro f hf
    simp only [upb_msg_has, List.getElem?_replicate] at hf
    split at hf <;> simp at hf
  · intro f hf
    simp [upb_msg_has, List.getElem?_replicate, hf]

/-- Witness of C1: a 12-byte descriptor with a 4-byte reference count. -/
theorem upb_msg_new_zeroed_witness :
    ∃ (m : upb_msg) (s1 : State),
      upb_msg_new witnessConfig witnessLeaf 7 State.empty = .ok 7 s1 ∧
      deref s1 7 = some (.msg m) ∧
      (∀ q, q ≠ 7 → s1.heap q = State.empty.heap q) ∧
      s1.trace = State.empty.trace ∧
      witnessConfig.sizeof_refcount + m.data.length = witnessLeaf.size ∧
      m.refcount = 1 ∧
      (∀ b ∈ m.data, b = 0) ∧
      (∀ off n bs, read_bytes m.data off n = some bs → ∀ b ∈ bs, b = 0) ∧
      (∀ f, upb_msg_has m f ≠ some true) ∧
      (∀ f, f.field_index / 8 < witnessLeaf.size - witnessConfig.sizeof_refcount →
        upb_msg_has m f = some false) :=
  upb_msg_new_zeroed witnessConfig witnessLeaf 7 State.empty (by decide) (by decide)

/-! ## C2: `upb_msg_sethas` -/

theorem read_bytes_set_outside (mem : List Nat) (i b off n : Nat)
    (h : i < off ∨ off + n ≤ i) :
    read_bytes (mem.set i b) off n = read_bytes mem off n := by
  unfold read_bytes
  simp only [List.length_set]
  split
  · congr 1
    apply List.ext_getElem?
    intro j
    simp only [List.getElem?_take, List.getElem?_drop]
    split
    · rw [List.getElem?_set_ne]
      omega
    · rfl
  · rfl

/-- C2: when the bitmap byte of `f` lies inside `data`, `upb_msg_sethas(m, f)`
returns a message in which bit `field_index % 8` of byte `field_index / 8` is
set and the other bits of that byte are as before, so `f` is present and the
presence check of every field `g` with a different `field_index` answers as
before; the reference count and the length of `data` are unchanged, every
byte other than byte `field_index / 8` is unchanged, and every slot that does
not contain that byte reads as before. -/
theorem upb_msg_sethas_frame (m : upb_msg) (f : upb_fielddef)
    (h : f.field_index / 8 < m.data.length) :
    ∃ m1 : upb_msg,
      upb_msg_sethas m f = some m1 ∧
      (∃ b b1, m.data[f.field_index / 8]? = some b ∧
        m1.data[f.field_index / 8]? = some b1 ∧
        b1.testBit (f.field_index % 8) = true ∧
        ∀ j, j < 8 → j ≠ f.field_index % 8 → b1.testBit j = b.testBit j) ∧
      upb_msg_has m1 f = some true ∧
      (∀ g : upb_fielddef, g.field_index ≠ f.field_index →
        upb_msg_has m1 g = upb_msg_has m g) ∧
      m1.refcount = m.refcount ∧
      m1.data.length = m.data.length ∧
      (∀ j, j ≠ f.field_index / 8 → m1.data[j]? = m.data[j]?) ∧
      (∀ (cfg : Config) (g : upb_fielddef) (type : upb_valuetype_t),
        (f.field_index / 8 < g.byte_offset ∨
          g.byte_offset + cfg.sizeof_value type ≤ f.field_index / 8) →
        upb_value_read cfg m1.data g.byte_offset type =
          upb_value_read cfg m.data g.byte_offset type) := by
  have hb : m.data[f.field_index / 8]? = some (m.data[f.field_index / 8]) :=
    List.getElem?_eq_getElem h
  have hk : f.field_index % 8 < 8 := Nat.mod_lt _ (by norm_num)
  refine ⟨upb_msg.mk m.refcount (m.data.set (f.field_index / 8)
      ((m.data[f.field_index / 8] ||| (1 <<< (f.field_index % 8))) % 256)),
    ?_, ?_, ?_, ?_, rfl, ?_, ?_, ?_⟩
  · simp [upb_msg_sethas, hb]
  · refine ⟨_, _, hb, List.getElem?_set_self h, ?_, ?_⟩
    · rw [testBit_sethas_byte _ _ _ hk]
      simp
    · intro j hj hne
      rw [testBit_sethas_byte _ _ _ hj]
      simp [Ne.symm hne]
  · simp only [upb_msg_has, List.getElem?_set_self h, Option.map_some']
    congr 1
    rw [decide_eq_true_eq, and_one_shiftLeft_ne_zero, testBit_sethas_byte _ _ _ hk]
    simp
  · intro g hg
    simp only [upb_msg_has]
    by_cases hbyte : g.field_index / 8 = f.field_index / 8
    · have hbit : f.field_index % 8 ≠ g.field_index % 8 := by
        intro hmod
        apply hg
        rw [← Nat.div_add_mod g.field_index 8, ← Nat.div_add_mod f.field_index 8,
          hbyte, hmod]
      have hkg : g.field_index % 8 < 8 := Nat.mod_lt _ (by norm_num)
      rw [hbyte, List.getElem?_set_self h, hb]
      simp only [Option.map_some']
      congr 1
      apply decide_eq_decide.mpr
      rw [and_one_shiftLeft_ne_zero, and_one_shiftLeft_ne_zero,
        testBit_sethas_byte _ _ _ hkg]
      simp [hbit]
    · rw [List.getElem?_set_ne (Ne.symm hbyte)]
  · simp
  · intro j hj
    simp only
    rw [List.getElem?_set_ne (Ne.symm hj)]
  · intro cfg g type hout
    simp only [upb_value_read]
    rw [read_bytes_set_outside _ _ _ _ _ hout]

/-- Witness of C2: field index 8 (first bit of the second bitmap byte) in a
message with two bitmap bytes. -/
theorem upb_msg_sethas_frame_witness :
    ∃ m1 : upb_msg,
      upb_msg_sethas witnessBitmapMsg witnessField8 = some m1 ∧
      (∃ b b1, witnessBitmapMsg.data[witnessField8.field_index / 8]? = some b ∧
        m1.data[witnessField8.field_index / 8]? = some b1 ∧
        b1.testBit (witnessField8.field_index % 8) = true ∧
        ∀ j, j < 8 → j ≠ witnessField8.field_index % 8 → b1.testBit j = b.testBit j) ∧
      upb_msg_has m1 witnessField8 = some true ∧
      (∀ g : upb_fielddef, g.field_index ≠ witnessField8.field_index →
        upb_msg_has m1 g = upb_msg_has witnessBitmapMsg g) ∧
      m1.refcount = witnessBitmapMsg.refcount ∧
      m1.data.length = witnessBitmapMsg.data.length ∧
      (∀ j, j ≠ witnessField8.field_index / 8 → m1.data[j]? = witnessBitmapMsg.data[j]?) ∧
      (∀ (cfg : Config) (g : upb_fielddef) (type : upb_valuetype_t),
        (witnessField8.field_index / 8 < g.byte_offset ∨
          g.byte_offset + cfg.sizeof_value type ≤ witnessField8.field_index / 8) →
        upb_value_read cfg m1.data g.byte_offset type =
          upb_value_read cfg witnessBitmapMsg.data g.byte_offset type) :=
  upb_msg_sethas_frame witnessBitmapMsg witnessField8 (by decide)

/-! ## Lemmas on `free` and on the loop of `_upb_array_free` -/

theorem free_trace (p : Ptr) (s : State) : (free p s).trace = s.trace ++ [.free p] := by
  unfold free
  by_cases hp : p = 0
  · simp [hp, Res.trace, log]
  · cases h : s.heap p <;> simp [hp, Res.trace, log, store, h]

theorem free_then_free_trace (p q : Ptr) (s : State) :
    (match free p s with
      | .ok _ s3 => free q s3
      | .fail e s3 => .fail e s3).trace = s.trace ++ [.free p] ∨
    (match free p s with
      | .ok _ s3 => free q s3
      | .fail e s3 => .fail e s3).trace = s.trace ++ [.free p, .free q] := by
  have h1 := free_trace p s
  cases h : free p s with
  | ok u s3 =>
    right
    rw [h] at h1
    simp only [Res.trace] at h1
    simp only [free_trace, h1, List.append_assoc, List.singleton_append]
  | fail e s3 =>
    left
    rw [h] at h1
    simpa [Res.trace] using h1

theorem array_free_skip (cfg : Config)
    (msg_free : Ptr → upb_msgdef → State → Res Unit)
    (arr : Ptr) (f : upb_fielddef) (s : State) (a : upb_array)
    (harr : deref s arr = some (.arr a))
    (h0 : a.size = 0 ∨ cfg.upb_elem_ismm f = false) :
    _upb_array_free cfg msg_free arr f s =
      if a.elements ≠ 0 then
        match free a.elements (log (.array_free arr f) s) with
        | .ok _ s3 => free arr s3
        | .fail e s3 => .fail e s3
      else free arr (log (.array_free arr f) s) := by
  have harr0 : arr ≠ 0 := by
    intro h
    simp [deref, h] at harr
  have hheap : s.heap arr = some (.arr a) := by
    simpa [deref, harr0] using harr
  have hloop : (if cfg.upb_elem_ismm f = true then
        match deref (log (.array_free arr f) s) arr with
        | some (.arr a) => array_free_loop cfg msg_free arr f a.size 0 (log (.array_free arr f) s)
        | _ => .fail .invalid (log (.array_free arr f) s)
      else .ok () (log (.array_free arr f) s)) = .ok () (log (.array_free arr f) s) := by
    rcases h0 with h0 | h0
    · split
      · simp [deref, log, harr0, hheap, h0, array_free_loop]
      · rfl
    · simp [h0]
  unfold _upb_array_free
  simp only [hloop]
  simp [deref, log, harr0, hheap]

theorem array_free_skip_trace (cfg : Config)
    (msg_free : Ptr → upb_msgdef → State → Res Unit)
    (arr : Ptr) (f : upb_fielddef) (s : State) (a : upb_array)
    (harr : deref s arr = some (.arr a))
    (h0 : a.size = 0 ∨ cfg.upb_elem_ismm f = false) :
    ∀ e ∈ (_upb_array_free cfg msg_free arr f s).trace,
      e ∈ s.trace ∨ e = .array_free arr f ∨ e = .free a.elements ∨ e = .free arr := by
  rw [array_free_skip cfg msg_free arr f s a harr h0]
  intro e hmem
  by_cases he : a.elements = 0
  · simp only [ne_eq, he, not_true_eq_false, if_false, free_trace] at hmem
    simp only [log, List.append_assoc, List.mem_append, List.mem_singleton] at hmem
    rcases hmem with hmem | hmem | hmem
    · exact Or.inl hmem
    · exact Or.inr (Or.inl hmem)
    · exact Or.inr (Or.inr (Or.inr hmem))
  · simp only [ne_eq, he, not_false_eq_true, if_true] at hmem
    rcases free_then_free_trace a.elements arr (log (.array_free arr f) s) with ht | ht
    · rw [ht] at hmem
      simp only [log, List.append_assoc, List.mem_append, List.mem_singleton] at hmem
      rcases hmem with hmem | hmem | hmem
      · exact Or.inl hmem
      · exact Or.inr (Or.inl hmem)
      · exact Or.inr (Or.inr (Or.inl hmem))
    · rw [ht] at hmem
      simp only [log, List.append_assoc, List.mem_append, List.mem_singleton,
        List.mem_cons, List.mem_nil_iff, or_false] at hmem
      rcases hmem with hmem | hmem | hmem | hmem
      · exact Or.inl hmem
      · exact Or.inr (Or.inl hmem)
      · exact Or.inr (Or.inr (Or.inl hmem))
      · exact Or.inr (Or.inr (Or.inr hmem))

theorem foldl_andThen_fail (k : Nat → State → Res Unit) (e : Fault) (s : State)
    (l : List Nat) :
    l.foldl (fun (r : Res Unit) i => r.andThen (k i)) (.fail e s) = .fail e s := by
  induction l with
  | nil => rfl
  | cons i l ih => simpa [List.foldl, Res.andThen] using ih

theorem array_free_loop_step (cfg : Config)
    (msg_free : Ptr → upb_msgdef → State → Res Unit)
    (arr : Ptr) (f : upb_fielddef) (k i : Nat) (s : State) :
    array_free_loop cfg msg_free arr f (k + 1) i s =
      (release_slot cfg msg_free arr f i s).andThen
        (array_free_loop cfg msg_free arr f k (i + 1)) := by
  simp only [array_free_loop, release_slot]
  cases h1 : deref s arr with
  | none => rfl
  | some o =>
    cases o with
    | arr a =>
      simp only
      cases h2 : deref s a.elements with
      | none => rfl
      | some o2 =>
        cases o2 with
        | raw bytes =>
          simp only
          cases h3 : upb_value_read cfg bytes
              (i * cfg.sizeof_value (cfg.upb_elem_valuetype f)) (cfg.upb_elem_valuetype f) with
          | none => rfl
          | some v =>
            simp only
            cases upb_elem_unref cfg msg_free v f
              (log (.read a.elements (i * cfg.sizeof_value (cfg.upb_elem_valuetype f))
                (cfg.sizeof_value (cfg.upb_elem_valuetype f))) s) <;> rfl
        | msg m => rfl
        | arr a2 => rfl
        | str s2 => rfl
    | msg m => rfl
    | str s2 => rfl
    | raw b => rfl

theorem array_free_loop_eq_foldl (cfg : Config)
    (msg_free : Ptr → upb_msgdef → State → Res Unit)
    (arr : Ptr) (f : upb_fielddef) (k i : Nat) (s : State) :
    array_free_loop cfg msg_free arr f k i s =
      (List.range' i k).foldl
        (fun (r : Res Unit) j => r.andThen (release_slot cfg msg_free arr f j)) (.ok () s) := by
  induction k generalizing i s with
  | zero => rfl
  | succ k ih =>
    rw [array_free_loop_step, List.range'_succ, List.foldl_cons]
    cases h : release_slot cfg msg_free arr f i s with
    | ok u s1 =>
      simp only [Res.andThen, h]
      exact ih (i + 1) s1
    | fail e s1 =>
      simp only [Res.andThen, h]
      exact (foldl_andThen_fail _ e s1 _).symm

/-! ## C3: recursive teardown of a tree -/

@[simp] theorem log_heap (e : Event) (s : State) : (log e s).heap = s.heap := rfl

@[simp] theorem log_trace (e : Event) (s : State) : (log e s).trace = s.trace ++ [e] := rfl

@[simp] theorem store_heap (s : State) (p : Ptr) (o : Option Obj) :
    (store s p o).heap = Function.update s.heap p o := rfl

@[simp] theorem store_trace (s : State) (p : Ptr) (o : Option Obj) :
    (store s p o).trace = s.trace := rfl

theorem releases_append (t1 t2 : List Event) :
    releases (t1 ++ t2) = releases t1 ++ releases t2 := by
  simp [releases, List.filterMap_append]

theorem Released.refl_of (s s1 : State) (hh : s1.heap = s.heap)
    (ht : releases s1.trace = releases s.trace) : Released s s1 [] := by
  constructor
  · simp [ht]
  · intro q
    simp [hh]

theorem Released.trans {s s1 s2 : State} {L1 L2 : List Ptr}
    (h1 : Released s s1 L1) (h2 : Released s1 s2 L2) : Released s s2 (L1 ++ L2) := by
  constructor
  · rw [h2.1, h1.1, List.append_assoc]
  · intro q
    rw [h2.2 q, h1.2 q]
    by_cases hq2 : q ∈ L2
    · simp [hq2]
    · by_cases hq1 : q ∈ L1 <;> simp [hq1, hq2]

theorem Released.congr_left {s s1 s2 : State} {L : List Ptr}
    (h : Released s1 s2 L) (ht : releases s1.trace = releases s.trace)
    (hh : ∀ q, q ∉ L → s1.heap q = s.heap q) : Released s s2 L := by
  constructor
  · rw [h.1, ht]
  · intro q
    rw [h.2 q]
    by_cases hq : q ∈ L
    · simp [hq]
    · simp [hq, hh q hq]

theorem deref_eq_heap (s : State) (p : Ptr) (o : Obj) (h : deref s p = some o) :
    p ≠ 0 ∧ s.heap p = some o := by
  unfold deref at h
  by_cases hp : p = 0
  · simp [hp] at h
  · simp [hp] at h
    exact ⟨hp, h⟩

theorem rc_one_refcount (o : Obj) (c : Int) (h1 : rc_one (some o) = true)
    (h2 : o.refcount = some c) : c = 1 := by
  simp [rc_one, h2] at h1
  exact h1

theorem upb_atomic_unref_one (v : Ptr) (s : State) (o : Obj) (c : Int) (hv : v ≠ 0)
    (ho : s.heap v = some o) (hc : o.refcount = some c) (h1 : rc_one (some o) = true) :
    upb_atomic_unref v s =
      .ok true (store (log (.unref v) s) v (some (o.setRefcount 0))) := by
  have hc1 : c = 1 := rc_one_refcount o c h1 hc
  subst hc1
  simp [upb_atomic_unref, deref, hv, ho, hc]

theorem string_free_released (v : Ptr) (s : State) (st : upb_string) (hv : v ≠ 0)
    (ho : s.heap v = some (.str st)) :
    ∃ s1, _upb_string_free v s = .ok () s1 ∧ Released s s1 [v] := by
  refine ⟨store (log (.string_free v) s) v none, ?_, ?_, ?_⟩
  · simp [_upb_string_free, deref, hv, ho]
  · simp [releases_append, releases, Event.released]
  · intro q
    by_cases hq : q = v
    · simp [hq]
    · simp [hq, Function.update]

theorem free_released (p : Ptr) (s : State) (o : Obj) (hp : p ≠ 0)
    (ho : s.heap p = some o) :
    ∃ s1, free p s = .ok () s1 ∧ Released s s1 [p] := by
  refine ⟨store (log (.free p) s) p none, ?_, ?_, ?_⟩
  · simp [free, hp, ho]
  · simp [releases_append, releases, Event.released, hp]
  · intro q
    by_cases hq : q = p
    · simp [hq]
    · simp [hq, Function.update]

theorem reach_msg_is_msg (cfg : Config) (s0 : State) (n : Nat) (p : Ptr) (md : upb_msgdef)
    (L : List Ptr) (h : reach_msg cfg s0 n p md = some L) :
    ∃ m, deref s0 p = some (.msg m) := by
  cases n with
  | zero => simp [reach_msg] at h
  | succ n =>
    simp only [reach_msg] at h
    split at h
    · exact ⟨_, by assumption⟩
    · cases h

/-- Release of an element whose count has just been lowered to 0. -/
theorem elem_free_tree (cfg : Config) (s0 : State) (n : Nat) (IH : MsgFreeOk cfg s0 n)
    (v : upb_value) (f : upb_fielddef) (L : List Ptr) (s : State) (hv : v ≠ 0)
    (hreach : reach_elem cfg (reach_msg cfg s0 n) s0 v f = some L)
    (hnd : L.Nodup) (hrc : ∀ q ∈ L, rc_one (s0.heap q) = true)
    (hready : Ready s0 s L v) :
    ∃ s1, upb_elem_free cfg (_upb_msg_free cfg n) v f s = .ok () s1 ∧ Released s s1 L := by
  have hmsgcase : ∀ md, cfg.upb_downcast_msgdef f.def_ = some md →
      (reach_msg cfg s0 n v md).map (fun l => l ++ [v]) = some L →
      ∃ s1, _upb_msg_free cfg n (upb_value_getmsg v) md (log (.elem_free v f) s) = .ok () s1 ∧
        Released s s1 L := by
    intro md _ hmap
    cases hr : reach_msg cfg s0 n v md with
    | none => simp [hr] at hmap
    | some Lm =>
      simp [hr] at hmap
      subst hmap
      have hvnot : v ∉ Lm := by
        intro hmem
        have := List.nodup_append.mp hnd
        exact this.2.2 hmem (List.mem_singleton_self v) 
      obtain ⟨m, hm⟩ := reach_msg_is_msg cfg s0 n v md Lm hr
      have hm0 := (deref_eq_heap s0 v _ hm).2
      obtain ⟨s1, hrun, hrel⟩ := IH v md Lm (log (.elem_free v f) s) hr hnd
        (fun q hq => hrc q (List.mem_append_left _ hq))
        (fun q hq => by
          have hne : q ≠ v := fun h => hvnot (h ▸ hq)
          simpa using hready.1 q (List.mem_append_left _ hq) hne)
        (fun m2 hm2 => by
          rw [hm] at hm2
          cases hm2
          refine ⟨{ m with refcount := 0 }, ?_, rfl⟩
          simp [deref, hv, hready.2, hm0, Obj.setRefcount])
      refine ⟨s1, hrun, ?_⟩
      exact hrel.congr_left (by simp [releases_append, releases, Event.released])
        (fun q _ => by simp)
  have hstrcase : (match deref s0 v with
        | some (.str _) => some [v]
        | _ => none) = some L →
      ∃ s1, _upb_string_free (upb_value_getstr v) (log (.elem_free v f) s) = .ok () s1 ∧
        Released s s1 L := by
    intro hmatch
    cases hd : deref s0 v with
    | none => simp [hd] at hmatch
    | some o =>
      cases o with
      | str st =>
        simp [hd] at hmatch
        subst hmatch
        have hs0 := (deref_eq_heap s0 v _ hd).2
        obtain ⟨s1, hrun, hrel⟩ := string_free_released v (log (.elem_free v f) s)
          { st with refcount := 0 } hv (by simp [hready.2, hs0, Obj.setRefcount])
        refine ⟨s1, hrun, ?_⟩
        exact hrel.congr_left (by simp [releases_append, releases, Event.released])
          (fun q _ => by simp)
      | msg m => simp [hd] at hmatch
      | arr a => simp [hd] at hmatch
      | raw b => simp [hd] at hmatch
  unfold reach_elem at hreach
  simp only [hv, if_false] at hreach
  unfold upb_elem_free
  cases ht : f.type with
  | MESSAGE =>
    simp only [ht] at hreach ⊢
    cases hd : cfg.upb_downcast_msgdef f.def_ with
    | none => simp [hd] at hreach
    | some md =>
      simp only [hd] at hreach ⊢
      exact hmsgcase md hd hreach
  | GROUP =>
    simp only [ht] at hreach ⊢
    cases hd : cfg.upb_downcast_msgdef f.def_ with
    | none => simp [hd] at hreach
    | some md =>
      simp only [hd] at hreach ⊢
      exact hmsgcase md hd hreach
  | STRING =>
    simp only [ht] at hreach ⊢
    exact hstrcase hreach
  | BYTES =>
    simp only [ht] at hreach ⊢
    exact hstrcase hreach
  | other code =>
    simp [ht] at hreach

theorem reach_elem_root (cfg : Config) (s0 : State) (n : Nat) (v : upb_value)
    (f : upb_fielddef) (L : List Ptr) (hv : v ≠ 0)
    (hreach : reach_elem cfg (reach_msg cfg s0 n) s0 v f = some L) :
    v ∈ L ∧ ∃ o c, s0.heap v = some o ∧ o.refcount = some c := by
  have hmsgcase : ∀ md, (reach_msg cfg s0 n v md).map (fun l => l ++ [v]) = some L →
      v ∈ L ∧ ∃ o c, s0.heap v = some o ∧ o.refcount = some c := by
    intro md hmap
    cases hr : reach_msg cfg s0 n v md with
    | none => simp [hr] at hmap
    | some Lm =>
      simp [hr] at hmap
      subst hmap
      obtain ⟨m, hm⟩ := reach_msg_is_msg cfg s0 n v md Lm hr
      exact ⟨by simp, .msg m, m.refcount, (deref_eq_heap s0 v _ hm).2, rfl⟩
  have hstrcase : (match deref s0 v with
        | some (.str _) => some [v]
        | _ => none) = some L →
      v ∈ L ∧ ∃ o c, s0.heap v = some o ∧ o.refcount = some c := by
    intro hmatch
    cases hd : deref s0 v with
    | none => simp [hd] at hmatch
    | some o =>
      cases o with
      | str st =>
        simp [hd] at hmatch
        subst hmatch
        exact ⟨by simp, .str st, st.refcount, (deref_eq_heap s0 v _ hd).2, rfl⟩
      | msg m => simp [hd] at hmatch
      | arr a => simp [hd] at hmatch
      | raw b => simp [hd] at hmatch
  unfold reach_elem at hreach
  simp only [hv, if_false] at hreach
  cases ht : f.type with
  | MESSAGE =>
    simp only [ht] at hreach
    cases hd : cfg.upb_downcast_msgdef f.def_ with
    | none => simp [hd] at hreach
    | some md =>
      simp only [hd] at hreach
      exact hmsgcase md hreach
  | GROUP =>
    simp only [ht] at hreach
    cases hd : cfg.upb_downcast_msgdef f.def_ with
    | none => simp [hd] at hreach
    | some md =>
      simp only [hd] at hreach
      exact hmsgcase md hreach
  | STRING =>
    simp only [ht] at hreach
    exact hstrcase hreach
  | BYTES =>
    simp only [ht] at hreach
    exact hstrcase hreach
  | other code =>
    simp [ht] at hreach

theorem elem_unref_tree (cfg : Config) (s0 : State) (n : Nat) (IH : MsgFreeOk cfg s0 n)
    (v : upb_value) (f : upb_fielddef) (L : List Ptr) (s : State)
    (hreach : reach_elem cfg (reach_msg cfg s0 n) s0 v f = some L)
    (hnd : L.Nodup) (hrc : ∀ q ∈ L, rc_one (s0.heap q) = true)
    (hag : ∀ q ∈ L, s.heap q = s0.heap q) (hmm : cfg.upb_elem_ismm f = true) :
    ∃ s1, upb_elem_unref cfg (_upb_msg_free cfg n) v f s = .ok () s1 ∧ Released s s1 L := by
  by_cases hv : v = 0
  · have hL : L = [] := by
      simp [reach_elem, hv] at hreach
      exact hreach
    subst hL
    refine ⟨log (.elem_unref v f) s, ?_, ?_⟩
    · simp [upb_elem_unref, hmm, hv, upb_value_getrefcount]
    · exact Released.refl_of _ _ rfl (by simp [releases_append, releases, Event.released])
  · obtain ⟨hvL, o, c, ho, hc⟩ := reach_elem_root cfg s0 n v f L hv hreach
    have hrc1 : rc_one (some o) = true := by
      rw [← ho]
      exact hrc v hvL
    have hsv : (log (.elem_unref v f) s).heap v = some o := by
      simp [hag v hvL, ho]
    have hun := upb_atomic_unref_one v (log (.elem_unref v f) s) o c hv hsv hc hrc1
    have hready : Ready s0
        (store (log (.unref v) (log (.elem_unref v f) s)) v (some (o.setRefcount 0))) L v := by
      constructor
      · intro q hq hne
        simp [Function.update, hne, hag q hq]
      · simp [ho]
    obtain ⟨s1, hrun, hrel⟩ := elem_free_tree cfg s0 n IH v f L _ hv hreach hnd hrc hready
    refine ⟨s1, ?_, ?_⟩
    · simp only [upb_elem_unref, hmm, upb_value_getrefcount, hv, if_false, hun]
      simpa using hrun
    · refine hrel.congr_left (by simp [releases_append, releases, Event.released]) ?_
      intro q hq
      have hne : q ≠ v := fun h => hq (h ▸ hvL)
      simp [Function.update, hne]

theorem array_loop_tree (cfg : Config) (s0 : State) (n : Nat) (IH : MsgFreeOk cfg s0 n)
    (arr : Ptr) (f : upb_fielddef) (bytes : List Nat) (a1 : upb_array)
    (hmm : cfg.upb_elem_ismm f = true) (k : Nat) :
    ∀ (i : Nat) (L : List Ptr) (s : State),
      reach_slots cfg (reach_msg cfg s0 n) s0 bytes f k i = some L →
      L.Nodup → (∀ q ∈ L, rc_one (s0.heap q) = true) →
      (∀ q ∈ L, s.heap q = s0.heap q) →
      deref s arr = some (.arr a1) → deref s a1.elements = some (.raw bytes) →
      arr ∉ L → a1.elements ∉ L →
      ∃ s1, array_free_loop cfg (_upb_msg_free cfg n) arr f k i s = .ok () s1 ∧
        Released s s1 L := by
  induction k with
  | zero =>
    intro i L s hreach _ _ _ _ _ _ _
    simp [reach_slots] at hreach
    subst hreach
    exact ⟨s, rfl, Released.refl_of _ _ rfl rfl⟩
  | succ k ih =>
    intro i L s hreach hnd hrc hag harr hbuf harrL helL
    simp only [reach_slots] at hreach
    cases hread : upb_value_read cfg bytes (i * cfg.sizeof_value (cfg.upb_elem_valuetype f))
        (cfg.upb_elem_valuetype f) with
    | none => simp [hread] at hreach
    | some v =>
      simp only [hread] at hreach
      cases h1 : reach_elem cfg (reach_msg cfg s0 n) s0 v f with
      | none => simp [h1] at hreach
      | some l1 =>
        cases h2 : reach_slots cfg (reach_msg cfg s0 n) s0 bytes f k (i + 1) with
        | none => simp [h1, h2] at hreach
        | some l2 =>
          simp [h1, h2] at hreach
          subst hreach
          have hnd' := List.nodup_append.mp hnd
          obtain ⟨s1, hrun1, hrel1⟩ := elem_unref_tree cfg s0 n IH v f l1
            (log (.read a1.elements (i * cfg.sizeof_value (cfg.upb_elem_valuetype f))
              (cfg.sizeof_value (cfg.upb_elem_valuetype f))) s)
            h1 hnd'.1 (fun q hq => hrc q (List.mem_append_left _ hq))
            (fun q hq => by simpa using hag q (List.mem_append_left _ hq)) hmm
          have hheap1 : ∀ q, q ∉ l1 → s1.heap q = s.heap q := by
            intro q hq
            have := hrel1.2 q
            simpa [hq] using this
          have harr1 : deref s1 arr = some (.arr a1) := by
            have h0 := deref_eq_heap s arr _ harr
            simp [deref, h0.1, hheap1 arr (fun h => harrL (List.mem_append_left _ h)), h0.2]
          have hbuf1 : deref s1 a1.elements = some (.raw bytes) := by
            have h0 := deref_eq_heap s a1.elements _ hbuf
            simp [deref, h0.1, hheap1 a1.elements (fun h => helL (List.mem_append_left _ h)),
              h0.2]
          obtain ⟨s2, hrun2, hrel2⟩ := ih (i + 1) l2 s1 h2 hnd'.2.1
            (fun q hq => hrc q (List.mem_append_right _ hq))
            (fun q hq => by
              rw [hheap1 q (fun hq1 => hnd'.2.2 hq1 hq)]
              exact hag q (List.mem_append_right _ hq))
            harr1 hbuf1
            (fun h => harrL (List.mem_append_right _ h))
            (fun h => helL (List.mem_append_right _ h))
          refine ⟨s2, ?_, ?_⟩
          · rw [array_free_loop_step]
            simp only [release_slot, harr, hbuf, hread, hrun1, Res.andThen]
            exact hrun2
          · exact (hrel1.congr_left (by simp [releases_append, releases, Event.released])
              (fun q _ => by simp)).trans hrel2

/-- The end of `_upb_array_free` on an array with a live buffer: the buffer
and then the array are released. -/
theorem array_free_tail (arr : Ptr) (s : State) (a1 : upb_array) (o : Obj)
    (harr : deref s arr = some (.arr a1)) (hel : a1.elements ≠ 0)
    (hbuf : s.heap a1.elements = some o) (hne : a1.elements ≠ arr) :
    ∃ s1, (match deref s arr with
        | some (.arr a) =>
          if a.elements ≠ 0 then
            match free a.elements s with
            | .ok _ s3 => free arr s3
            | .fail e s3 => .fail e s3
          else free arr s
        | _ => .fail .invalid s) = .ok () s1 ∧ Released s s1 [a1.elements, arr] := by
  have h0 := deref_eq_heap s arr _ harr
  obtain ⟨s3, hrun3, hrel3⟩ := free_released a1.elements s o hel hbuf
  have harr3 : s3.heap arr = some (.arr a1) := by
    have := hrel3.2 arr
    simp [Ne.symm hne] at this
    rw [this, h0.2]
  obtain ⟨s4, hrun4, hrel4⟩ := free_released arr s3 _ h0.1 harr3
  refine ⟨s4, ?_, hrel3.trans hrel4⟩
  simp only [harr, ne_eq, hel, not_false_eq_true, if_true, hrun3]
  exact hrun4

theorem array_free_tree (cfg : Config) (s0 : State) (n : Nat) (IH : MsgFreeOk cfg s0 n)
    (arr : Ptr) (f : upb_fielddef) (L : List Ptr) (s : State)
    (hreach : reach_array cfg (reach_msg cfg s0 n) s0 arr f = some L)
    (hnd : L.Nodup) (hrc : ∀ q ∈ L, rc_one (s0.heap q) = true)
    (hready : Ready s0 s L arr) :
    ∃ s1, _upb_array_free cfg (_upb_msg_free cfg n) arr f s = .ok () s1 ∧
      Released s s1 L := by
  unfold reach_array at hreach
  cases hd : deref s0 arr with
  | none => simp [hd] at hreach
  | some o0 =>
    cases o0 with
    | msg m => simp [hd] at hreach
    | str st => simp [hd] at hreach
    | raw b => simp [hd] at hreach
    | arr a =>
      simp only [hd] at hreach
      have h0 := deref_eq_heap s0 arr _ hd
      have hsarr : s.heap arr = some (.arr { a with refcount := 0 }) := by
        simp [hready.2, h0.2, Obj.setRefcount]
      have hderef : deref s arr = some (.arr { a with refcount := 0 }) := by
        simp [deref, h0.1, hsarr]
      have hlog : Released s (log (.array_free arr f) s) [] :=
        Released.refl_of _ _ rfl (by simp [releases_append, releases, Event.released])
      by_cases hel : a.elements = 0
      · simp only [hel, if_true] at hreach
        split at hreach
        · cases hreach
        · rename_i hcond
          simp at hreach
          subst hreach
          have hsz : a.size = 0 ∨ cfg.upb_elem_ismm f = false := by
            by_cases hmm : cfg.upb_elem_ismm f = true
            · left
              by_contra hne
              exact hcond ⟨hmm, hne⟩
            · right
              simpa using hmm
          obtain ⟨s1, hrun, hrel⟩ := free_released arr (log (.array_free arr f) s) _ h0.1
            (by simpa using hsarr)
          refine ⟨s1, ?_, hlog.trans hrel⟩
          rw [array_free_skip cfg _ arr f s { a with refcount := 0 } hderef hsz]
          simp only [hel, ne_eq, not_true_eq_false, if_false]
          exact hrun
      · simp only [hel, if_false] at hreach
        cases hb : deref s0 a.elements with
        | none => simp [hb] at hreach
        | some ob =>
          cases ob with
          | msg m => simp [hb] at hreach
          | str st => simp [hb] at hreach
          | arr a2 => simp [hb] at hreach
          | raw bytes =>
            simp only [hb] at hreach
            have hb0 := deref_eq_heap s0 a.elements _ hb
            by_cases hmm : cfg.upb_elem_ismm f = true
            · simp only [hmm, if_true] at hreach
              cases hs : reach_slots cfg (reach_msg cfg s0 n) s0 bytes f a.size 0 with
              | none => simp [hs] at hreach
              | some Ls =>
                simp [hs] at hreach
                subst hreach
                have hnd' := List.nodup_append.mp hnd
                have hne : a.elements ≠ arr := by
                  intro h
                  have := hnd'.2.1
                  simp [h] at this
                have harrLs : arr ∉ Ls := fun h => hnd'.2.2 h (by simp)
                have helLs : a.elements ∉ Ls := fun h => hnd'.2.2 h (by simp)
                have hsbuf : s.heap a.elements = some (.raw bytes) := by
                  rw [hready.1 a.elements (by simp) hne, hb0.2]
                obtain ⟨s2, hrun2, hrel2⟩ := array_loop_tree cfg s0 n IH arr f bytes
                  { a with refcount := 0 } hmm a.size 0 Ls (log (.array_free arr f) s) hs
                  hnd'.1 (fun q hq => hrc q (List.mem_append_left _ hq))
                  (fun q hq => by
                    have hqa : q ≠ arr := fun h => harrLs (h ▸ hq)
                    simpa using hready.1 q (List.mem_append_left _ hq) hqa)
                  (by simpa [deref] using hderef)
                  (by simp [deref, hel, hsbuf])
                  harrLs helLs
                have hheap2 : ∀ q, q ∉ Ls → s2.heap q = s.heap q := by
                  intro q hq
                  have := hrel2.2 q
                  simpa [hq] using this
                have hderef2 : deref s2 arr = some (.arr { a with refcount := 0 }) := by
                  simp [deref, h0.1, hheap2 arr harrLs, hsarr]
                obtain ⟨s4, hrun4, hrel4⟩ := array_free_tail arr s2 { a with refcount := 0 }
                  (.raw bytes) hderef2 hel (by rw [hheap2 _ helLs, hsbuf]) hne
                refine ⟨s4, ?_, hlog.trans (hrel2.trans hrel4)⟩
                unfold _upb_array_free
                simp only [hmm, if_true]
                have hd1 : deref (log (.array_free arr f) s) arr =
                    some (.arr { a with refcount := 0 }) := by
                  simpa [deref] using hderef
                simp only [hd1, hrun2]
                exact hrun4
            · have hmmf : cfg.upb_elem_ismm f = false := by simpa using hmm
              simp [hmmf] at hreach
              subst hreach
              have hne : a.elements ≠ arr := by
                intro h
                simp [h] at hnd
              have hsbuf : s.heap a.elements = some (.raw bytes) := by
                rw [hready.1 a.elements (by simp) hne, hb0.2]
              obtain ⟨s4, hrun4, hrel4⟩ := array_free_tail arr (log (.array_free arr f) s)
                { a with refcount := 0 } (.raw bytes) (by simpa [deref] using hderef) hel
                (by simpa using hsbuf) hne
              refine ⟨s4, ?_, hlog.trans hrel4⟩
              rw [array_free_skip cfg _ arr f s { a with refcount := 0 } hderef (Or.inr hmmf)]
              have hd1 : deref (log (.array_free arr f) s) arr =
                  some (.arr { a with refcount := 0 }) := by
                simpa [deref] using hderef
              simp only [hd1] at hrun4
              exact hrun4

theorem reach_array_root (cfg : Config) (s0 : State) (n : Nat) (arr : Ptr)
    (f : upb_fielddef) (L : List Ptr)
    (hreach : reach_array cfg (reach_msg cfg s0 n) s0 arr f = some L) :
    arr ≠ 0 ∧ arr ∈ L ∧ ∃ o c, s0.heap arr = some o ∧ o.refcount = some c := by
  unfold reach_array at hreach
  cases hd : deref s0 arr with
  | none => simp [hd] at hreach
  | some o0 =>
    cases o0 with
    | msg m => simp [hd] at hreach
    | str st => simp [hd] at hreach
    | raw b => simp [hd] at hreach
    | arr a =>
      have h0 := deref_eq_heap s0 arr _ hd
      refine ⟨h0.1, ?_, .arr a, a.refcount, h0.2, rfl⟩
      simp only [hd] at hreach
      split at hreach
      · split at hreach
        · cases hreach
        · simp at hreach
          subst hreach
          simp
      · split at hreach
        · split at hreach
          · simp only [Option.map_eq_some'] at hreach
            obtain ⟨Ls, _, hL⟩ := hreach
            subst hL
            simp
          · simp at hreach
            subst hreach
            simp
        · cases hreach

theorem field_unref_tree (cfg : Config) (s0 : State) (n : Nat) (IH : MsgFreeOk cfg s0 n)
    (v : upb_value) (f : upb_fielddef) (L : List Ptr) (s : State)
    (hreach : reach_field cfg (reach_msg cfg s0 n) s0 v f = some L)
    (hnd : L.Nodup) (hrc : ∀ q ∈ L, rc_one (s0.heap q) = true)
    (hag : ∀ q ∈ L, s.heap q = s0.heap q) (hmm : cfg.upb_field_ismm f = true) :
    ∃ s1, upb_field_unref cfg (_upb_msg_free cfg n) v f s = .ok () s1 ∧ Released s s1 L := by
  by_cases hv : v = 0
  · have hL : L = [] := by
      simp [reach_field, hv] at hreach
      exact hreach
    subst hL
    refine ⟨log (.field_unref v f) s, ?_, ?_⟩
    · simp [upb_field_unref, hmm, hv, upb_value_getrefcount]
    · exact Released.refl_of _ _ rfl (by simp [releases_append, releases, Event.released])
  · have hroot : v ∈ L ∧ ∃ o c, s0.heap v = some o ∧ o.refcount = some c := by
      unfold reach_field at hreach
      simp only [hv, if_false] at hreach
      by_cases harr : cfg.upb_isarray f = true
      · simp only [harr, if_true] at hreach
        exact (reach_array_root cfg s0 n v f L hreach).2
      · simp only [harr] at hreach
        exact reach_elem_root cfg s0 n v f L hv hreach
    obtain ⟨hvL, o, c, ho, hc⟩ := hroot
    have hrc1 : rc_one (some o) = true := by
      rw [← ho]
      exact hrc v hvL
    have hsv : (log (.field_unref v f) s).heap v = some o := by
      simp [hag v hvL, ho]
    have hun := upb_atomic_unref_one v (log (.field_unref v f) s) o c hv hsv hc hrc1
    have hready : Ready s0 (log (.field_free v f)
        (store (log (.unref v) (log (.field_unref v f) s)) v (some (o.setRefcount 0)))) L v := by
      constructor
      · intro q hq hne
        simp [Function.update, hne, hag q hq]
      · simp [ho]
    have hfree : ∃ s1, upb_field_free cfg (_upb_msg_free cfg n) v f
        (store (log (.unref v) (log (.field_unref v f) s)) v (some (o.setRefcount 0))) =
          .ok () s1 ∧
        Released (log (.field_free v f)
          (store (log (.unref v) (log (.field_unref v f) s)) v (some (o.setRefcount 0))))
          s1 L := by
      unfold reach_field at hreach
      simp only [hv, if_false] at hreach
      unfold upb_field_free
      by_cases harr : cfg.upb_isarray f = true
      · simp only [harr, if_true] at hreach ⊢
        exact array_free_tree cfg s0 n IH v f L _ hreach hnd hrc hready
      · simp only [harr] at hreach ⊢
        exact elem_free_tree cfg s0 n IH v f L _ hv hreach hnd hrc hready
    obtain ⟨s1, hrun, hrel⟩ := hfree
    refine ⟨s1, ?_, ?_⟩
    · simp only [upb_field_unref, hmm, upb_value_getrefcount, hv, if_false, hun]
      simpa using hrun
    · refine hrel.congr_left (by simp [releases_append, releases, Event.released]) ?_
      intro q hq
      have hne : q ≠ v := fun h => hq (h ▸ hvL)
      simp [Function.update, hne]

theorem msg_loop_tree (cfg : Config) (s0 : State) (n : Nat) (IH : MsgFreeOk cfg s0 n)
    (p : Ptr) (data : List Nat) (fs : List upb_fielddef) :
    ∀ (L : List Ptr) (s : State),
      reach_fields cfg (reach_msg cfg s0 n) s0 data fs = some L →
      L.Nodup → (∀ q ∈ L, rc_one (s0.heap q) = true) →
      (∀ q ∈ L, s.heap q = s0.heap q) →
      (∃ m1, deref s p = some (.msg m1) ∧ m1.data = data) → p ∉ L →
      ∃ s1, msg_free_loop cfg (_upb_msg_free cfg n) p fs s = .ok () s1 ∧
        Released s s1 L := by
  induction fs with
  | nil =>
    intro L s hreach _ _ _ _ _
    simp [reach_fields] at hreach
    subst hreach
    exact ⟨s, rfl, Released.refl_of _ _ rfl rfl⟩
  | cons f fs ih =>
    intro L s hreach hnd hrc hag hmsg hpL
    simp only [reach_fields] at hreach
    by_cases hmm : cfg.upb_field_ismm f = true
    · simp only [hmm, if_true] at hreach
      obtain ⟨m1, hm1, hdata⟩ := hmsg
      cases hread : upb_value_read cfg data f.byte_offset (cfg.upb_field_valuetype f) with
      | none => simp [hread] at hreach
      | some v =>
        simp only [hread] at hreach
        cases h1 : reach_field cfg (reach_msg cfg s0 n) s0 v f with
        | none => simp [h1] at hreach
        | some l1 =>
          cases h2 : reach_fields cfg (reach_msg cfg s0 n) s0 data fs with
          | none => simp [h1, h2] at hreach
          | some l2 =>
            simp [h1, h2] at hreach
            subst hreach
            have hnd' := List.nodup_append.mp hnd
            obtain ⟨s1, hrun1, hrel1⟩ := field_unref_tree cfg s0 n IH v f l1
              (log (.read p f.byte_offset (cfg.sizeof_value (cfg.upb_field_valuetype f))) s)
              h1 hnd'.1 (fun q hq => hrc q (List.mem_append_left _ hq))
              (fun q hq => by simpa using hag q (List.mem_append_left _ hq)) hmm
            have hheap1 : ∀ q, q ∉ l1 → s1.heap q = s.heap q := by
              intro q hq
              have := hrel1.2 q
              simpa [hq] using this
            have hm1' : deref s1 p = some (.msg m1) := by
              have h0 := deref_eq_heap s p _ hm1
              simp [deref, h0.1, hheap1 p (fun h => hpL (List.mem_append_left _ h)), h0.2]
            obtain ⟨s2, hrun2, hrel2⟩ := ih l2 s1 h2 hnd'.2.1
              (fun q hq => hrc q (List.mem_append_right _ hq))
              (fun q hq => by
                rw [hheap1 q (fun hq1 => hnd'.2.2 hq1 hq)]
                exact hag q (List.mem_append_right _ hq))
              ⟨m1, hm1', hdata⟩
              (fun h => hpL (List.mem_append_right _ h))
            refine ⟨s2, ?_, ?_⟩
            · simp only [msg_free_loop, hmm, if_true, hm1, hdata, hread, hrun1]
              exact hrun2
            · exact (hrel1.congr_left (by simp [releases_append, releases, Event.released])
                (fun q _ => by simp)).trans hrel2
    · simp only [hmm] at hreach
      obtain ⟨s1, hrun, hrel⟩ := ih L s hreach hnd hrc hag hmsg hpL
      refine ⟨s1, ?_, hrel⟩
      simp only [msg_free_loop, hmm]
      exact hrun

theorem msg_free_ok (cfg : Config) (s0 : State) (n : Nat) : MsgFreeOk cfg s0 n := by
  induction n with
  | zero =>
    intro p md L s hreach
    simp [reach_msg] at hreach
  | succ n ih =>
    intro p md L s hreach hnd hrc hag hmsg
    obtain ⟨m, hm⟩ := reach_msg_is_msg cfg s0 (n + 1) p md L hreach
    simp only [reach_msg, hm] at hreach
    obtain ⟨m1, hm1, hdata⟩ := hmsg m hm
    have hnd' := List.nodup_append.mp hnd
    have hpL : p ∉ L := fun h => hnd'.2.2 h (by simp)
    obtain ⟨s1, hrun1, hrel1⟩ := msg_loop_tree cfg s0 n ih p m.data md.fields L
      (log (.msg_free p md) s) hreach hnd'.1 hrc (fun q hq => by simpa using hag q hq)
      ⟨m1, by simpa [deref] using hm1, hdata⟩ hpL
    have h0 := deref_eq_heap s p _ hm1
    have hp1 : s1.heap p = some (.msg m1) := by
      have := hrel1.2 p
      simp [hpL] at this
      rw [this, h0.2]
    obtain ⟨s2, hrun2, hrel2⟩ := free_released p s1 _ h0.1 hp1
    refine ⟨s2, ?_, ?_⟩
    · simp only [_upb_msg_free, hrun1]
      exact hrun2
    · exact (hrel1.congr_left (by simp [releases_append, releases, Event.released])
        (fun q _ => by simp)).trans hrel2

/-- C3: when the blocks reachable from the message at `p` form a tree (the
traversal `reach_msg` lists them as `L`, without duplicates and without `p`)
in which every count is 1, `_upb_msg_free(p, md)` returns normally; the blocks
it releases are exactly `L` followed by `p`, each once and each after the
blocks reached through it; these blocks are gone from the heap and every
other block is untouched. -/
theorem msg_free_tree (cfg : Config) (n : Nat) (p : Ptr) (md : upb_msgdef)
    (s : State) (L : List Ptr)
    (hreach : reach_msg cfg s n p md = some L)
    (hnodup : (L ++ [p]).Nodup)
    (hrc : ∀ q ∈ L, rc_one (s.heap q) = true) :
    ∃ s1, _upb_msg_free cfg n p md s = .ok () s1 ∧
      releases s1.trace = releases s.trace ++ (L ++ [p]) ∧
      (∀ q ∈ L ++ [p], (releases s1.trace).count q = (releases s.trace).count q + 1) ∧
      (∀ q, q ∉ L ++ [p] → (releases s1.trace).count q = (releases s.trace).count q) ∧
      (∀ q, s1.heap q = if q ∈ L ++ [p] then none else s.heap q) := by
  obtain ⟨s1, hrun, hrel⟩ := msg_free_ok cfg s n p md L s hreach hnodup hrc
    (fun _ _ => rfl) (fun m hm => ⟨m, hm, rfl⟩)
  refine ⟨s1, hrun, hrel.1, ?_, ?_, hrel.2⟩
  · intro q hq
    rw [hrel.1, List.count_append, List.count_eq_one_of_mem hnodup hq]
  · intro q hq
    rw [hrel.1, List.count_append, List.count_eq_zero_of_not_mem hq]
    rfl

/-- Witness of C3: the message at 10 with a MESSAGE field holding the
sub-message at 20 and a repeated STRING field holding the array at 30 of the
3 strings at 41, 42, 43 (buffer at 31). The release events are, in order: the
sub-message, the three strings, the array buffer, the array, the message. -/
theorem msg_free_tree_witness :
    (∃ s1, _upb_msg_free witnessConfig 2 10 witnessRoot witnessState = .ok () s1 ∧
      releases s1.trace = releases witnessState.trace ++ ([20, 41, 42, 43, 31, 30] ++ [10]) ∧
      (∀ q ∈ [20, 41, 42, 43, 31, 30] ++ [10],
        (releases s1.trace).count q = (releases witnessState.trace).count q + 1) ∧
      (∀ q, q ∉ [20, 41, 42, 43, 31, 30] ++ [10] →
        (releases s1.trace).count q = (releases witnessState.trace).count q) ∧
      (∀ q, s1.heap q =
        if q ∈ [20, 41, 42, 43, 31, 30] ++ [10] then none else witnessState.heap q)) ∧
    (_upb_msg_free witnessConfig 2 10 witnessRoot witnessState).trace.filter Event.isRelease =
      [.free 20, .string_free 41, .string_free 42, .string_free 43, .free 31, .free 30,
        .free 10] :=
  ⟨msg_free_tree witnessConfig 2 10 witnessRoot witnessState [20, 41, 42, 43, 31, 30]
    (by rfl) (by decide) (by decide), by rfl⟩

/-! ## C4: one free per object under any interleaving of releases -/

theorem tids_length_le (l : List Nat) (N : Nat) (hnd : l.Nodup) (hlt : ∀ x ∈ l, x < N) :
    l.length ≤ N := by
  have hsub : l ⊆ List.range N := fun x hx => List.mem_range.mpr (hlt x hx)
  simpa using (List.subperm_of_subset hnd hsub).length_le

theorem tids_full (l : List Nat) (N : Nat) (hnd : l.Nodup) (hlt : ∀ x ∈ l, x < N)
    (hlen : N ≤ l.length) : ∀ i, i < N → i ∈ l := by
  have hsub : l ⊆ List.range N := fun x hx => List.mem_range.mpr (hlt x hx)
  have hperm := (List.subperm_of_subset hnd hsub).perm_of_length_le (by simpa using hlen)
  intro i hi
  exact hperm.mem_iff.mpr (List.mem_range.mpr hi)

theorem decsOk_zero_is_head (N : Nat) (decs : List Dec) (hok : DecsOk N decs)
    (hlen : decs.length ≤ N) (d : Dec) (hd : d ∈ decs) (hz : d.zero = true) :
    ∃ rest, decs = d :: rest ∧ rest.length + 1 = N := by
  induction decs with
  | nil => cases hd
  | cons d0 rest ih =>
    obtain ⟨hb, ha, hzero, hrest⟩ := hok
    simp only [List.length_cons] at hlen
    rcases List.mem_cons.mp hd with heq | hmem
    · subst heq
      refine ⟨rest, rfl, ?_⟩
      rw [hzero] at hz
      have h0 : d.after = 0 := of_decide_eq_true hz
      omega
    · obtain ⟨rest', hr, hl⟩ := ih hrest (by omega) hmem
      have : rest.length = rest'.length + 1 := by rw [hr]; rfl
      omega

theorem decsOk_rest (N : Nat) (d : Dec) (rest : List Dec) (hok : DecsOk N (d :: rest))
    (hlen : rest.length + 1 ≤ N) :
    ∀ e ∈ rest, e.zero = false ∧ e.after = e.before - 1 ∧ 1 < e.before := by
  intro e he
  by_cases hz : e.zero = true
  · obtain ⟨rest', hr, hl⟩ := decsOk_zero_is_head N rest hok.2.2.2 (by omega) e he hz
    have : rest.length = rest'.length + 1 := by rw [hr]; rfl
    omega
  · have hzf : e.zero = false := by simpa using hz
    have key : ∀ (l : List Dec), DecsOk N l → l.length ≤ N → e ∈ l →
        e.after = e.before - 1 ∧ e.zero = decide (e.after = 0) ∧ 0 < e.before := by
      intro l
      induction l with
      | nil => intro _ _ h; cases h
      | cons d1 l1 ih =>
        intro hok1 hlen1 hmem
        simp only [List.length_cons] at hlen1
        rcases List.mem_cons.mp hmem with heq | hmem1
        · subst heq
          exact ⟨hok1.2.1, hok1.2.2.1, by have := hok1.1; omega⟩
        · exact ih hok1.2.2.2 (by omega) hmem1
    obtain ⟨ha, hzd, hpos⟩ := key rest hok.2.2.2 (by omega) he
    refine ⟨hzf, ha, ?_⟩
    rw [hzd] at hzf
    have hne : e.after ≠ 0 := of_decide_eq_false hzf
    omega

theorem unref_enter_live (cfg : Config) (c : ReleaseCall) (v : upb_value) (s : State)
    (o : Obj) (cnt : Int) (hv : v ≠ 0)
    (hcls : (if c.elem then cfg.upb_elem_ismm c.f else cfg.upb_field_ismm c.f) = true)
    (ho : s.heap v = some o) (hc : o.refcount = some cnt) :
    ∃ s1 o1, unref_enter cfg c v s = .ok (decide (cnt - 1 = 0)) s1 ∧
      count_at s v = cnt ∧ count_at s1 v = cnt - 1 ∧
      s1.heap v = some o1 ∧ o1.refcount = some (cnt - 1) := by
  have hset : (o.setRefcount (cnt - 1)).refcount = some (cnt - 1) := by
    cases o <;> simp [Obj.setRefcount, Obj.refcount] at hc ⊢
  refine ⟨store (log (.unref v)
      (log (if c.elem then .elem_unref v c.f else .field_unref v c.f) s)) v
      (some (o.setRefcount (cnt - 1))), o.setRefcount (cnt - 1), ?_, ?_, ?_, ?_, hset⟩
  · simp [unref_enter, hcls, upb_value_getrefcount, hv, upb_atomic_unref, deref, ho, hc]
  · simp [count_at, deref, hv, ho, hc]
  · simp [count_at, deref, hv, hset]
  · simp

theorem init_pcs_start (calls : List ReleaseCall) (s : State) (i : Nat) (pc : Pc)
    (h : (Sys.init calls s).pcs[i]? = some pc) : pc = .start := by
  have hm : pc ∈ (Sys.init calls s).pcs := List.mem_iff_getElem?.mpr ⟨i, h⟩
  simp only [Sys.init, List.mem_map] at hm
  obtain ⟨_, _, h2⟩ := hm
  exact h2.symm

theorem sysInv_init (v : Ptr) (calls : List ReleaseCall) (s : State) (o : Obj)
    (ho : s.heap v = some o) (hc : o.refcount = some (calls.length : Int)) :
    SysInv v calls.length (Sys.init calls s) where
  len := by simp [Sys.init]
  tid_lt := by simp [Sys.init]
  tid_nodup := by simp [Sys.init]
  started := by simp [Sys.init]
  decided := by
    intro i z h
    have := init_pcs_start calls s i _ h
    cases this
  decs_ok := by simp [Sys.init, DecsOk]
  live := by
    intro _
    exact ⟨rfl, o, ho, by simpa [Sys.init] using hc⟩
  freed := Or.inl rfl
  finished := by
    intro i h
    have := init_pcs_start calls s i _ h
    cases this

theorem sysInv_enter (cfg : Config) (v : Ptr) (calls : List ReleaseCall) (hv : v ≠ 0)
    (hcls : ∀ c ∈ calls,
      (if c.elem then cfg.upb_elem_ismm c.f else cfg.upb_field_ismm c.f) = true)
    (sys : Sys) (i : Nat) (c : ReleaseCall) (inv : SysInv v calls.length sys)
    (hcr : sys.crashed = none) (hc : calls[i]? = some c) (hpc : sys.pcs[i]? = some .start) :
    ∃ z s1, unref_enter cfg c v sys.st = .ok z s1 ∧
      SysInv v calls.length
        { sys with
          st := s1
          pcs := sys.pcs.set i (.decided z)
          decs := { tid := i, before := count_at sys.st v, after := count_at s1 v, zero := z }
            :: sys.decs } := by
  have hi : i < sys.pcs.length := (List.getElem?_eq_some.mp hpc).1
  have hiN : i < calls.length := by rw [← inv.len]; exact hi
  have hnot := inv.started i hpc
  have htl : ∀ x ∈ sys.decs.map Dec.tid, x < calls.length := by
    intro x hx
    obtain ⟨d, hd, hdx⟩ := List.mem_map.mp hx
    rw [← hdx]
    exact inv.tid_lt d hd
  have hlenle : sys.decs.length ≤ calls.length := by
    simpa using tids_length_le _ _ inv.tid_nodup htl
  have hlt : sys.decs.length < calls.length := by
    by_contra hge
    exact hnot (tids_full _ _ inv.tid_nodup htl (by simpa using Nat.le_of_not_lt hge) i hiN)
  have hfrees : sys.frees = [] := by
    rcases inv.freed with h | ⟨d, rest, hdecs, hz, _, _⟩
    · exact h
    · exfalso
      obtain ⟨rest', hr, hl⟩ := decsOk_zero_is_head _ _ inv.decs_ok hlenle d
        (by rw [hdecs]; exact List.mem_cons_self _ _) hz
      have : sys.decs.length = rest'.length + 1 := by rw [hr]; rfl
      omega
  obtain ⟨_, o, ho, hrc⟩ := inv.live hfrees
  have hcmem : c ∈ calls := List.mem_iff_getElem?.mpr ⟨i, hc⟩
  obtain ⟨s1, o1, henter, hb, ha, ho1, hrc1⟩ :=
    unref_enter_live cfg c v sys.st o _ hv (hcls c hcmem) ho hrc
  refine ⟨_, s1, henter, ?_⟩
  exact
    { len := by simpa using inv.len
      tid_lt := by
        intro d hd
        rcases List.mem_cons.mp hd with h | h
        · rw [h]; exact hiN
        · exact inv.tid_lt d h
      tid_nodup := by
        simpa using ⟨by simpa using hnot, inv.tid_nodup⟩
      started := by
        intro j hj
        by_cases hji : j = i
        · subst hji
          simp [List.getElem?_set_self hi] at hj
        · have hj' : sys.pcs[j]? = some .start := by
            simpa [List.getElem?_set_ne (Ne.symm hji)] using hj
          have := inv.started j hj'
          simpa [hji] using this
      decided := by
        intro j z' hj
        by_cases hji : j = i
        · subst hji
          simp [List.getElem?_set_self hi] at hj
          exact ⟨_, List.mem_cons_self _ _, rfl, hj⟩
        · have hj' : sys.pcs[j]? = some (.decided z') := by
            simpa [List.getElem?_set_ne (Ne.symm hji)] using hj
          obtain ⟨d, hd, h1, h2⟩ := inv.decided j z' hj'
          exact ⟨d, List.mem_cons_of_mem _ hd, h1, h2⟩
      decs_ok := by
        refine ⟨?_, ?_, ?_, inv.decs_ok⟩
        · simpa using hb
        · simp only [ha, hb]
        · simp only [ha]
      live := by
        intro _
        refine ⟨hcr, o1, ho1, ?_⟩
        rw [hrc1]
        simp only [List.length_cons]
        push_cast
        congr 1
        ring
      freed := Or.inl hfrees
      finished := by
        intro j hj
        by_cases hji : j = i
        · subst hji
          simp [List.getElem?_set_self hi] at hj
        · have hj' : sys.pcs[j]? = some .finished := by
            simpa [List.getElem?_set_ne (Ne.symm hji)] using hj
          obtain ⟨d, hd, h1, h2⟩ := inv.finished j hj'
          exact ⟨d, List.mem_cons_of_mem _ hd, h1, h2⟩ }

theorem sysInv_finish (v : Ptr) (N : Nat) (sys : Sys) (i : Nat) (z : Bool)
    (r : Res Unit) (inv : SysInv v N sys) (hcr : sys.crashed = none)
    (hpc : sys.pcs[i]? = some (.decided z))
    (hr : z = false → r = .ok () sys.st) :
    SysInv v N (sys.returned i z r) := by
  have hi : i < sys.pcs.length := (List.getElem?_eq_some.mp hpc).1
  obtain ⟨d, hd, hdt, hdz⟩ := inv.decided i z hpc
  have htl : ∀ x ∈ sys.decs.map Dec.tid, x < N := by
    intro x hx
    obtain ⟨d', hd', hdx⟩ := List.mem_map.mp hx
    rw [← hdx]
    exact inv.tid_lt d' hd'
  have hlenle : sys.decs.length ≤ N := by
    simpa using tids_length_le _ _ inv.tid_nodup htl
  have hstart : ∀ j : Nat, (sys.pcs.set i Pc.finished)[j]? = some Pc.start →
      sys.pcs[j]? = some Pc.start := by
    intro j hj
    by_cases hji : j = i
    · subst hji
      simp [List.getElem?_set_self hi] at hj
    · simpa [List.getElem?_set_ne (Ne.symm hji)] using hj
  have hdec : ∀ (j : Nat) (z' : Bool), (sys.pcs.set i Pc.finished)[j]? = some (Pc.decided z') →
      sys.pcs[j]? = some (Pc.decided z') := by
    intro j z' hj
    by_cases hji : j = i
    · subst hji
      simp [List.getElem?_set_self hi] at hj
    · simpa [List.getElem?_set_ne (Ne.symm hji)] using hj
  cases z with
  | false =>
    rw [hr rfl]
    unfold Sys.returned
    exact
      { len := by simpa using inv.len
        tid_lt := inv.tid_lt
        tid_nodup := inv.tid_nodup
        started := fun j hj => inv.started j (hstart j hj)
        decided := fun j z' hj => inv.decided j z' (hdec j z' hj)
        decs_ok := inv.decs_ok
        live := by simpa using inv.live
        freed := by
          rcases inv.freed with h | ⟨d0, rest, h1, h2, h3, h4⟩
          · exact Or.inl (by simpa using h)
          · refine Or.inr ⟨d0, rest, h1, h2, by simpa using h3, ?_⟩
            intro hc0
            by_cases hji : d0.tid = i
            · rw [hji]
              exact List.getElem?_set_self hi
            · simpa [List.getElem?_set_ne (Ne.symm hji)] using h4 hc0
        finished := by
          intro j hj
          by_cases hji : j = i
          · subst hji
            refine ⟨d, hd, hdt, ?_⟩
            intro hz
            rw [hdz] at hz
            cases hz
          · have hj' : sys.pcs[j]? = some .finished := by
              simpa [List.getElem?_set_ne (Ne.symm hji)] using hj
            simpa using inv.finished j hj' }
  | true =>
    obtain ⟨rest, hdecs, hlen⟩ := decsOk_zero_is_head N _ inv.decs_ok hlenle d hd hdz
    have hfrees : sys.frees = [] := by
      rcases inv.freed with h | ⟨d0, rest0, h1, _, _, h4⟩
      · exact h
      · exfalso
        rw [hdecs] at h1
        have hd0 : d = d0 := (List.cons.inj h1).1
        have := h4 hcr
        rw [← hd0, hdt, hpc] at this
        cases this
    have hother : ∀ j, j ≠ i → ∀ d' ∈ sys.decs, d'.tid = j → d'.zero = true → False := by
      intro j hji d' hd' hdj hz'
      obtain ⟨rest', hr', _⟩ := decsOk_zero_is_head N _ inv.decs_ok hlenle d' hd' hz'
      rw [hdecs] at hr'
      have : d = d' := (List.cons.inj hr').1
      apply hji
      rw [← hdj, ← this, hdt]
    cases r with
    | ok u s1 =>
      unfold Sys.returned
      exact
        { len := by simpa using inv.len
          tid_lt := inv.tid_lt
          tid_nodup := inv.tid_nodup
          started := fun j hj => inv.started j (hstart j hj)
          decided := fun j z' hj => inv.decided j z' (hdec j z' hj)
          decs_ok := inv.decs_ok
          live := by
            intro h
            simp at h
          freed := by
            refine Or.inr ⟨d, rest, hdecs, hdz, by simp [hfrees, hdt], ?_⟩
            intro _
            rw [hdt]
            exact List.getElem?_set_self hi
          finished := by
            intro j hj
            by_cases hji : j = i
            · subst hji
              exact ⟨d, hd, hdt, fun _ => by simp⟩
            · have hj' : sys.pcs[j]? = some .finished := by
                simpa [List.getElem?_set_ne (Ne.symm hji)] using hj
              obtain ⟨d', hd', h1, _⟩ := inv.finished j hj'
              exact ⟨d', hd', h1, fun hz' => (hother j hji d' hd' h1 hz').elim⟩ }
    | fail e s1 =>
      unfold Sys.returned
      exact
        { len := inv.len
          tid_lt := inv.tid_lt
          tid_nodup := inv.tid_nodup
          started := inv.started
          decided := inv.decided
          decs_ok := inv.decs_ok
          live := by
            intro h
            simp at h
          freed := by
            refine Or.inr ⟨d, rest, hdecs, hdz, by simp [hfrees, hdt], ?_⟩
            intro h
            simp at h
          finished := by
            intro j hj
            have hji : j ≠ i := by
              intro h
              rw [h, hpc] at hj
              cases hj
            obtain ⟨d', hd', h1, _⟩ := inv.finished j hj
            exact ⟨d', hd', h1, fun hz' => (hother j hji d' hd' h1 hz').elim⟩ }

theorem sysInv_step (cfg : Config) (msg_free : Ptr → upb_msgdef → State → Res Unit)
    (v : Ptr) (calls : List ReleaseCall) (hv : v ≠ 0)
    (hcls : ∀ c ∈ calls,
      (if c.elem then cfg.upb_elem_ismm c.f else cfg.upb_field_ismm c.f) = true)
    (sys : Sys) (i : Nat) (inv : SysInv v calls.length sys) :
    SysInv v calls.length (Sys.step cfg msg_free v calls sys i) := by
  unfold Sys.step
  split
  next c hcr hc hpc =>
    obtain ⟨z, s1, henter, hinv⟩ := sysInv_enter cfg v calls hv hcls sys i c inv hcr hc hpc
    simp only [henter]
    exact hinv
  next c z hcr hc hpc =>
    exact sysInv_finish v calls.length sys i z _ inv hcr hpc
      (fun hz => by simp [unref_finish, hz])
  next => exact inv

theorem sysInv_run (cfg : Config) (msg_free : Ptr → upb_msgdef → State → Res Unit)
    (v : Ptr) (calls : List ReleaseCall) (hv : v ≠ 0)
    (hcls : ∀ c ∈ calls,
      (if c.elem then cfg.upb_elem_ismm c.f else cfg.upb_field_ismm c.f) = true)
    (sched : List Nat) :
    ∀ sys, SysInv v calls.length sys →
      SysInv v calls.length (Sys.run cfg msg_free v calls sys sched) := by
  induction sched with
  | nil => intro sys inv; exact inv
  | cons i sched ih =>
    intro sys inv
    exact ih _ (sysInv_step cfg msg_free v calls hv hcls sys i inv)

theorem upb_field_unref_phases (cfg : Config)
    (msg_free : Ptr → upb_msgdef → State → Res Unit) (v : upb_value) (f : upb_fielddef)
    (s : State) :
    upb_field_unref cfg msg_free v f s =
      match unref_enter cfg { elem := false, f := f } v s with
      | .ok z s1 => unref_finish cfg msg_free { elem := false, f := f } v z s1
      | .fail e s1 => .fail e s1 := by
  unfold upb_field_unref unref_enter unref_finish
  by_cases hmm : cfg.upb_field_ismm f = false
  · simp [hmm]
  · by_cases hv : upb_value_getrefcount v = 0
    · simp [hmm, hv]
    · simp only [hmm, hv, if_false, Bool.false_eq_true]
      cases upb_atomic_unref (upb_value_getrefcount v) (log (.field_unref v f) s) with
      | ok z s1 => cases z <;> simp
      | fail e s1 => rfl

theorem upb_elem_unref_phases (cfg : Config)
    (msg_free : Ptr → upb_msgdef → State → Res Unit) (v : upb_value) (f : upb_fielddef)
    (s : State) :
    upb_elem_unref cfg msg_free v f s =
      match unref_enter cfg { elem := true, f := f } v s with
      | .ok z s1 => unref_finish cfg msg_free { elem := true, f := f } v z s1
      | .fail e s1 => .fail e s1 := by
  unfold upb_elem_unref unref_enter unref_finish
  by_cases hmm : cfg.upb_elem_ismm f = false
  · simp [hmm]
  · by_cases hv : upb_value_getrefcount v = 0
    · simp [hmm, hv]
    · simp only [hmm, hv, if_false, if_true]
      cases upb_atomic_unref (upb_value_getrefcount v) (log (.elem_unref v f) s) with
      | ok z s1 => cases z <;> simp
      | fail e s1 => rfl

theorem decsOk_befores (N : Nat) (decs : List Dec) (hok : DecsOk N decs)
    (hlen : decs.length ≤ N) :
    decs.map Dec.before =
      (List.range' (N - decs.length + 1) decs.length).map (fun (k : Nat) => (k : Int)) := by
  induction decs with
  | nil => rfl
  | cons d rest ih =>
    simp only [List.length_cons] at hlen
    have h1 := ih hok.2.2.2 (by omega)
    have e1 : N - (rest.length + 1) + 1 + 1 = N - rest.length + 1 := by omega
    have hb : d.before = ((N - (rest.length + 1) + 1 : Nat) : Int) := by
      rw [hok.1]
      omega
    rw [List.map_cons, List.length_cons, List.range'_succ, List.map_cons, h1, e1, hb]

theorem sys_last_decrement_frees (v : Ptr) (N : Nat) (sys : Sys) (hN : 1 ≤ N)
    (inv : SysInv v N sys) (hdone : sys.complete) :
    ∃ d rest, sys.decs = d :: rest ∧ d.zero = true ∧ sys.frees = [d.tid] := by
  have hfr : sys.frees ≠ [] := by
    rcases hdone with hcr | hfin
    · intro h
      exact hcr (inv.live h).1
    · have hpcs : ∀ i, i < N → sys.pcs[i]? = some Pc.finished := by
        intro i hi
        have hil : i < sys.pcs.length := by rw [inv.len]; exact hi
        rw [List.getElem?_eq_getElem hil]
        congr 1
        exact hfin _ (List.getElem_mem hil)
      have hall : ∀ i, i < N → i ∈ sys.decs.map Dec.tid := by
        intro i hi
        obtain ⟨d, hd, hdt, _⟩ := inv.finished i (hpcs i hi)
        exact List.mem_map.mpr ⟨d, hd, hdt⟩
      have hge : N ≤ sys.decs.length := by
        have hsub : List.range N ⊆ sys.decs.map Dec.tid :=
          fun x hx => hall x (List.mem_range.mp hx)
        simpa using (List.subperm_of_subset (List.nodup_range N) hsub).length_le
      cases hdecs : sys.decs with
      | nil =>
        rw [hdecs] at hge
        simp at hge
        omega
      | cons d0 rest =>
        have hok := inv.decs_ok
        rw [hdecs] at hok hge
        simp only [List.length_cons] at hge
        have hlt := inv.tid_lt d0 (by rw [hdecs]; exact List.mem_cons_self _ _)
        have htl : ∀ x ∈ sys.decs.map Dec.tid, x < N := by
          intro x hx
          obtain ⟨d', hd', hdx⟩ := List.mem_map.mp hx
          rw [← hdx]
          exact inv.tid_lt d' hd'
        have hle : sys.decs.length ≤ N := by
          simpa using tids_length_le _ _ inv.tid_nodup htl
        rw [hdecs] at hle
        simp only [List.length_cons] at hle
        have hz0 : d0.zero = true := by
          rw [hok.2.2.1]
          apply decide_eq_true
          have := hok.1
          have := hok.2.1
          omega
        obtain ⟨d', hd', hdt', himp⟩ := inv.finished d0.tid (hpcs _ hlt)
        have hsame : d' = d0 :=
          List.inj_on_of_nodup_map inv.tid_nodup hd'
            (by rw [hdecs]; exact List.mem_cons_self _ _) hdt'
        rw [hsame] at himp
        intro h
        have := himp hz0
        rw [h] at this
        cases this
  rcases inv.freed with h | ⟨d, rest, h1, h2, h3, _⟩
  · exact (hfr h).elim
  · exact ⟨d, rest, h1, h2, h3⟩

/-- C4: `N ≥ 1` threads each perform one release call (`upb_field_unref` or
`upb_elem_unref`, which are their decrement-and-test step followed by their
free step) on the object at `v`, whose count is `N`. Under every schedule
that lets all calls complete, `N` decrements are executed, by distinct
threads, finding the counts `1, 2, …, N` (most recent first); the free routine
is invoked exactly once, by the thread whose decrement took the count from 1
to 0, and each of the other `N - 1` decrements lowered a count greater than 1
by one and its thread invoked no free routine. -/
theorem refcount_conservation (cfg : Config)
    (msg_free : Ptr → upb_msgdef → State → Res Unit) (v : upb_value)
    (calls : List ReleaseCall) (s : State) (o : Obj) (sched : List Nat)
    (hv : v ≠ 0) (hN : 1 ≤ calls.length)
    (hcls : ∀ c ∈ calls,
      (if c.elem then cfg.upb_elem_ismm c.f else cfg.upb_field_ismm c.f) = true)
    (ho : s.heap v = some o) (hc : o.refcount = some (calls.length : Int))
    (hdone : (Sys.run cfg msg_free v calls (Sys.init calls s) sched).complete) :
    (∀ f s1, upb_field_unref cfg msg_free v f s1 =
      match unref_enter cfg { elem := false, f := f } v s1 with
      | .ok z s2 => unref_finish cfg msg_free { elem := false, f := f } v z s2
      | .fail e s2 => .fail e s2) ∧
    (∀ f s1, upb_elem_unref cfg msg_free v f s1 =
      match unref_enter cfg { elem := true, f := f } v s1 with
      | .ok z s2 => unref_finish cfg msg_free { elem := true, f := f } v z s2
      | .fail e s2 => .fail e s2) ∧
    ∃ d rest,
      (Sys.run cfg msg_free v calls (Sys.init calls s) sched).decs = d :: rest ∧
      rest.length + 1 = calls.length ∧
      ((d :: rest).map Dec.tid).Nodup ∧
      (d :: rest).map Dec.before =
        (List.range' 1 calls.length).map (fun (k : Nat) => (k : Int)) ∧
      d.before = 1 ∧ d.after = 0 ∧ d.zero = true ∧
      (Sys.run cfg msg_free v calls (Sys.init calls s) sched).frees = [d.tid] ∧
      (∀ e ∈ rest, e.zero = false ∧ e.after = e.before - 1 ∧ 1 < e.before ∧
        e.tid ∉ (Sys.run cfg msg_free v calls (Sys.init calls s) sched).frees) := by
  refine ⟨upb_field_unref_phases cfg msg_free v, upb_elem_unref_phases cfg msg_free v, ?_⟩
  have inv := sysInv_run cfg msg_free v calls hv hcls sched _ (sysInv_init v calls s o ho hc)
  obtain ⟨d, rest, hdecs, hz, hfrees⟩ := sys_last_decrement_frees v calls.length _ hN inv hdone
  have htl : ∀ x ∈ (Sys.run cfg msg_free v calls (Sys.init calls s) sched).decs.map Dec.tid,
      x < calls.length := by
    intro x hx
    obtain ⟨d', hd', hdx⟩ := List.mem_map.mp hx
    rw [← hdx]
    exact inv.tid_lt d' hd'
  have hle := tids_length_le _ _ inv.tid_nodup htl
  have hok := inv.decs_ok
  have hnd := inv.tid_nodup
  have hbef := decsOk_befores calls.length _ hok (by simpa using hle)
  rw [hdecs] at hok hnd hle hbef
  simp only [List.length_map, List.length_cons] at hle
  obtain ⟨rest', hr, hlen⟩ := decsOk_zero_is_head calls.length (d :: rest) hok
    (by simpa using hle) d (List.mem_cons_self _ _) hz
  have hrr : rest = rest' := (List.cons.inj hr).2
  subst hrr
  have ha : d.after = 0 := by
    have := hok.2.2.1
    rw [hz] at this
    exact of_decide_eq_true this.symm
  have hb : d.before = 1 := by
    have := hok.2.1
    omega
  have hrest := decsOk_rest calls.length d rest hok (by omega)
  refine ⟨d, rest, hdecs, hlen, hnd, ?_, hb, ha, hz, hfrees, ?_⟩
  · rw [hbef]
    simp only [List.length_cons]
    have : calls.length - (rest.length + 1) + 1 = 1 := by omega
    rw [this, hlen]
  · intro e he
    obtain ⟨h1, h2, h3⟩ := hrest e he
    refine ⟨h1, h2, h3, ?_⟩
    rw [hfrees]
    intro hmem
    have heq : e.tid = d.tid := by simpa using hmem
    have hnd' := List.nodup_cons.mp hnd
    exact hnd'.1 (by rw [← heq]; exact List.mem_map.mpr ⟨e, he, rfl⟩)

/-- Witness of C4: the string at 41 with count 2, released by thread 0 through
an array element and by thread 1 through a field, under the schedule in which
thread 1 decrements first, thread 0 decrements to zero and frees, and thread
1 returns last. -/
theorem refcount_conservation_witness :
    ∃ d rest,
      (Sys.run witnessConfig (_upb_msg_free witnessConfig 1) 41 sharedCalls
        (Sys.init sharedCalls sharedStringState) [1, 0, 0, 1]).decs = d :: rest ∧
      rest.length + 1 = sharedCalls.length ∧
      ((d :: rest).map Dec.tid).Nodup ∧
      (d :: rest).map Dec.before =
        (List.range' 1 sharedCalls.length).map (fun (k : Nat) => (k : Int)) ∧
      d.before = 1 ∧ d.after = 0 ∧ d.zero = true ∧
      (Sys.run witnessConfig (_upb_msg_free witnessConfig 1) 41 sharedCalls
        (Sys.init sharedCalls sharedStringState) [1, 0, 0, 1]).frees = [d.tid] ∧
      (∀ e ∈ rest, e.zero = false ∧ e.after = e.before - 1 ∧ 1 < e.before ∧
        e.tid ∉ (Sys.run witnessConfig (_upb_msg_free witnessConfig 1) 41 sharedCalls
          (Sys.init sharedCalls sharedStringState) [1, 0, 0, 1]).frees) :=
  (refcount_conservation witnessConfig (_upb_msg_free witnessConfig 1) 41 sharedCalls
    sharedStringState (.str { refcount := 2 }) [1, 0, 0, 1] (by decide) (by decide)
    (by decide) (by rfl) (by rfl) (by decide)).2.2

/-! ## C5: `upb_field_unref` -/

/-- C5: for a field classified memory-managed and a value holding a non-null
handle to a live block with reference count `c`, `upb_field_unref(v, f)`
lowers that count by exactly one and touches no other block; when the new
count is zero it continues as `_upb_array_free(arr, f)` if `f` is an array
field and as `upb_elem_free(v, f)` otherwise; when the new count is not zero
it returns, having freed nothing. -/
theorem upb_field_unref_dispatch (cfg : Config)
    (msg_free : Ptr → upb_msgdef → State → Res Unit)
    (v : upb_value) (f : upb_fielddef) (s : State) (o : Obj) (c : Int)
    (hmm : cfg.upb_field_ismm f = true) (hv : v ≠ 0)
    (ho : s.heap v = some o) (hc : o.refcount = some c) :
    ∃ s2 : State,
      s2.trace = s.trace ++ [.field_unref v f, .unref v] ∧
      (s2.heap v).bind Obj.refcount = some (c - 1) ∧
      (∀ q, q ≠ v → s2.heap q = s.heap q) ∧
      (c - 1 = 0 → cfg.upb_isarray f = true →
        upb_field_unref cfg msg_free v f s =
          _upb_array_free cfg msg_free (upb_value_getarr v) f (log (.field_free v f) s2)) ∧
      (c - 1 = 0 → cfg.upb_isarray f = false →
        upb_field_unref cfg msg_free v f s =
          upb_elem_free cfg msg_free v f (log (.field_free v f) s2)) ∧
      (c - 1 ≠ 0 → upb_field_unref cfg msg_free v f s = .ok () s2) := by
  refine ⟨store (log (.unref v) (log (.field_unref v f) s)) v (some (o.setRefcount (c - 1))),
    ?_, ?_, ?_, ?_, ?_, ?_⟩
  · simp [store, log]
  · cases o <;> simp [store, Obj.setRefcount, Obj.refcount] at hc ⊢
  · intro q hq
    simp [store, log, Function.update, hq]
  · intro hz harr
    simp [upb_field_unref, upb_field_free, upb_atomic_unref, upb_value_getrefcount,
      upb_value_getarr, deref, log, hmm, hv, ho, hc, hz, harr]
  · intro hz harr
    simp [upb_field_unref, upb_field_free, upb_atomic_unref, upb_value_getrefcount,
      deref, log, hmm, hv, ho, hc, hz, harr]
  · intro hz
    simp [upb_field_unref, upb_atomic_unref, upb_value_getrefcount,
      deref, log, hmm, hv, ho, hc, hz]

/-- Witness of C5: the repeated STRING field of the teardown witness and its
array at address 30, whose count is 1. -/
theorem upb_field_unref_dispatch_witness :
    ∃ s2 : State,
      s2.trace = witnessState.trace ++ [.field_unref 30 witnessStrsField, .unref 30] ∧
      (s2.heap 30).bind Obj.refcount = some ((1 : Int) - 1) ∧
      (∀ q, q ≠ 30 → s2.heap q = witnessState.heap q) ∧
      ((1 : Int) - 1 = 0 → witnessConfig.upb_isarray witnessStrsField = true →
        upb_field_unref witnessConfig (_upb_msg_free witnessConfig 1) 30 witnessStrsField
            witnessState =
          _upb_array_free witnessConfig (_upb_msg_free witnessConfig 1) (upb_value_getarr 30)
            witnessStrsField (log (.field_free 30 witnessStrsField) s2)) ∧
      ((1 : Int) - 1 = 0 → witnessConfig.upb_isarray witnessStrsField = false →
        upb_field_unref witnessConfig (_upb_msg_free witnessConfig 1) 30 witnessStrsField
            witnessState =
          upb_elem_free witnessConfig (_upb_msg_free witnessConfig 1) 30 witnessStrsField
            (log (.field_free 30 witnessStrsField) s2)) ∧
      ((1 : Int) - 1 ≠ 0 →
        upb_field_unref witnessConfig (_upb_msg_free witnessConfig 1) 30 witnessStrsField
          witnessState = .ok () s2) :=
  upb_field_unref_dispatch witnessConfig (_upb_msg_free witnessConfig 1) 30 witnessStrsField
    witnessState (.arr { refcount := 1, size := 3, len := 3, elements := 31 }) 1
    (by decide) (by decide) (by decide) (by decide)

/-! ## C6: `upb_elem_free` -/

/-- C6: `upb_elem_free(v, f)` continues as `_upb_msg_free` on the held message
with the descriptor `f->def` designates when `f->type` is MESSAGE or GROUP,
as `_upb_string_free` on the held string when it is STRING or BYTES, and for
every other type ends in `abort()` without returning, with the heap unchanged
and nothing but the call itself added to the trace. -/
theorem upb_elem_free_dispatch (cfg : Config) (n : Nat) (v : upb_value)
    (f : upb_fielddef) (s : State) :
    (∀ md, (f.type = .MESSAGE ∨ f.type = .GROUP) →
      cfg.upb_downcast_msgdef f.def_ = some md →
      upb_elem_free cfg (_upb_msg_free cfg n) v f s =
        _upb_msg_free cfg n (upb_value_getmsg v) md (log (.elem_free v f) s)) ∧
    ((f.type = .STRING ∨ f.type = .BYTES) →
      upb_elem_free cfg (_upb_msg_free cfg n) v f s =
        _upb_string_free (upb_value_getstr v) (log (.elem_free v f) s)) ∧
    (∀ code, f.type = .other code →
      upb_elem_free cfg (_upb_msg_free cfg n) v f s =
          .fail .abort (log (.elem_free v f) s) ∧
        (upb_elem_free cfg (_upb_msg_free cfg n) v f s).returned = false ∧
        (upb_elem_free cfg (_upb_msg_free cfg n) v f s).heap = s.heap ∧
        (upb_elem_free cfg (_upb_msg_free cfg n) v f s).trace =
          s.trace ++ [.elem_free v f]) := by
  refine ⟨?_, ?_, ?_⟩
  · intro md ht hd
    rcases ht with ht | ht <;> simp [upb_elem_free, ht, hd]
  · intro ht
    rcases ht with ht | ht <;> simp [upb_elem_free, ht]
  · intro code ht
    simp [upb_elem_free, ht, Res.returned, Res.fault, Res.heap, Res.trace, log]

/-- Witness of C6: the MESSAGE field of the teardown witness, whose `def`
designates `witnessLeaf`. -/
theorem upb_elem_free_dispatch_witness :
    upb_elem_free witnessConfig (_upb_msg_free witnessConfig 1) 20 witnessSubField
        witnessState =
      _upb_msg_free witnessConfig 1 (upb_value_getmsg 20) witnessLeaf
        (log (.elem_free 20 witnessSubField) witnessState) ∧
    upb_elem_free witnessConfig (_upb_msg_free witnessConfig 1) 41 witnessStrsField
        witnessState =
      _upb_string_free (upb_value_getstr 41)
        (log (.elem_free 41 witnessStrsField) witnessState) ∧
    (upb_elem_free witnessConfig (_upb_msg_free witnessConfig 1) 9 witnessField8
        witnessState).returned = false :=
  ⟨(upb_elem_free_dispatch witnessConfig 1 20 witnessSubField witnessState).1 witnessLeaf
      (by decide) (by decide),
    (upb_elem_free_dispatch witnessConfig 1 41 witnessStrsField witnessState).2.1
      (by decide),
    ((upb_elem_free_dispatch witnessConfig 1 9 witnessField8 witnessState).2.2 5 rfl).2.1⟩

/-! ## C7: `upb_array_new` -/

/-- C7: when `malloc` returns a block (`p` is not null), `upb_array_new`
returns `p`, and the block at `p` is an array with reference count 1, `len`
0, `size` 0 and a null `elements` pointer. No other block changes. -/
theorem upb_array_new_empty (p : Ptr) (s : State) (hp : p ≠ 0) :
    ∃ s1 : State,
      upb_array_new p s = .ok p s1 ∧
      deref s1 p = some (.arr { refcount := 1, size := 0, len := 0, elements := 0 }) ∧
      (∀ q, q ≠ p → s1.heap q = s.heap q) ∧
      s1.trace = s.trace := by
  refine ⟨store s p (some (.arr { refcount := 1, size := 0, len := 0, elements := 0 })),
    ?_, ?_, ?_, rfl⟩
  · simp [upb_array_new, hp]
  · simp [deref, store, hp]
  · intro q hq
    simp [store, Function.update, hq]

/-- Witness of C7: allocation at address 5 in the empty heap. -/
theorem upb_array_new_empty_witness :
    ∃ s1 : State,
      upb_array_new 5 State.empty = .ok 5 s1 ∧
      deref s1 5 = some (.arr { refcount := 1, size := 0, len := 0, elements := 0 }) ∧
      (∀ q, q ≠ 5 → s1.heap q = State.empty.heap q) ∧
      s1.trace = State.empty.trace :=
  upb_array_new_empty 5 State.empty (by decide)

/-! ## C8: `_upb_array_free` on an array without allocated slots -/

/-- Counterexample to C8 as stated: an array with `len = 0` but `size = 1`
and a STRING element kind. `_upb_array_free` reads slot 0 and releases the
string it holds. -/
theorem array_free_len_zero_reads_slot :
    deref cachedArrayState 30 =
        some (.arr { refcount := 0, size := 1, len := 0, elements := 31 }) ∧
      (_upb_array_free witnessConfig (_upb_msg_free witnessConfig 1) 30 witnessStrsField
        cachedArrayState).trace =
      [.array_free 30 witnessStrsField, .read 31 0 8, .elem_unref 41 witnessStrsField,
        .unref 41, .elem_free 41 witnessStrsField, .string_free 41, .free 31, .free 30] := by
  constructor <;> rfl

/-- C8 (amended): for an array block whose `size` is 0, or a field whose
element kind is not classified memory-managed, whatever `len` and the
`elements` pointer are, `_upb_array_free(arr, f)` adds to the trace only the
call itself, a `free` of the `elements` pointer and a `free` of the array: no
slot read, no `upb_elem_unref`, no decrement. With a null `elements` pointer
it returns after `free(arr)` alone; with a live buffer it returns after
`free(arr->elements)` and `free(arr)`, in that order, and no other block
changes. -/
theorem array_free_no_slots (cfg : Config)
    (msg_free : Ptr → upb_msgdef → State → Res Unit)
    (arr : Ptr) (f : upb_fielddef) (s : State) (a : upb_array)
    (harr : deref s arr = some (.arr a))
    (h0 : a.size = 0 ∨ cfg.upb_elem_ismm f = false) :
    (∀ e ∈ (_upb_array_free cfg msg_free arr f s).trace,
      e ∈ s.trace ∨ e = .array_free arr f ∨ e = .free a.elements ∨ e = .free arr) ∧
    (a.elements = 0 →
      ∃ s1, _upb_array_free cfg msg_free arr f s = .ok () s1 ∧
        s1.trace = s.trace ++ [.array_free arr f, .free arr] ∧
        s1.heap arr = none ∧ (∀ q, q ≠ arr → s1.heap q = s.heap q)) ∧
    (a.elements ≠ 0 → a.elements ≠ arr → s.heap a.elements ≠ none →
      ∃ s1, _upb_array_free cfg msg_free arr f s = .ok () s1 ∧
        s1.trace = s.trace ++ [.array_free arr f, .free a.elements, .free arr] ∧
        s1.heap arr = none ∧ s1.heap a.elements = none ∧
        (∀ q, q ≠ arr → q ≠ a.elements → s1.heap q = s.heap q)) := by
  have harr0 : arr ≠ 0 := by
    intro h
    simp [deref, h] at harr
  have hheap : s.heap arr = some (.arr a) := by
    simpa [deref, harr0] using harr
  have hrun := array_free_skip cfg msg_free arr f s a harr h0
  refine ⟨array_free_skip_trace cfg msg_free arr f s a harr h0, ?_, ?_⟩
  · intro he
    rw [hrun]
    refine ⟨store (log (.free arr) (log (.array_free arr f) s)) arr none, ?_, ?_, ?_, ?_⟩
    · simp [he, free, harr0, log, store, hheap]
    · simp [store, log]
    · simp [store]
    · intro q hq
      simp [store, log, Function.update, hq]
  · intro he hsame hlive
    rw [hrun]
    obtain ⟨o, hb⟩ := Option.ne_none_iff_exists'.mp hlive
    have hne : arr ≠ a.elements := fun h => hsame h.symm
    refine ⟨store (log (.free arr) (store (log (.free a.elements)
      (log (.array_free arr f) s)) a.elements none)) arr none, ?_, ?_, ?_, ?_, ?_⟩
    · simp [free, he, log, hb, store, harr0, Function.update, hne, hheap]
    · simp [store, log]
    · simp [store]
    · simp [store, log, Function.update, hsame]
    · intro q hq1 hq2
      simp [store, log, Function.update, hq1, hq2]

/-- Witness of C8 (amended): an array with `size = 0` and no buffer. -/
theorem array_free_no_slots_witness :
    ∃ s1, _upb_array_free witnessConfig (_upb_msg_free witnessConfig 1) 30 witnessStrsField
        emptyArrayState = .ok () s1 ∧
      s1.trace = emptyArrayState.trace ++ [.array_free 30 witnessStrsField, .free 30] ∧
      s1.heap 30 = none ∧ (∀ q, q ≠ 30 → s1.heap q = emptyArrayState.heap q) :=
  (array_free_no_slots witnessConfig (_upb_msg_free witnessConfig 1) 30 witnessStrsField
    emptyArrayState { refcount := 0, size := 0, len := 0, elements := 0 } (by decide)
    (Or.inl rfl)).2.1 rfl

/-! ## C9: `_upb_array_free` against the specification's destroy -/

/-- Counterexample to C9 as stated: an array with `len = 1`, `size = 2` and a
STRING element kind. `_upb_array_free` reads slot 1 and calls
`upb_elem_unref` on the string it holds, an index not below `len`; the
destroy of the specification, iterating `len` slots, stops after slot 0. -/
theorem array_free_releases_beyond_len :
    deref truncatedArrayState 30 =
        some (.arr { refcount := 0, size := 2, len := 1, elements := 31 }) ∧
      (_upb_array_free witnessConfig (_upb_msg_free witnessConfig 1) 30 witnessStrsField
        truncatedArrayState).trace =
      [.array_free 30 witnessStrsField,
        .read 31 0 8, .elem_unref 41 witnessStrsField, .unref 41,
        .elem_free 41 witnessStrsField, .string_free 41,
        .read 31 8 8, .elem_unref 42 witnessStrsField, .unref 42,
        .elem_free 42 witnessStrsField, .string_free 42,
        .free 31, .free 30] ∧
      (array_destroy (fun a => a.len) (fun a => decide (0 < a.size)) witnessConfig
        (_upb_msg_free witnessConfig 1) 30
        witnessStrsField truncatedArrayState).trace =
      [.array_free 30 witnessStrsField,
        .read 31 0 8, .elem_unref 41 witnessStrsField, .unref 41,
        .elem_free 41 witnessStrsField, .string_free 41,
        .free 31, .free 30] := by
  refine ⟨?_, ?_, ?_⟩ <;> rfl

/-- C9 (amended): `_upb_array_free(arr, f)` is the destroy of the
specification with `size`, not `len`, as the number of slots iterated and a
non-null `elements` pointer as the test for a buffer: if the
element kind of `f` is classified memory-managed it invokes the
element-release path once on the slot of each index `0 ≤ i < arr->size`, in
increasing order, then releases the buffer exactly when the `elements` pointer
is not null, then releases the array. If the element kind is not classified
memory-managed, the run consists of the call itself, `free` of the `elements`
pointer and `free` of the array only. -/
theorem array_free_refines_destroy (cfg : Config)
    (msg_free : Ptr → upb_msgdef → State → Res Unit)
    (arr : Ptr) (f : upb_fielddef) (s : State) :
    _upb_array_free cfg msg_free arr f s =
        array_destroy (fun a => a.size) (fun a => decide (a.elements ≠ 0)) cfg msg_free
          arr f s ∧
    (∀ a, deref s arr = some (.arr a) → cfg.upb_elem_ismm f = false →
      ∀ e ∈ (_upb_array_free cfg msg_free arr f s).trace,
        e ∈ s.trace ∨ e = .array_free arr f ∨ e = .free a.elements ∨ e = .free arr) := by
  constructor
  · unfold _upb_array_free array_destroy
    have hloop : (if cfg.upb_elem_ismm f = true then
          match deref (log (.array_free arr f) s) arr with
          | some (.arr a) =>
            array_free_loop cfg msg_free arr f a.size 0 (log (.array_free arr f) s)
          | _ => .fail .invalid (log (.array_free arr f) s)
        else .ok () (log (.array_free arr f) s)) =
        (if cfg.upb_elem_ismm f = true then
          match deref (log (.array_free arr f) s) arr with
          | some (.arr a) =>
            (List.range a.size).foldl
              (fun (r : Res Unit) i => r.andThen (release_slot cfg msg_free arr f i))
              (.ok () (log (.array_free arr f) s))
          | _ => .fail .invalid (log (.array_free arr f) s)
        else .ok () (log (.array_free arr f) s)) := by
      split
      · split
        · rw [array_free_loop_eq_foldl, List.range_eq_range']
        · rfl
      · rfl
    have key : ∀ r : Res Unit,
        (match r with
          | .ok _ s2 =>
            match deref s2 arr with
            | some (.arr a) =>
              if a.elements ≠ 0 then
                match free a.elements s2 with
                | .ok _ s3 => free arr s3
                | .fail e s3 => .fail e s3
              else free arr s2
            | _ => .fail .invalid s2
          | .fail e s2 => .fail e s2) =
        r.andThen fun s2 =>
          match deref s2 arr with
          | some (.arr a) =>
            (if decide (a.elements ≠ 0) = true then free a.elements s2
              else .ok () s2).andThen (free arr)
          | _ => .fail .invalid s2 := by
      intro r
      cases r with
      | fail e s2 => rfl
      | ok u s2 =>
        simp only [Res.andThen]
        cases h1 : deref s2 arr with
        | none => rfl
        | some o =>
          cases o with
          | arr a =>
            simp only
            by_cases he : a.elements = 0
            · simp [he]
            · simp [he]
          | msg m => rfl
          | str s3 => rfl
          | raw b => rfl
    simp only [hloop]
    exact key _
  · intro a harr hmm
    exact array_free_skip_trace cfg msg_free arr f s a harr (Or.inr hmm)

/-- Witness of C9 (amended): an array of a scalar element kind. -/
theorem array_free_refines_destroy_witness :
    ∀ e ∈ (_upb_array_free witnessConfig (_upb_msg_free witnessConfig 1) 30 witnessField8
        truncatedArrayState).trace,
      e ∈ truncatedArrayState.trace ∨ e = .array_free 30 witnessField8 ∨
        e = .free ({ refcount := 0, size := 2, len := 1, elements := 31 } : upb_array).elements ∨
        e = .free 30 :=
  (array_free_refines_destroy witnessConfig (_upb_msg_free witnessConfig 1) 30 witnessField8
    truncatedArrayState).2 { refcount := 0, size := 2, len := 1, elements := 31 }
    (by decide) (by decide)

/-! ## C10: release of a fresh message without memory-managed fields -/

theorem msg_free_loop_no_mm (cfg : Config)
    (msg_free : Ptr → upb_msgdef → State → Res Unit) (msg : Ptr)
    (fs : List upb_fielddef) (s : State)
    (h : ∀ f ∈ fs, cfg.upb_field_ismm f = false) :
    msg_free_loop cfg msg_free msg fs s = .ok () s := by
  induction fs with
  | nil => rfl
  | cons f fs ih =>
    have hf : cfg.upb_field_ismm f = false := h f (List.mem_cons_self _ _)
    simp only [msg_free_loop, hf]
    exact ih (fun g hg => h g (List.mem_cons_of_mem _ hg))

/-- C10: for a descriptor none of whose fields is classified memory-managed
(and an allocation that succeeded), `_upb_msg_free(upb_msg_new(d), d)` returns
normally for every positive recursion budget; the only events are the call
itself and one `free` of the instance (no `upb_field_unref`, no slot read, no
reference-count decrement, no other release), and the heap is the one before
`upb_msg_new` with nothing at the instance's address. -/
theorem msg_free_new_no_mm (cfg : Config) (md : upb_msgdef) (p : Ptr) (s : State)
    (n : Nat) (hp : p ≠ 0) (hsize : cfg.sizeof_refcount ≤ md.size)
    (hmm : ∀ f ∈ md.fields, cfg.upb_field_ismm f = false) :
    ∃ s1 s2 : State,
      upb_msg_new cfg md p s = .ok p s1 ∧
      _upb_msg_free cfg (n + 1) p md s1 = .ok () s2 ∧
      s2.trace = s.trace ++ [.msg_free p md, .free p] ∧
      s2.heap p = none ∧
      (∀ q, q ≠ p → s2.heap q = s.heap q) := by
  refine ⟨store s p (some (.msg
      { refcount := 1, data := List.replicate (md.size - cfg.sizeof_refcount) 0 })),
    store (log (.free p) (log (.msg_free p md) (store s p (some (.msg
      { refcount := 1, data := List.replicate (md.size - cfg.sizeof_refcount) 0 })))))
      p none, ?_, ?_, ?_, ?_, ?_⟩
  · simp [upb_msg_new, hp, Nat.not_lt.mpr hsize]
  · simp [_upb_msg_free, msg_free_loop_no_mm cfg _ p md.fields _ hmm, free, hp, log, store]
  · simp [store, log]
  · simp [store]
  · intro q hq
    simp [store, log, Function.update, hq]

/-- Witness of C10: the scalar-only descriptor `witnessLeaf`, allocated at
address 7 in the empty heap. -/
theorem msg_free_new_no_mm_witness :
    ∃ s1 s2 : State,
      upb_msg_new witnessConfig witnessLeaf 7 State.empty = .ok 7 s1 ∧
      _upb_msg_free witnessConfig (0 + 1) 7 witnessLeaf s1 = .ok () s2 ∧
      s2.trace = State.empty.trace ++ [.msg_free 7 witnessLeaf, .free 7] ∧
      s2.heap 7 = none ∧
      (∀ q, q ≠ 7 → s2.heap q = State.empty.heap q) :=
  msg_free_new_no_mm witnessConfig witnessLeaf 7 State.empty 0 (by decide) (by decide)
    (by decide)

/-! ## C11: `upb_msg_sethas` is idempotent -/

theorem sethas_byte_idem (b k : Nat) :
    (((b ||| (1 <<< k)) % 256) ||| (1 <<< k)) % 256 = (b ||| (1 <<< k)) % 256 := by
  have h256 : (256 : Nat) = 2 ^ 8 := by norm_num
  apply Nat.eq_of_testBit_eq
  intro j
  rw [h256]
  simp only [Nat.testBit_mod_two_pow, Nat.testBit_or, Nat.one_shiftLeft, Nat.testBit_two_pow]
  cases decide (j < 8) <;> cases b.testBit j <;> cases decide (k = j) <;> rfl

theorem sethas_byte_present (b k : Nat) (hb : b < 256) (hk : b.testBit k = true) :
    (b ||| (1 <<< k)) % 256 = b := by
  have h256 : (256 : Nat) = 2 ^ 8 := by norm_num
  apply Nat.eq_of_testBit_eq
  intro j
  rw [h256]
  simp only [Nat.testBit_mod_two_pow, Nat.testBit_or, Nat.one_shiftLeft, Nat.testBit_two_pow]
  by_cases hj : j < 8
  · by_cases hkj : k = j
    · subst hkj
      simp [hj, hk]
    · simp [hj, hkj]
  · have hlt : b < 2 ^ j :=
      Nat.lt_of_lt_of_le hb (by rw [h256]; exact Nat.pow_le_pow_right (by norm_num) (by omega))
    simp [hj, Nat.testBit_lt_two_pow hlt]

/-- C11: `upb_msg_sethas(m, f)` applied twice gives the same message as
applied once (and is out of bounds twice when it is out of bounds once); and
on a message of bytes (values below 256) in which `f` is already present it
returns the message unchanged, bitmap, slots and reference count included. -/
theorem upb_msg_sethas_idempotent (m : upb_msg) (f : upb_fielddef) :
    (upb_msg_sethas m f).bind (fun m1 => upb_msg_sethas m1 f) = upb_msg_sethas m f ∧
    ((∀ b ∈ m.data, b < 256) → upb_msg_has m f = some true →
      upb_msg_sethas m f = some m) := by
  constructor
  · unfold upb_msg_sethas
    cases hb : m.data[f.field_index / 8]? with
    | none => rfl
    | some b =>
      have hi : f.field_index / 8 < m.data.length := (List.getElem?_eq_some.mp hb).1
      simp only [Option.some_bind, List.getElem?_set_self hi, List.set_set, sethas_byte_idem]
  · intro hbytes hhas
    unfold upb_msg_has at hhas
    unfold upb_msg_sethas
    cases hb : m.data[f.field_index / 8]? with
    | none => simp [hb] at hhas
    | some b =>
      obtain ⟨hi, hget⟩ := List.getElem?_eq_some.mp hb
      have hb256 : b < 256 := hbytes b (by rw [← hget]; exact List.getElem_mem hi)
      have hbit : b.testBit (f.field_index % 8) = true := by
        simp only [hb, Option.map_some', Option.some.injEq, decide_eq_true_eq] at hhas
        exact (and_one_shiftLeft_ne_zero b _).mp hhas
      simp only [sethas_byte_present b _ hb256 hbit]
      congr 1
      cases m with
      | mk rc data =>
        simp only [upb_msg.mk.injEq, true_and]
        apply List.ext_getElem?
        intro j
        by_cases hj : f.field_index / 8 = j
        · subst hj
          rw [List.getElem?_set_self hi]
          exact hb.symm
        · rw [List.getElem?_set_ne hj]

/-- Witness of C11: field index 7, already present in `witnessBitmapMsg`. -/
theorem upb_msg_sethas_idempotent_witness :
    upb_msg_sethas witnessBitmapMsg witnessField7 = some witnessBitmapMsg :=
  (upb_msg_sethas_idempotent witnessBitmapMsg witnessField7).2 (by decide) (by decide)

/-! ## C13: allocation failure -/

/-- Counterexample to C13 as stated: when `malloc` returns `NULL`,
`upb_msg_new` and `upb_array_new` go on to write through the null pointer
(`memset`, the initialisation of the reference count): the outcome is an
invalid memory access, not a signalled allocation failure. -/
theorem new_writes_through_null :
    (upb_msg_new witnessConfig witnessLeaf 0 State.empty).fault = some .invalid ∧
      (upb_array_new 0 State.empty).fault = some .invalid := by
  constructor <;> rfl

/-- C13 (amended): `upb_msg_new` and `upb_array_new` do not test the result of
`malloc`. When it is `NULL` they write through it, an invalid memory access
that leaves the state as it was and returns no instance; for no result of
`malloc` do they end in a signalled allocation failure. -/
theorem new_unchecked_malloc (cfg : Config) (md : upb_msgdef) (s : State) :
    upb_msg_new cfg md 0 s = .fail .invalid s ∧
    upb_array_new 0 s = .fail .invalid s ∧
    (∀ p, (upb_msg_new cfg md p s).fault ≠ some .alloc_failure) ∧
    (∀ p, (upb_array_new p s).fault ≠ some .alloc_failure) := by
  refine ⟨by simp [upb_msg_new], by simp [upb_array_new], ?_, ?_⟩
  · intro p
    unfold upb_msg_new
    split
    · simp [Res.fault]
    · split <;> simp [Res.fault]
  · intro p
    unfold upb_array_new
    split <;> simp [Res.fault]

/-! ## C14: `_upb_msg_free` against the specification's destroy -/

theorem foldl_release_fail (cfg : Config) (k : upb_fielddef → State → Res Unit)
    (e : Fault) (s : State) (fs : List upb_fielddef) :
    fs.foldl (fun (r : Res Unit) f => if cfg.upb_field_ismm f then r.andThen (k f) else r)
      (.fail e s) = .fail e s := by
  induction fs with
  | nil => rfl
  | cons f fs ih =>
    simp only [List.foldl_cons]
    by_cases hmm : cfg.upb_field_ismm f = true
    · simpa [hmm, Res.andThen] using ih
    · simpa [hmm] using ih

theorem msg_free_loop_step (cfg : Config)
    (msg_free : Ptr → upb_msgdef → State → Res Unit) (msg : Ptr) (f : upb_fielddef)
    (fs : List upb_fielddef) (s : State) (hmm : cfg.upb_field_ismm f = true) :
    msg_free_loop cfg msg_free msg (f :: fs) s =
      (release_field cfg msg_free msg f s).andThen (msg_free_loop cfg msg_free msg fs) := by
  simp only [msg_free_loop, release_field, hmm, if_true]
  cases h1 : deref s msg with
  | none => rfl
  | some o =>
    cases o with
    | msg m =>
      simp only
      cases h2 : upb_value_read cfg m.data (_upb_msg_getptr f) (cfg.upb_field_valuetype f) with
      | none => rfl
      | some v =>
        simp only
        cases upb_field_unref cfg msg_free v f
          (log (.read msg (_upb_msg_getptr f) (cfg.sizeof_value (cfg.upb_field_valuetype f))) s)
          <;> rfl
    | arr a => rfl
    | str st => rfl
    | raw b => rfl

theorem msg_free_loop_eq_foldl (cfg : Config)
    (msg_free : Ptr → upb_msgdef → State → Res Unit) (msg : Ptr)
    (fs : List upb_fielddef) (s : State) :
    msg_free_loop cfg msg_free msg fs s =
      fs.foldl
        (fun (r : Res Unit) f =>
          if cfg.upb_field_ismm f then r.andThen (release_field cfg msg_free msg f) else r)
        (.ok () s) := by
  induction fs generalizing s with
  | nil => rfl
  | cons f fs ih =>
    by_cases hmm : cfg.upb_field_ismm f = true
    · rw [msg_free_loop_step cfg msg_free msg f fs s hmm, List.foldl_cons]
      simp only [hmm, if_true]
      have e0 : (Res.ok () s).andThen (release_field cfg msg_free msg f) =
          release_field cfg msg_free msg f s := rfl
      rw [e0]
      cases h : release_field cfg msg_free msg f s with
      | ok u s1 => exact ih s1
      | fail e s1 => exact (foldl_release_fail cfg _ e s1 fs).symm
    · rw [List.foldl_cons]
      simp only [msg_free_loop, hmm]
      exact ih s

/-- C14: `_upb_msg_free(msg, md)` is the destroy of the specification: it
visits the fields of `md` in iteration order; for each field classified
memory-managed (and for no other) it reads the value in the field's slot and
invokes `upb_field_unref` on it, once; and it frees `msg` after the last
field, provided no release ended in a fault. -/
theorem msg_free_refines_destroy (cfg : Config) (n : Nat) (msg : Ptr) (md : upb_msgdef)
    (s : State) :
    _upb_msg_free cfg (n + 1) msg md s =
      msg_destroy cfg (_upb_msg_free cfg n) msg md s := by
  simp only [_upb_msg_free, msg_destroy, msg_free_loop_eq_foldl]
  cases md.fields.foldl
      (fun (r : Res Unit) f =>
        if cfg.upb_field_ismm f then
          r.andThen (release_field cfg (_upb_msg_free cfg n) msg f)
        else r)
      (.ok () (log (.msg_free msg md) s)) <;> rfl

/-! ## C17: null handles -/

theorem upb_value_read_zero (cfg : Config) (mem : List Nat) (off : Nat)
    (type : upb_valuetype_t)
    (hdec : ∀ bs : List Nat, (∀ b ∈ bs, b = 0) → cfg.decode_value bs = 0)
    (hz : ∀ b ∈ mem, b = 0) (hin : off + cfg.sizeof_value type ≤ mem.length) :
    upb_value_read cfg mem off type = some 0 := by
  unfold upb_value_read
  cases hr : read_bytes mem off (cfg.sizeof_value type) with
  | none => simp [read_bytes, hin] at hr
  | some bs =>
    simp only [Option.map_some', Option.some.injEq]
    exact hdec bs (fun b hb => hz b (read_bytes_mem _ _ _ _ hr b hb))

theorem msg_free_loop_null (cfg : Config)
    (msg_free : Ptr → upb_msgdef → State → Res Unit) (p : Ptr) (m : upb_msg)
    (hdec : ∀ bs : List Nat, (∀ b ∈ bs, b = 0) → cfg.decode_value bs = 0)
    (hz : ∀ b ∈ m.data, b = 0) (fs : List upb_fielddef)
    (hin : ∀ f ∈ fs, cfg.upb_field_ismm f = true →
      f.byte_offset + cfg.sizeof_value (cfg.upb_field_valuetype f) ≤ m.data.length) :
    ∀ s : State, deref s p = some (.msg m) →
      msg_free_loop cfg msg_free p fs s =
        .ok () { s with trace := s.trace ++ null_release_events cfg p fs } := by
  induction fs with
  | nil =>
    intro s _
    simp [msg_free_loop, null_release_events]
  | cons f fs ih =>
    intro s hs
    have hin' : ∀ g ∈ fs, cfg.upb_field_ismm g = true →
        g.byte_offset + cfg.sizeof_value (cfg.upb_field_valuetype g) ≤ m.data.length :=
      fun g hg => hin g (List.mem_cons_of_mem _ hg)
    by_cases hmm : cfg.upb_field_ismm f = true
    · have hread := upb_value_read_zero cfg m.data f.byte_offset (cfg.upb_field_valuetype f)
        hdec hz (hin f (List.mem_cons_self _ _) hmm)
      have hs' : deref (log (.field_unref 0 f) (log (.read p (_upb_msg_getptr f)
          (cfg.sizeof_value (cfg.upb_field_valuetype f))) s)) p = some (.msg m) := by
        simpa [deref] using hs
      simp only [msg_free_loop, hmm, if_true, hs, hread, upb_field_unref,
        upb_value_getrefcount, Bool.true_eq_false, if_false]
      rw [ih hin' _ hs']
      simp [null_release_events, hmm, log]
    · simp only [msg_free_loop, hmm, null_release_events]
      exact ih hin' s hs

/-- C17: for a field classified memory-managed and a value whose handle is
null, `upb_field_unref` and `upb_elem_unref` return having only recorded the
call: no decrement, no free, the heap untouched. Consequently, for a
descriptor whose memory-managed slots lie inside the instance, and a value
encoding in which zero bytes are the null handle, `_upb_msg_free` on the
instance `upb_msg_new` returned reads each memory-managed slot, calls
`upb_field_unref` on the null value, and frees the instance and nothing
else. -/
theorem null_handle_noop (cfg : Config) (msg_free : Ptr → upb_msgdef → State → Res Unit)
    (v : upb_value) (f : upb_fielddef) (s : State) (md : upb_msgdef) (p : Ptr) (n : Nat)
    (hv : upb_value_getrefcount v = 0) :
    (cfg.upb_field_ismm f = true →
      upb_field_unref cfg msg_free v f s = .ok () (log (.field_unref v f) s)) ∧
    (cfg.upb_elem_ismm f = true →
      upb_elem_unref cfg msg_free v f s = .ok () (log (.elem_unref v f) s)) ∧
    (p ≠ 0 → cfg.sizeof_refcount ≤ md.size →
      (∀ bs : List Nat, (∀ b ∈ bs, b = 0) → cfg.decode_value bs = 0) →
      (∀ g ∈ md.fields, cfg.upb_field_ismm g = true →
        g.byte_offset + cfg.sizeof_value (cfg.upb_field_valuetype g) ≤
          md.size - cfg.sizeof_refcount) →
      ∃ s1 s2 : State,
        upb_msg_new cfg md p s = .ok p s1 ∧
        _upb_msg_free cfg (n + 1) p md s1 = .ok () s2 ∧
        s2.trace = s.trace ++ [.msg_free p md] ++ null_release_events cfg p md.fields
          ++ [.free p] ∧
        s2.heap p = none ∧
        (∀ q, q ≠ p → s2.heap q = s.heap q)) := by
  refine ⟨?_, ?_, ?_⟩
  · intro hmm
    simp [upb_field_unref, hmm, hv]
  · intro hmm
    simp [upb_elem_unref, hmm, hv]
  · intro hp hsize hdec hin
    have hz : ∀ b ∈ List.replicate (md.size - cfg.sizeof_refcount) 0, b = 0 := by
      intro b hb
      exact (List.mem_replicate.mp hb).2
    have hloop := msg_free_loop_null cfg (_upb_msg_free cfg n) p
      { refcount := 1, data := List.replicate (md.size - cfg.sizeof_refcount) 0 }
      hdec hz md.fields (by simpa using hin)
      (log (.msg_free p md) (store s p (some (.msg
        { refcount := 1, data := List.replicate (md.size - cfg.sizeof_refcount) 0 }))))
      (by simp [deref, hp])
    refine ⟨store s p (some (.msg
        { refcount := 1, data := List.replicate (md.size - cfg.sizeof_refcount) 0 })),
      store (log (.free p)
        (State.mk
          (store s p (some (.msg
            (upb_msg.mk 1 (List.replicate (md.size - cfg.sizeof_refcount) 0))))).heap
          (s.trace ++ [.msg_free p md] ++ null_release_events cfg p md.fields)))
        p none, ?_, ?_, ?_, ?_, ?_⟩
    · simp [upb_msg_new, hp, Nat.not_lt.mpr hsize]
    · simp only [_upb_msg_free, hloop]
      simp [free, hp, log, store]
    · simp [log]
    · simp
    · intro q hq
      simp [Function.update, hq]

/-- Witness of C17: the descriptor of the teardown witness, with a MESSAGE
field and a repeated STRING field, allocated at address 10 in the empty
heap. -/
theorem null_handle_noop_witness :
    ∃ s1 s2 : State,
      upb_msg_new witnessConfig witnessRoot 10 State.empty = .ok 10 s1 ∧
      _upb_msg_free witnessConfig (0 + 1) 10 witnessRoot s1 = .ok () s2 ∧
      s2.trace = State.empty.trace ++ [.msg_free 10 witnessRoot]
        ++ null_release_events witnessConfig 10 witnessRoot.fields ++ [.free 10] ∧
      s2.heap 10 = none ∧
      (∀ q, q ≠ 10 → s2.heap q = State.empty.heap q) :=
  (null_handle_noop witnessConfig (_upb_msg_free witnessConfig 0) 0 witnessStrsField
    State.empty witnessRoot 10 0 rfl).2.2 (by decide) (by decide)
    (fun bs h => le_decode_zero bs h) (by decide)

/-! ## C18: the classification fault is unreachable on well-formed descriptors -/

theorem safe_ok {α : Type} (a : α) (s : State) : (Res.ok a s).safe := by
  simp [Res.safe, Res.fault]

theorem safe_invalid {α : Type} (s : State) : (Res.fail .invalid s : Res α).safe := by
  simp [Res.safe, Res.fault]

theorem free_safe (p : Ptr) (s : State) : (free p s).safe := by
  unfold free
  dsimp only
  split
  · exact safe_ok _ _
  · split
    · exact safe_ok _ _
    · exact safe_invalid _

theorem string_free_safe (p : Ptr) (s : State) : (_upb_string_free p s).safe := by
  unfold _upb_string_free
  dsimp only
  split
  · exact safe_ok _ _
  · exact safe_invalid _

theorem atomic_unref_safe (p : Ptr) (s : State) : (upb_atomic_unref p s).safe := by
  unfold upb_atomic_unref
  dsimp only
  split
  · split
    · exact safe_ok _ _
    · exact safe_invalid _
  · exact safe_invalid _

theorem descOk_field (cfg : Config) (md : upb_msgdef) (h : DescOk cfg md) :
    ∀ f ∈ md.fields, FieldOk cfg f := by
  intro f hf
  refine ⟨h md (Nested.refl md) f hf, ?_⟩
  intro md1 ht hd md2 hn g hg
  exact h md2 (Nested.step md md1 md2 f hf ht hd hn) g hg

theorem elem_free_safe (cfg : Config) (msg_free : Ptr → upb_msgdef → State → Res Unit)
    (hgood : ∀ md, DescOk cfg md → ∀ p s, (msg_free p md s).safe)
    (v : upb_value) (f : upb_fielddef) (s : State) (hf : FieldOk cfg f)
    (hown : f.type.owned = true) :
    (upb_elem_free cfg msg_free v f s).safe := by
  unfold upb_elem_free
  cases ht : f.type with
  | MESSAGE =>
    simp only
    cases hd : cfg.upb_downcast_msgdef f.def_ with
    | none => exact safe_invalid _
    | some md => exact hgood md (hf.2 md (Or.inl ht) hd) _ _
  | GROUP =>
    simp only
    cases hd : cfg.upb_downcast_msgdef f.def_ with
    | none => exact safe_invalid _
    | some md => exact hgood md (hf.2 md (Or.inr ht) hd) _ _
  | STRING => exact string_free_safe _ _
  | BYTES => exact string_free_safe _ _
  | other code => simp [ht, upb_fieldtype.owned] at hown

theorem elem_unref_safe (cfg : Config) (msg_free : Ptr → upb_msgdef → State → Res Unit)
    (hgood : ∀ md, DescOk cfg md → ∀ p s, (msg_free p md s).safe)
    (v : upb_value) (f : upb_fielddef) (s : State) (hf : FieldOk cfg f)
    (hmm : cfg.upb_elem_ismm f = true) :
    (upb_elem_unref cfg msg_free v f s).safe := by
  have hown : f.type.owned = true := by
    have := hf.1
    simp [classified_ok, hmm] at this
    exact this.1
  unfold upb_elem_unref
  simp only [hmm, Bool.true_eq_false, if_false]
  split
  · exact safe_ok _ _
  · have hs := atomic_unref_safe (upb_value_getrefcount v) (log (.elem_unref v f) s)
    split
    · exact elem_free_safe cfg msg_free hgood v f _ hf hown
    · exact safe_ok _ _
    · rename_i e s2 heq
      rw [heq] at hs
      exact hs

theorem array_loop_safe (cfg : Config) (msg_free : Ptr → upb_msgdef → State → Res Unit)
    (hgood : ∀ md, DescOk cfg md → ∀ p s, (msg_free p md s).safe)
    (arr : Ptr) (f : upb_fielddef) (hf : FieldOk cfg f)
    (hmm : cfg.upb_elem_ismm f = true) (k : Nat) :
    ∀ (i : Nat) (s : State), (array_free_loop cfg msg_free arr f k i s).safe := by
  induction k with
  | zero =>
    intro i s
    exact safe_ok _ _
  | succ k ih =>
    intro i s
    rw [array_free_loop_step]
    have hslot : (release_slot cfg msg_free arr f i s).safe := by
      unfold release_slot
      split
      · split
        · dsimp only
          split
          · exact elem_unref_safe cfg msg_free hgood _ f _ hf hmm
          · exact safe_invalid _
        · exact safe_invalid _
      · exact safe_invalid _
    cases hr : release_slot cfg msg_free arr f i s with
    | ok u s1 => exact ih (i + 1) s1
    | fail e s1 =>
      rw [hr] at hslot
      exact hslot

theorem array_free_safe (cfg : Config) (msg_free : Ptr → upb_msgdef → State → Res Unit)
    (hgood : ∀ md, DescOk cfg md → ∀ p s, (msg_free p md s).safe)
    (arr : Ptr) (f : upb_fielddef) (s : State) (hf : FieldOk cfg f) :
    (_upb_array_free cfg msg_free arr f s).safe := by
  have htail : ∀ s2 : State, (match deref s2 arr with
      | some (.arr a) =>
        if a.elements ≠ 0 then
          match free a.elements s2 with
          | .ok _ s3 => free arr s3
          | .fail e s3 => .fail e s3
        else free arr s2
      | _ => .fail .invalid s2 : Res Unit).safe := by
    intro s2
    split
    · split
      · have h1 := free_safe (‹upb_array›).elements s2
        split
        · exact free_safe _ _
        · rename_i e s3 heq
          rw [heq] at h1
          exact h1
      · exact free_safe _ _
    · exact safe_invalid _
  unfold _upb_array_free
  by_cases hmm : cfg.upb_elem_ismm f = true
  · simp only [hmm, if_true]
    cases hd : deref (log (.array_free arr f) s) arr with
    | none => exact safe_invalid _
    | some o =>
      cases o with
      | arr a =>
        simp only
        have hl := array_loop_safe cfg msg_free hgood arr f hf hmm a.size 0
          (log (.array_free arr f) s)
        cases hr : array_free_loop cfg msg_free arr f a.size 0 (log (.array_free arr f) s) with
        | ok u s2 => exact htail s2
        | fail e s2 =>
          rw [hr] at hl
          exact hl
      | msg m => exact safe_invalid _
      | str st => exact safe_invalid _
      | raw b => exact safe_invalid _
  · simp only [hmm]
    exact htail _

theorem field_unref_safe (cfg : Config) (msg_free : Ptr → upb_msgdef → State → Res Unit)
    (hgood : ∀ md, DescOk cfg md → ∀ p s, (msg_free p md s).safe)
    (v : upb_value) (f : upb_fielddef) (s : State) (hf : FieldOk cfg f)
    (hmm : cfg.upb_field_ismm f = true) :
    (upb_field_unref cfg msg_free v f s).safe := by
  have hfree : ∀ s2 : State, (upb_field_free cfg msg_free v f s2).safe := by
    intro s2
    unfold upb_field_free
    by_cases harr : cfg.upb_isarray f = true
    · simp only [harr, if_true]
      exact array_free_safe cfg msg_free hgood _ f _ hf
    · simp only [harr]
      have hown : f.type.owned = true := by
        have := hf.1
        simp [classified_ok, hmm, harr] at this
        exact this.2
      exact elem_free_safe cfg msg_free hgood v f _ hf hown
  unfold upb_field_unref
  simp only [hmm, Bool.true_eq_false, if_false]
  split
  · exact safe_ok _ _
  · have hs := atomic_unref_safe (upb_value_getrefcount v) (log (.field_unref v f) s)
    split
    · exact hfree _
    · exact safe_ok _ _
    · rename_i e s2 heq
      rw [heq] at hs
      exact hs

theorem msg_loop_safe (cfg : Config) (msg_free : Ptr → upb_msgdef → State → Res Unit)
    (hgood : ∀ md, DescOk cfg md → ∀ p s, (msg_free p md s).safe)
    (msg : Ptr) (fs : List upb_fielddef) (hfs : ∀ f ∈ fs, FieldOk cfg f) :
    ∀ s : State, (msg_free_loop cfg msg_free msg fs s).safe := by
  induction fs with
  | nil =>
    intro s
    exact safe_ok _ _
  | cons f fs ih =>
    intro s
    have ih' := ih (fun g hg => hfs g (List.mem_cons_of_mem _ hg))
    by_cases hmm : cfg.upb_field_ismm f = true
    · rw [msg_free_loop_step cfg msg_free msg f fs s hmm]
      have hfield : (release_field cfg msg_free msg f s).safe := by
        unfold release_field
        split
        · dsimp only
          split
          · exact field_unref_safe cfg msg_free hgood _ f _ (hfs f (List.mem_cons_self _ _)) hmm
          · exact safe_invalid _
        · exact safe_invalid _
      cases hr : release_field cfg msg_free msg f s with
      | ok u s1 => exact ih' s1
      | fail e s1 =>
        rw [hr] at hfield
        exact hfield
    · simp only [msg_free_loop, hmm]
      exact ih' s

theorem msg_free_safe (cfg : Config) (n : Nat) :
    ∀ md, DescOk cfg md → ∀ p s, (_upb_msg_free cfg n p md s).safe := by
  induction n with
  | zero =>
    intro md _ p s
    simp [_upb_msg_free, Res.safe, Res.fault]
  | succ n ih =>
    intro md hmd p s
    simp only [_upb_msg_free]
    have hl := msg_loop_safe cfg (_upb_msg_free cfg n) ih p md.fields (descOk_field cfg md hmd)
      (log (.msg_free p md) s)
    cases hr : msg_free_loop cfg (_upb_msg_free cfg n) p md.fields (log (.msg_free p md) s) with
    | ok u s1 => exact free_safe _ _
    | fail e s1 =>
      rw [hr] at hl
      exact hl

/-- C18: when every field of the descriptor and, recursively, of every nested
descriptor is classified memory-managed only if its kind is STRING, BYTES,
MESSAGE or GROUP (or, for the field-level predicate, if it is an array), then
for every heap, every message pointer and every nesting budget
`_upb_msg_free` does not end in `abort()` nor in a failed assertion; and the
same holds of `_upb_array_free` for a field classified so whose nested
descriptor is. -/
theorem no_classification_fault (cfg : Config) (n : Nat) (s : State) :
    (∀ md msg, DescOk cfg md →
      (_upb_msg_free cfg n msg md s).fault ≠ some .abort ∧
        (_upb_msg_free cfg n msg md s).fault ≠ some .assertion) ∧
    (∀ f arr, FieldOk cfg f →
      (_upb_array_free cfg (_upb_msg_free cfg n) arr f s).fault ≠ some .abort ∧
        (_upb_array_free cfg (_upb_msg_free cfg n) arr f s).fault ≠ some .assertion) :=
  ⟨fun md msg hmd => msg_free_safe cfg n md hmd msg s,
    fun f arr hf => array_free_safe cfg (_upb_msg_free cfg n) (msg_free_safe cfg n) arr f s hf⟩

theorem witness_classified_ok (defs : Ptr → Option upb_msgdef) (f : upb_fielddef) :
    classified_ok (mkConfig defs) f = true := by
  cases f with
  | mk t l i o d =>
    cases t <;> simp [classified_ok, mkConfig, witnessElemIsmm, upb_fieldtype.owned]

theorem witness_descOk (md : upb_msgdef) : DescOk witnessConfig md :=
  fun _ _ f _ => witness_classified_ok _ f

/-- Witness of C18: the teardown witness, whose release returns normally, and
its repeated STRING field. -/
theorem no_classification_fault_witness :
    ((_upb_msg_free witnessConfig 2 10 witnessRoot witnessState).fault ≠ some .abort ∧
      (_upb_msg_free witnessConfig 2 10 witnessRoot witnessState).fault ≠ some .assertion) ∧
    ((_upb_array_free witnessConfig (_upb_msg_free witnessConfig 2) 30 witnessStrsField
        witnessState).fault ≠ some .abort ∧
      (_upb_array_free witnessConfig (_upb_msg_free witnessConfig 2) 30 witnessStrsField
        witnessState).fault ≠ some .assertion) :=
  ⟨(no_classification_fault witnessConfig 2 witnessState).1 witnessRoot 10
      (witness_descOk witnessRoot),
    (no_classification_fault witnessConfig 2 witnessState).2 witnessStrsField 30
      ⟨witness_classified_ok _ witnessStrsField, fun md1 _ _ => witness_descOk md1⟩⟩

/-! ## Lemmas on the nesting budget -/

theorem ended_ok {α : Type} (a : α) (s : State) : (Res.ok a s).ended := by
  simp [Res.ended, Res.fault]

theorem ended_andThen (r : Res Unit) (k : State → Res Unit) (h : (r.andThen k).ended) :
    r.ended := by
  cases r with
  | ok u s => exact ended_ok _ _
  | fail e s => exact h

theorem elem_free_extends (cfg : Config) (mf mg : Ptr → upb_msgdef → State → Res Unit)
    (hext : Extends mf mg) (v : upb_value) (f : upb_fielddef) (s : State)
    (h : (upb_elem_free cfg mf v f s).ended) :
    upb_elem_free cfg mg v f s = upb_elem_free cfg mf v f s := by
  unfold upb_elem_free at h ⊢
  cases ht : f.type with
  | MESSAGE =>
    simp only [ht] at h ⊢
    cases hd : cfg.upb_downcast_msgdef f.def_ with
    | none => rfl
    | some md =>
      simp only [hd] at h ⊢
      exact hext _ _ _ h
  | GROUP =>
    simp only [ht] at h ⊢
    cases hd : cfg.upb_downcast_msgdef f.def_ with
    | none => rfl
    | some md =>
      simp only [hd] at h ⊢
      exact hext _ _ _ h
  | STRING => rfl
  | BYTES => rfl
  | other code => rfl

theorem elem_unref_extends (cfg : Config) (mf mg : Ptr → upb_msgdef → State → Res Unit)
    (hext : Extends mf mg) (v : upb_value) (f : upb_fielddef) (s : State)
    (h : (upb_elem_unref cfg mf v f s).ended) :
    upb_elem_unref cfg mg v f s = upb_elem_unref cfg mf v f s := by
  unfold upb_elem_unref at h ⊢
  dsimp only at h ⊢
  split
  · rfl
  · split
    · rfl
    · rename_i h1 h2
      simp only [h1, h2, if_false] at h
      cases hu : upb_atomic_unref (upb_value_getrefcount v) (log (.elem_unref v f) s) with
      | ok z s2 =>
        cases z with
        | true =>
          simp only [hu] at h ⊢
          exact elem_free_extends cfg mf mg hext v f s2 h
        | false => rfl
      | fail e s2 => rfl

theorem release_slot_extends (cfg : Config) (mf mg : Ptr → upb_msgdef → State → Res Unit)
    (hext : Extends mf mg) (arr : Ptr) (f : upb_fielddef) (i : Nat) (s : State)
    (h : (release_slot cfg mf arr f i s).ended) :
    release_slot cfg mg arr f i s = release_slot cfg mf arr f i s := by
  unfold release_slot at h ⊢
  cases h1 : deref s arr with
  | none => rfl
  | some o =>
    cases o with
    | arr a =>
      simp only [h1] at h ⊢
      cases h2 : deref s a.elements with
      | none => rfl
      | some o2 =>
        cases o2 with
        | raw bytes =>
          simp only [h2] at h ⊢
          cases h3 : upb_value_read cfg bytes (_upb_array_getptr cfg f i)
              (cfg.upb_elem_valuetype f) with
          | none => rfl
          | some v =>
            simp only [h3] at h ⊢
            exact elem_unref_extends cfg mf mg hext _ f _ h
        | msg m => rfl
        | arr a2 => rfl
        | str st => rfl
    | msg m => rfl
    | str st => rfl
    | raw b => rfl

theorem array_loop_extends (cfg : Config) (mf mg : Ptr → upb_msgdef → State → Res Unit)
    (hext : Extends mf mg) (arr : Ptr) (f : upb_fielddef) (k : Nat) :
    ∀ (i : Nat) (s : State), (array_free_loop cfg mf arr f k i s).ended →
      array_free_loop cfg mg arr f k i s = array_free_loop cfg mf arr f k i s := by
  induction k with
  | zero =>
    intro i s _
    rfl
  | succ k ih =>
    intro i s h
    rw [array_free_loop_step] at h ⊢
    rw [array_free_loop_step]
    have h1 := release_slot_extends cfg mf mg hext arr f i s (ended_andThen _ _ h)
    rw [h1]
    cases hr : release_slot cfg mf arr f i s with
    | ok u s1 =>
      rw [hr] at h
      exact ih (i + 1) s1 h
    | fail e s1 => rfl

theorem array_free_extends (cfg : Config) (mf mg : Ptr → upb_msgdef → State → Res Unit)
    (hext : Extends mf mg) (arr : Ptr) (f : upb_fielddef) (s : State)
    (h : (_upb_array_free cfg mf arr f s).ended) :
    _upb_array_free cfg mg arr f s = _upb_array_free cfg mf arr f s := by
  unfold _upb_array_free at h ⊢
  dsimp only at h ⊢
  by_cases hmm : cfg.upb_elem_ismm f = true
  · simp only [hmm, if_true] at h ⊢
    cases hd : deref (log (.array_free arr f) s) arr with
    | none => rfl
    | some o =>
      cases o with
      | arr a =>
        simp only [hd] at h ⊢
        have hl : (array_free_loop cfg mf arr f a.size 0 (log (.array_free arr f) s)).ended := by
          cases hr : array_free_loop cfg mf arr f a.size 0 (log (.array_free arr f) s) with
          | ok u s2 => exact ended_ok _ _
          | fail e s2 =>
            rw [hr] at h
            exact h
        rw [array_loop_extends cfg mf mg hext arr f a.size 0 _ hl]
      | msg m => rfl
      | str st => rfl
      | raw b => rfl
  · have hmmf : cfg.upb_elem_ismm f = false := by simpa using hmm
    simp only [hmmf, Bool.false_eq_true, if_false]

theorem field_unref_extends (cfg : Config) (mf mg : Ptr → upb_msgdef → State → Res Unit)
    (hext : Extends mf mg) (v : upb_value) (f : upb_fielddef) (s : State)
    (h : (upb_field_unref cfg mf v f s).ended) :
    upb_field_unref cfg mg v f s = upb_field_unref cfg mf v f s := by
  unfold upb_field_unref at h ⊢
  dsimp only at h ⊢
  split
  · rfl
  · split
    · rfl
    · rename_i h1 h2
      simp only [h1, h2, if_false] at h
      cases hu : upb_atomic_unref (upb_value_getrefcount v) (log (.field_unref v f) s) with
      | ok z s2 =>
        cases z with
        | true =>
          simp only [hu] at h ⊢
          unfold upb_field_free at h ⊢
          dsimp only at h ⊢
          by_cases harr : cfg.upb_isarray f = true
          · simp only [harr, if_true] at h ⊢
            exact array_free_extends cfg mf mg hext _ f _ h
          · simp only [harr] at h ⊢
            exact elem_free_extends cfg mf mg hext v f _ h
        | false => rfl
      | fail e s2 => rfl

theorem release_field_extends (cfg : Config) (mf mg : Ptr → upb_msgdef → State → Res Unit)
    (hext : Extends mf mg) (msg : Ptr) (f : upb_fielddef) (s : State)
    (h : (release_field cfg mf msg f s).ended) :
    release_field cfg mg msg f s = release_field cfg mf msg f s := by
  unfold release_field at h ⊢
  cases h1 : deref s msg with
  | none => rfl
  | some o =>
    cases o with
    | msg m =>
      simp only [h1] at h ⊢
      cases h3 : upb_value_read cfg m.data (_upb_msg_getptr f)
          (cfg.upb_field_valuetype f) with
      | none => rfl
      | some v =>
        simp only [h3] at h ⊢
        exact field_unref_extends cfg mf mg hext _ f _ h
    | arr a => rfl
    | str st => rfl
    | raw b => rfl

theorem msg_loop_extends (cfg : Config) (mf mg : Ptr → upb_msgdef → State → Res Unit)
    (hext : Extends mf mg) (msg : Ptr) (fs : List upb_fielddef) :
    ∀ s : State, (msg_free_loop cfg mf msg fs s).ended →
      msg_free_loop cfg mg msg fs s = msg_free_loop cfg mf msg fs s := by
  induction fs with
  | nil =>
    intro s _
    rfl
  | cons f fs ih =>
    intro s h
    by_cases hmm : cfg.upb_field_ismm f = true
    · rw [msg_free_loop_step cfg mf msg f fs s hmm] at h ⊢
      rw [msg_free_loop_step cfg mg msg f fs s hmm]
      have h1 := release_field_extends cfg mf mg hext msg f s (ended_andThen _ _ h)
      rw [h1]
      cases hr : release_field cfg mf msg f s with
      | ok u s1 =>
        rw [hr] at h
        exact ih s1 h
      | fail e s1 => rfl
    · simp only [msg_free_loop, hmm] at h ⊢
      exact ih s h

/-- Once `_upb_msg_free` comes to an end of its own, a larger nesting budget
does not change its outcome. -/
theorem msg_free_fuel_mono (cfg : Config) (n : Nat) :
    ∀ m, n ≤ m → Extends (_upb_msg_free cfg n) (_upb_msg_free cfg m) := by
  induction n with
  | zero =>
    intro m _ p md s h
    simp [_upb_msg_free, Res.ended, Res.fault] at h
  | succ n ih =>
    intro m hm p md s h
    cases m with
    | zero => omega
    | succ m =>
      have hext := ih m (by omega)
      simp only [_upb_msg_free] at h ⊢
      have hl : (msg_free_loop cfg (_upb_msg_free cfg n) p md.fields
          (log (.msg_free p md) s)).ended := by
        cases hr : msg_free_loop cfg (_upb_msg_free cfg n) p md.fields
            (log (.msg_free p md) s) with
        | ok u s1 => exact ended_ok _ _
        | fail e s1 =>
          rw [hr] at h
          exact h
      rw [msg_loop_extends cfg _ _ hext p md.fields _ hl]

/-! ## C12: termination on an acyclic graph -/

theorem setRefcount_idem (o : Obj) (c d : Int) :
    (o.setRefcount c).setRefcount d = o.setRefcount d := by
  cases o <;> rfl

theorem same_log (s0 s : State) (e : Event) (h : Same s0 s) : Same s0 (log e s) := h

theorem same_free (s0 s : State) (p : Ptr) (h : Same s0 s) : Same s0 (store s p none) := by
  intro q o hq
  by_cases hqp : q = p
  · simp [hqp] at hq
  · simp [Function.update, hqp] at hq
    exact h q o hq

theorem same_unref (s0 s : State) (p : Ptr) (o : Obj) (c : Int) (h : Same s0 s)
    (ho : s.heap p = some o) : Same s0 (store s p (some (o.setRefcount c))) := by
  intro q o1 hq
  by_cases hqp : q = p
  · subst hqp
    simp at hq
    obtain ⟨o0, h0, h1⟩ := h q o ho
    refine ⟨o0, h0, ?_⟩
    rw [← hq, setRefcount_idem]
    exact h1
  · simp [Function.update, hqp] at hq
    exact h q o1 hq

theorem same_msg (s0 s : State) (p : Ptr) (m : upb_msg) (h : Same s0 s)
    (hm : deref s p = some (.msg m)) :
    ∃ m0, deref s0 p = some (.msg m0) ∧ m0.data = m.data := by
  obtain ⟨hp, hh⟩ := deref_eq_heap s p _ hm
  obtain ⟨o0, h0, h1⟩ := h p _ hh
  cases o0 with
  | msg m0 =>
    refine ⟨m0, by simp [deref, hp, h0], ?_⟩
    simp [Obj.setRefcount] at h1
    exact h1
  | arr a => simp [Obj.setRefcount] at h1
  | str st => simp [Obj.setRefcount] at h1
  | raw b => simp [Obj.setRefcount] at h1

theorem same_arr (s0 s : State) (p : Ptr) (a : upb_array) (h : Same s0 s)
    (ha : deref s p = some (.arr a)) :
    ∃ a0, deref s0 p = some (.arr a0) ∧ a0.size = a.size ∧ a0.elements = a.elements := by
  obtain ⟨hp, hh⟩ := deref_eq_heap s p _ ha
  obtain ⟨o0, h0, h1⟩ := h p _ hh
  cases o0 with
  | arr a0 =>
    refine ⟨a0, by simp [deref, hp, h0], ?_⟩
    simp [Obj.setRefcount] at h1
    exact ⟨h1.1, h1.2.2⟩
  | msg m => simp [Obj.setRefcount] at h1
  | str st => simp [Obj.setRefcount] at h1
  | raw b => simp [Obj.setRefcount] at h1

theorem same_raw (s0 s : State) (p : Ptr) (b : List Nat) (h : Same s0 s)
    (hb : deref s p = some (.raw b)) : deref s0 p = some (.raw b) := by
  obtain ⟨hp, hh⟩ := deref_eq_heap s p _ hb
  obtain ⟨o0, h0, h1⟩ := h p _ hh
  cases o0 with
  | raw b0 =>
    simp [Obj.setRefcount] at h1
    simp [deref, hp, h0, h1]
  | msg m => simp [Obj.setRefcount] at h1
  | str st => simp [Obj.setRefcount] at h1
  | arr a => simp [Obj.setRefcount] at h1

theorem keeps_invalid {α : Type} (s0 s : State) : Keeps s0 (Res.fail .invalid s : Res α) := by
  simp [Keeps]

theorem keeps_ended {α : Type} (s0 : State) (r : Res α) (h : Keeps s0 r) : r.ended := by
  cases r with
  | ok a s => exact ended_ok _ _
  | fail e s =>
    simp only [Keeps] at h
    simpa [Res.ended, Res.fault] using h

theorem free_keeps (s0 s : State) (p : Ptr) (h : Same s0 s) : Keeps s0 (free p s) := by
  unfold free
  dsimp only
  split
  · exact same_log s0 s _ h
  · split
    · exact same_free s0 _ p (same_log s0 s _ h)
    · exact keeps_invalid _ _

theorem string_free_keeps (s0 s : State) (p : Ptr) (h : Same s0 s) :
    Keeps s0 (_upb_string_free p s) := by
  unfold _upb_string_free
  dsimp only
  split
  · exact same_free s0 _ p (same_log s0 s _ h)
  · exact keeps_invalid _ _

theorem atomic_unref_keeps (s0 s : State) (p : Ptr) (h : Same s0 s) :
    Keeps s0 (upb_atomic_unref p s) := by
  unfold upb_atomic_unref
  dsimp only
  cases hd : deref (log (.unref p) s) p with
  | none => exact keeps_invalid _ _
  | some o =>
    simp only
    cases hc : o.refcount with
    | none => exact keeps_invalid _ _
    | some c =>
      simp only
      exact same_unref s0 _ p o _ (same_log s0 s _ h) (deref_eq_heap _ p o hd).2

theorem elem_free_depth (cfg : Config) (s0 : State) (n : Nat)
    (mf : Ptr → upb_msgdef → State → Res Unit)
    (hgood : ∀ p md s, Same s0 s → msg_depth_ok cfg s0 n p md = true → Keeps s0 (mf p md s))
    (v : upb_value) (f : upb_fielddef) (s : State) (hv : v ≠ 0) (hs : Same s0 s)
    (hd : elem_depth_ok cfg (msg_depth_ok cfg s0 n) v f = true) :
    Keeps s0 (upb_elem_free cfg mf v f s) := by
  unfold upb_elem_free
  unfold elem_depth_ok at hd
  simp only [hv, if_false] at hd
  cases ht : f.type with
  | MESSAGE =>
    simp only [ht] at hd ⊢
    cases hdc : cfg.upb_downcast_msgdef f.def_ with
    | none => exact keeps_invalid _ _
    | some md =>
      simp only [hdc] at hd
      exact hgood _ md _ (same_log s0 s _ hs) hd
  | GROUP =>
    simp only [ht] at hd ⊢
    cases hdc : cfg.upb_downcast_msgdef f.def_ with
    | none => exact keeps_invalid _ _
    | some md =>
      simp only [hdc] at hd
      exact hgood _ md _ (same_log s0 s _ hs) hd
  | STRING => exact string_free_keeps s0 _ _ (same_log s0 s _ hs)
  | BYTES => exact string_free_keeps s0 _ _ (same_log s0 s _ hs)
  | other code => simp [Keeps]

theorem elem_unref_depth (cfg : Config) (s0 : State) (n : Nat)
    (mf : Ptr → upb_msgdef → State → Res Unit)
    (hgood : ∀ p md s, Same s0 s → msg_depth_ok cfg s0 n p md = true → Keeps s0 (mf p md s))
    (v : upb_value) (f : upb_fielddef) (s : State) (hs : Same s0 s)
    (hd : elem_depth_ok cfg (msg_depth_ok cfg s0 n) v f = true) :
    Keeps s0 (upb_elem_unref cfg mf v f s) := by
  unfold upb_elem_unref
  dsimp only
  split
  · simp [Keeps]
  · split
    · exact same_log s0 s _ hs
    · rename_i _ hv
      have hk := atomic_unref_keeps s0 (log (.elem_unref v f) s) (upb_value_getrefcount v)
        (same_log s0 s _ hs)
      cases hu : upb_atomic_unref (upb_value_getrefcount v) (log (.elem_unref v f) s) with
      | ok z s2 =>
        rw [hu] at hk
        cases z with
        | true => exact elem_free_depth cfg s0 n mf hgood v f s2 hv hk hd
        | false => exact hk
      | fail e s2 =>
        rw [hu] at hk
        exact hk

theorem array_loop_depth (cfg : Config) (s0 : State) (n : Nat)
    (mf : Ptr → upb_msgdef → State → Res Unit)
    (hgood : ∀ p md s, Same s0 s → msg_depth_ok cfg s0 n p md = true → Keeps s0 (mf p md s))
    (arr : Ptr) (f : upb_fielddef) (k : Nat) :
    ∀ (i : Nat) (s : State), Same s0 s →
      (∀ a0 bytes, deref s0 arr = some (.arr a0) → deref s0 a0.elements = some (.raw bytes) →
        slots_depth_ok cfg (msg_depth_ok cfg s0 n) bytes f k i = true) →
      Keeps s0 (array_free_loop cfg mf arr f k i s) := by
  induction k with
  | zero =>
    intro i s hs _
    exact hs
  | succ k ih =>
    intro i s hs hd
    rw [array_free_loop_step]
    unfold release_slot
    cases h1 : deref s arr with
    | none => exact keeps_invalid _ _
    | some o =>
      cases o with
      | arr a =>
        simp only
        cases h2 : deref s a.elements with
        | none => exact keeps_invalid _ _
        | some o2 =>
          cases o2 with
          | raw bytes =>
            simp only
            obtain ⟨a0, ha0, _, hel⟩ := same_arr s0 s arr a hs h1
            have hb0 : deref s0 a0.elements = some (.raw bytes) := by
              rw [hel]
              exact same_raw s0 s _ bytes hs h2
            have hsl := hd a0 bytes ha0 hb0
            simp only [slots_depth_ok, Bool.and_eq_true] at hsl
            cases h3 : upb_value_read cfg bytes (_upb_array_getptr cfg f i)
                (cfg.upb_elem_valuetype f) with
            | none => exact keeps_invalid _ _
            | some v =>
              simp only
              have hv := hsl.1
              simp only [h3] at hv
              have hk := elem_unref_depth cfg s0 n mf hgood v f
                (log (.read a.elements (_upb_array_getptr cfg f i)
                  (cfg.sizeof_value (cfg.upb_elem_valuetype f))) s) (same_log s0 s _ hs) hv
              cases hr : upb_elem_unref cfg mf v f
                  (log (.read a.elements (_upb_array_getptr cfg f i)
                    (cfg.sizeof_value (cfg.upb_elem_valuetype f))) s) with
              | ok u s1 =>
                rw [hr] at hk
                refine ih (i + 1) s1 hk ?_
                intro a1 bytes1 ha1 hb1
                rw [ha0] at ha1
                cases ha1
                rw [hb0] at hb1
                cases hb1
                exact hsl.2
              | fail e s1 =>
                rw [hr] at hk
                exact hk
          | msg m => exact keeps_invalid _ _
          | arr a2 => exact keeps_invalid _ _
          | str st => exact keeps_invalid _ _
      | msg m => exact keeps_invalid _ _
      | str st => exact keeps_invalid _ _
      | raw b => exact keeps_invalid _ _

theorem array_tail_keeps (s0 : State) (arr : Ptr) (s2 : State) (hs : Same s0 s2) :
    Keeps s0 (match deref s2 arr with
      | some (.arr a) =>
        if a.elements ≠ 0 then
          match free a.elements s2 with
          | .ok _ s3 => free arr s3
          | .fail e s3 => .fail e s3
        else free arr s2
      | _ => .fail .invalid s2 : Res Unit) := by
  cases hd : deref s2 arr with
  | none => exact keeps_invalid _ _
  | some o =>
    cases o with
    | arr a =>
      simp only
      by_cases he : a.elements = 0
      · simp only [he, ne_eq, not_true_eq_false, if_false]
        exact free_keeps s0 s2 arr hs
      · simp only [ne_eq, he, not_false_eq_true, if_true]
        have hk := free_keeps s0 s2 a.elements hs
        cases hf : free a.elements s2 with
        | ok u s3 =>
          rw [hf] at hk
          exact free_keeps s0 s3 arr hk
        | fail e s3 =>
          rw [hf] at hk
          exact hk
    | msg m => exact keeps_invalid _ _
    | str st => exact keeps_invalid _ _
    | raw b => exact keeps_invalid _ _

theorem array_free_depth (cfg : Config) (s0 : State) (n : Nat)
    (mf : Ptr → upb_msgdef → State → Res Unit)
    (hgood : ∀ p md s, Same s0 s → msg_depth_ok cfg s0 n p md = true → Keeps s0 (mf p md s))
    (arr : Ptr) (f : upb_fielddef) (s : State) (hs : Same s0 s)
    (hd : array_depth_ok cfg (msg_depth_ok cfg s0 n) s0 arr f = true) :
    Keeps s0 (_upb_array_free cfg mf arr f s) := by
  unfold _upb_array_free
  dsimp only
  by_cases hmm : cfg.upb_elem_ismm f = true
  · simp only [hmm, if_true]
    cases h1 : deref (log (.array_free arr f) s) arr with
    | none => exact keeps_invalid _ _
    | some o =>
      cases o with
      | arr a =>
        simp only
        obtain ⟨a0, ha0, hsz, _⟩ := same_arr s0 _ arr a (same_log s0 s _ hs) h1
        have hk := array_loop_depth cfg s0 n mf hgood arr f a.size 0
          (log (.array_free arr f) s) (same_log s0 s _ hs) (by
            intro a1 bytes ha1 hb1
            rw [ha0] at ha1
            cases ha1
            unfold array_depth_ok at hd
            simp only [hmm, if_true, ha0, hb1] at hd
            rw [← hsz]
            exact hd)
        cases hr : array_free_loop cfg mf arr f a.size 0 (log (.array_free arr f) s) with
        | ok u s2 =>
          rw [hr] at hk
          exact array_tail_keeps s0 arr s2 hk
        | fail e s2 =>
          rw [hr] at hk
          exact hk
      | msg m => exact keeps_invalid _ _
      | str st => exact keeps_invalid _ _
      | raw b => exact keeps_invalid _ _
  · have hmmf : cfg.upb_elem_ismm f = false := by simpa using hmm
    simp only [hmmf, Bool.false_eq_true, if_false]
    exact array_tail_keeps s0 arr _ (same_log s0 s _ hs)

theorem field_unref_depth (cfg : Config) (s0 : State) (n : Nat)
    (mf : Ptr → upb_msgdef → State → Res Unit)
    (hgood : ∀ p md s, Same s0 s → msg_depth_ok cfg s0 n p md = true → Keeps s0 (mf p md s))
    (v : upb_value) (f : upb_fielddef) (s : State) (hs : Same s0 s)
    (hd : field_depth_ok cfg (msg_depth_ok cfg s0 n) s0 v f = true) :
    Keeps s0 (upb_field_unref cfg mf v f s) := by
  unfold upb_field_unref
  dsimp only
  split
  · simp [Keeps]
  · split
    · exact same_log s0 s _ hs
    · rename_i _ hv
      have hv0 : v ≠ 0 := hv
      have hk := atomic_unref_keeps s0 (log (.field_unref v f) s) (upb_value_getrefcount v)
        (same_log s0 s _ hs)
      cases hu : upb_atomic_unref (upb_value_getrefcount v) (log (.field_unref v f) s) with
      | ok z s2 =>
        rw [hu] at hk
        cases z with
        | true =>
          simp only
          unfold upb_field_free
          dsimp only
          unfold field_depth_ok at hd
          simp only [hv0, if_false] at hd
          by_cases harr : cfg.upb_isarray f = true
          · simp only [harr, if_true] at hd ⊢
            exact array_free_depth cfg s0 n mf hgood _ f _ (same_log s0 s2 _ hk) hd
          · have harrf : cfg.upb_isarray f = false := by simpa using harr
            simp only [harrf, Bool.false_eq_true, if_false] at hd ⊢
            exact elem_free_depth cfg s0 n mf hgood v f _ hv0 (same_log s0 s2 _ hk) hd
        | false => exact hk
      | fail e s2 =>
        rw [hu] at hk
        exact hk

theorem msg_loop_depth (cfg : Config) (s0 : State) (n : Nat)
    (mf : Ptr → upb_msgdef → State → Res Unit)
    (hgood : ∀ p md s, Same s0 s → msg_depth_ok cfg s0 n p md = true → Keeps s0 (mf p md s))
    (msg : Ptr) (fs : List upb_fielddef) :
    ∀ s : State, Same s0 s →
      (∀ m0, deref s0 msg = some (.msg m0) →
        fields_depth_ok cfg (msg_depth_ok cfg s0 n) s0 m0.data fs = true) →
      Keeps s0 (msg_free_loop cfg mf msg fs s) := by
  induction fs with
  | nil =>
    intro s hs _
    exact hs
  | cons f fs ih =>
    intro s hs hd
    have hd' : ∀ m0, deref s0 msg = some (.msg m0) →
        fields_depth_ok cfg (msg_depth_ok cfg s0 n) s0 m0.data fs = true := by
      intro m0 hm0
      have := hd m0 hm0
      simp only [fields_depth_ok, Bool.and_eq_true] at this
      exact this.2
    by_cases hmm : cfg.upb_field_ismm f = true
    · rw [msg_free_loop_step cfg mf msg f fs s hmm]
      unfold release_field
      cases h1 : deref s msg with
      | none => exact keeps_invalid _ _
      | some o =>
        cases o with
        | msg m =>
          simp only
          obtain ⟨m0, hm0, hdata⟩ := same_msg s0 s msg m hs h1
          have hf := hd m0 hm0
          simp only [fields_depth_ok, hmm, if_true, Bool.and_eq_true, hdata] at hf
          cases h3 : upb_value_read cfg m.data (_upb_msg_getptr f)
              (cfg.upb_field_valuetype f) with
          | none => exact keeps_invalid _ _
          | some v =>
            simp only
            have hv := hf.1
            simp only [h3] at hv
            have hk := field_unref_depth cfg s0 n mf hgood v f
              (log (.read msg (_upb_msg_getptr f)
                (cfg.sizeof_value (cfg.upb_field_valuetype f))) s) (same_log s0 s _ hs) hv
            cases hr : upb_field_unref cfg mf v f
                (log (.read msg (_upb_msg_getptr f)
                  (cfg.sizeof_value (cfg.upb_field_valuetype f))) s) with
            | ok u s1 =>
              rw [hr] at hk
              exact ih s1 hk hd'
            | fail e s1 =>
              rw [hr] at hk
              exact hk
        | arr a => exact keeps_invalid _ _
        | str st => exact keeps_invalid _ _
        | raw b => exact keeps_invalid _ _
    · simp only [msg_free_loop, hmm]
      exact ih s hs hd'

theorem msg_free_depth (cfg : Config) (s0 : State) (n : Nat) :
    ∀ p md s, Same s0 s → msg_depth_ok cfg s0 n p md = true →
      Keeps s0 (_upb_msg_free cfg n p md s) := by
  induction n with
  | zero =>
    intro p md s _ hd
    simp [msg_depth_ok] at hd
  | succ n ih =>
    intro p md s hs hd
    simp only [_upb_msg_free]
    have hk := msg_loop_depth cfg s0 n (_upb_msg_free cfg n) ih p md.fields
      (log (.msg_free p md) s) (same_log s0 s _ hs) (by
        intro m0 hm0
        simpa [msg_depth_ok, hm0] using hd)
    cases hr : msg_free_loop cfg (_upb_msg_free cfg n) p md.fields (log (.msg_free p md) s) with
    | ok u s1 =>
      rw [hr] at hk
      exact free_keeps s0 s1 p hk
    | fail e s1 =>
      rw [hr] at hk
      exact hk

theorem same_refl (s : State) : Same s s := fun _ o h => ⟨o, h, rfl⟩

/-- C12: when the chains of nested messages below the message at `msg` are
bounded (the reachable graph is acyclic: `msg_depth_ok` holds for some `n`),
`_upb_msg_free(msg, md)` terminates: with nesting budget `n` it comes to an
end of its own, and every larger budget gives the same outcome. The nesting
of the mutually recursive calls never exceeds the length of the longest chain. -/
theorem msg_free_terminates_acyclic (cfg : Config) (n : Nat) (msg : Ptr)
    (md : upb_msgdef) (s : State) (hacyclic : msg_depth_ok cfg s n msg md = true) :
    (_upb_msg_free cfg n msg md s).fault ≠ some .fuel ∧
      ∀ m, n ≤ m → _upb_msg_free cfg m msg md s = _upb_msg_free cfg n msg md s := by
  have hend : (_upb_msg_free cfg n msg md s).ended :=
    keeps_ended s _ (msg_free_depth cfg s n msg md s (same_refl s) hacyclic)
  exact ⟨hend, fun m hm => msg_free_fuel_mono cfg n m hm msg md s hend⟩

/-- Witness of C12: both fields of the message at 10 hold the sub-message at
20 (count 2); the chains have at most 2 members. -/
theorem msg_free_terminates_acyclic_witness :
    msg_depth_ok witnessConfig sharedSubState 2 10 witnessTwoSubs = true ∧
      (_upb_msg_free witnessConfig 2 10 witnessTwoSubs sharedSubState).fault ≠ some .fuel ∧
      ∀ m, 2 ≤ m → _upb_msg_free witnessConfig m 10 witnessTwoSubs sharedSubState =
        _upb_msg_free witnessConfig 2 10 witnessTwoSubs sharedSubState :=
  ⟨by rfl, msg_free_terminates_acyclic witnessConfig 2 10 witnessTwoSubs sharedSubState (by rfl)⟩

/-! ## C16: release on a cyclic graph -/

theorem disarms_invalid {α : Type} (s s1 : State) :
    Disarms s (Res.fail .invalid s1 : Res α) := by
  simp [Disarms]

theorem disarms_ended {α : Type} (s : State) (r : Res α) (h : Disarms s r) : r.ended := by
  cases r with
  | ok a s1 => exact ended_ok _ _
  | fail e s1 =>
    simp only [Disarms] at h
    simpa [Res.ended, Res.fault] using h

theorem disarms_mono {α : Type} (s s1 : State) (r : Res α)
    (h1 : ∀ q, armed s1 q → armed s q) (h : Disarms s1 r) : Disarms s r := by
  cases r with
  | ok a s2 => exact fun q hq => h1 q (h q hq)
  | fail e s2 => exact h

theorem armed_log (s : State) (e : Event) (q : Ptr) (h : armed (log e s) q) : armed s q := h

theorem armed_store_none (s : State) (p q : Ptr) (h : armed (store s p none) q) :
    armed s q := by
  obtain ⟨o, c, ho, hc, h1⟩ := h
  by_cases hqp : q = p
  · simp [hqp] at ho
  · simp [Function.update, hqp] at ho
    exact ⟨o, c, ho, hc, h1⟩

theorem free_disarms (p : Ptr) (s : State) : Disarms s (free p s) := by
  unfold free
  dsimp only
  split
  · exact fun q hq => hq
  · split
    · exact fun q hq => armed_store_none _ p q hq
    · exact disarms_invalid _ _

theorem string_free_disarms (p : Ptr) (s : State) : Disarms s (_upb_string_free p s) := by
  unfold _upb_string_free
  dsimp only
  split
  · exact fun q hq => armed_store_none _ p q hq
  · exact disarms_invalid _ _

/-- A decrement arms nothing, and one that reaches zero disarms its block,
which was armed. -/
theorem atomic_unref_disarms (p : Ptr) (s : State) :
    match upb_atomic_unref p s with
    | .ok z s1 =>
      (∀ q, armed s1 q → armed s q) ∧ (z = true → armed s p ∧ ¬ armed s1 p)
    | .fail e _ => e ≠ .fuel := by
  unfold upb_atomic_unref
  dsimp only
  cases hd : deref (log (.unref p) s) p with
  | none => simp
  | some o =>
    simp only
    cases hc : o.refcount with
    | none => simp
    | some c =>
      simp only
      have hh : s.heap p = some o := (deref_eq_heap _ p o hd).2
      have hset : (o.setRefcount (c - 1)).refcount = some (c - 1) := by
        cases o <;> simp [Obj.setRefcount, Obj.refcount] at hc ⊢
      constructor
      · intro q hq
        obtain ⟨o1, c1, ho1, hc1, h1⟩ := hq
        by_cases hqp : q = p
        · subst hqp
          simp at ho1
          rw [← ho1, hset] at hc1
          cases hc1
          exact ⟨o, c, hh, hc, by omega⟩
        · simp [Function.update, hqp] at ho1
          exact ⟨o1, c1, ho1, hc1, h1⟩
      · intro hz
        have hc0 : c - 1 = 0 := of_decide_eq_true hz
        refine ⟨⟨o, c, hh, hc, by omega⟩, ?_⟩
        rintro ⟨o1, c1, ho1, hc1, h1⟩
        simp at ho1
        rw [← ho1, hset] at hc1
        cases hc1
        omega

theorem elem_free_disarms (cfg : Config) (n : Nat)
    (mf : Ptr → upb_msgdef → State → Res Unit)
    (hgood : ∀ (B : Finset Ptr) p md s, B.card < n → (∀ q, armed s q → q ∈ B) →
      Disarms s (mf p md s))
    (v : upb_value) (f : upb_fielddef) (s : State) (B : Finset Ptr) (hB : B.card < n)
    (hs : ∀ q, armed s q → q ∈ B) :
    Disarms s (upb_elem_free cfg mf v f s) := by
  unfold upb_elem_free
  cases ht : f.type with
  | MESSAGE =>
    simp only
    cases hdc : cfg.upb_downcast_msgdef f.def_ with
    | none => exact disarms_invalid _ _
    | some md => exact hgood B _ md _ hB hs
  | GROUP =>
    simp only
    cases hdc : cfg.upb_downcast_msgdef f.def_ with
    | none => exact disarms_invalid _ _
    | some md => exact hgood B _ md _ hB hs
  | STRING => exact string_free_disarms _ _
  | BYTES => exact string_free_disarms _ _
  | other code => simp [Disarms]

theorem elem_unref_disarms (cfg : Config) (n : Nat)
    (mf : Ptr → upb_msgdef → State → Res Unit)
    (hgood : ∀ (B : Finset Ptr) p md s, B.card < n → (∀ q, armed s q → q ∈ B) →
      Disarms s (mf p md s))
    (v : upb_value) (f : upb_fielddef) (s : State) (A : Finset Ptr) (hA : A.card ≤ n)
    (hs : ∀ q, armed s q → q ∈ A) :
    Disarms s (upb_elem_unref cfg mf v f s) := by
  unfold upb_elem_unref
  dsimp only
  split
  · simp [Disarms]
  · split
    · exact fun q hq => hq
    · have hk := atomic_unref_disarms (upb_value_getrefcount v) (log (.elem_unref v f) s)
      cases hu : upb_atomic_unref (upb_value_getrefcount v) (log (.elem_unref v f) s) with
      | ok z s2 =>
        rw [hu] at hk
        cases z with
        | true =>
          simp only
          obtain ⟨harm, hgone⟩ := hk.2 rfl
          have hvA : upb_value_getrefcount v ∈ A := hs _ harm
          refine disarms_mono s s2 _ hk.1 ?_
          refine elem_free_disarms cfg n mf hgood v f s2 (A.erase (upb_value_getrefcount v))
            (Nat.lt_of_lt_of_le (Finset.card_erase_lt_of_mem hvA) hA) ?_
          intro q hq
          refine Finset.mem_erase.mpr ⟨?_, hs q (hk.1 q hq)⟩
          intro hqv
          exact hgone (hqv ▸ hq)
        | false => exact hk.1
      | fail e s2 =>
        rw [hu] at hk
        exact hk

theorem array_loop_disarms (cfg : Config) (n : Nat)
    (mf : Ptr → upb_msgdef → State → Res Unit)
    (hgood : ∀ (B : Finset Ptr) p md s, B.card < n → (∀ q, armed s q → q ∈ B) →
      Disarms s (mf p md s))
    (arr : Ptr) (f : upb_fielddef) (A : Finset Ptr) (hA : A.card ≤ n) (k : Nat) :
    ∀ (i : Nat) (s : State), (∀ q, armed s q → q ∈ A) →
      Disarms s (array_free_loop cfg mf arr f k i s) := by
  induction k with
  | zero =>
    intro i s _
    exact fun q hq => hq
  | succ k ih =>
    intro i s hs
    rw [array_free_loop_step]
    have hslot : Disarms s (release_slot cfg mf arr f i s) := by
      unfold release_slot
      split
      · split
        · dsimp only
          split
          · exact elem_unref_disarms cfg n mf hgood _ f _ A hA hs
          · exact disarms_invalid _ _
        · exact disarms_invalid _ _
      · exact disarms_invalid _ _
    cases hr : release_slot cfg mf arr f i s with
    | ok u s1 =>
      rw [hr] at hslot
      exact disarms_mono s s1 _ hslot (ih (i + 1) s1 (fun q hq => hs q (hslot q hq)))
    | fail e s1 =>
      rw [hr] at hslot
      exact hslot

theorem array_tail_disarms (arr : Ptr) (s2 : State) :
    Disarms s2 (match deref s2 arr with
      | some (.arr a) =>
        if a.elements ≠ 0 then
          match free a.elements s2 with
          | .ok _ s3 => free arr s3
          | .fail e s3 => .fail e s3
        else free arr s2
      | _ => .fail .invalid s2 : Res Unit) := by
  cases hd : deref s2 arr with
  | none => exact disarms_invalid _ _
  | some o =>
    cases o with
    | arr a =>
      simp only
      by_cases he : a.elements = 0
      · simp only [he, ne_eq, not_true_eq_false, if_false]
        exact free_disarms arr s2
      · simp only [ne_eq, he, not_false_eq_true, if_true]
        have hk := free_disarms a.elements s2
        cases hf : free a.elements s2 with
        | ok u s3 =>
          rw [hf] at hk
          exact disarms_mono s2 s3 _ hk (free_disarms arr s3)
        | fail e s3 =>
          rw [hf] at hk
          exact hk
    | msg m => exact disarms_invalid _ _
    | str st => exact disarms_invalid _ _
    | raw b => exact disarms_invalid _ _

theorem array_free_disarms (cfg : Config) (n : Nat)
    (mf : Ptr → upb_msgdef → State → Res Unit)
    (hgood : ∀ (B : Finset Ptr) p md s, B.card < n → (∀ q, armed s q → q ∈ B) →
      Disarms s (mf p md s))
    (arr : Ptr) (f : upb_fielddef) (s : State) (A : Finset Ptr) (hA : A.card ≤ n)
    (hs : ∀ q, armed s q → q ∈ A) :
    Disarms s (_upb_array_free cfg mf arr f s) := by
  unfold _upb_array_free
  dsimp only
  by_cases hmm : cfg.upb_elem_ismm f = true
  · simp only [hmm, if_true]
    cases h1 : deref (log (.array_free arr f) s) arr with
    | none => exact disarms_invalid _ _
    | some o =>
      cases o with
      | arr a =>
        simp only
        have hk := array_loop_disarms cfg n mf hgood arr f A hA a.size 0
          (log (.array_free arr f) s) hs
        cases hr : array_free_loop cfg mf arr f a.size 0 (log (.array_free arr f) s) with
        | ok u s2 =>
          rw [hr] at hk
          exact disarms_mono s s2 _ hk (array_tail_disarms arr s2)
        | fail e s2 =>
          rw [hr] at hk
          exact hk
      | msg m => exact disarms_invalid _ _
      | str st => exact disarms_invalid _ _
      | raw b => exact disarms_invalid _ _
  · have hmmf : cfg.upb_elem_ismm f = false := by simpa using hmm
    simp only [hmmf, Bool.false_eq_true, if_false]
    exact array_tail_disarms arr _

theorem field_unref_disarms (cfg : Config) (n : Nat)
    (mf : Ptr → upb_msgdef → State → Res Unit)
    (hgood : ∀ (B : Finset Ptr) p md s, B.card < n → (∀ q, armed s q → q ∈ B) →
      Disarms s (mf p md s))
    (v : upb_value) (f : upb_fielddef) (s : State) (A : Finset Ptr) (hA : A.card ≤ n)
    (hs : ∀ q, armed s q → q ∈ A) :
    Disarms s (upb_field_unref cfg mf v f s) := by
  unfold upb_field_unref
  dsimp only
  split
  · simp [Disarms]
  · split
    · exact fun q hq => hq
    · have hk := atomic_unref_disarms (upb_value_getrefcount v) (log (.field_unref v f) s)
      cases hu : upb_atomic_unref (upb_value_getrefcount v) (log (.field_unref v f) s) with
      | ok z s2 =>
        rw [hu] at hk
        cases z with
        | true =>
          simp only
          obtain ⟨harm, hgone⟩ := hk.2 rfl
          have hvA : upb_value_getrefcount v ∈ A := hs _ harm
          have hB : (A.erase (upb_value_getrefcount v)).card < n :=
            Nat.lt_of_lt_of_le (Finset.card_erase_lt_of_mem hvA) hA
          have hs2 : ∀ q, armed s2 q → q ∈ A.erase (upb_value_getrefcount v) := by
            intro q hq
            refine Finset.mem_erase.mpr ⟨?_, hs q (hk.1 q hq)⟩
            intro hqv
            exact hgone (hqv ▸ hq)
          refine disarms_mono s s2 _ hk.1 ?_
          unfold upb_field_free
          dsimp only
          by_cases harr : cfg.upb_isarray f = true
          · simp only [harr, if_true]
            exact array_free_disarms cfg n mf hgood _ f _ _ (Nat.le_of_lt hB) hs2
          · have harrf : cfg.upb_isarray f = false := by simpa using harr
            simp only [harrf, Bool.false_eq_true, if_false]
            exact elem_free_disarms cfg n mf hgood v f _ _ hB hs2
        | false => exact hk.1
      | fail e s2 =>
        rw [hu] at hk
        exact hk

theorem msg_loop_disarms (cfg : Config) (n : Nat)
    (mf : Ptr → upb_msgdef → State → Res Unit)
    (hgood : ∀ (B : Finset Ptr) p md s, B.card < n → (∀ q, armed s q → q ∈ B) →
      Disarms s (mf p md s))
    (msg : Ptr) (A : Finset Ptr) (hA : A.card ≤ n) (fs : List upb_fielddef) :
    ∀ s : State, (∀ q, armed s q → q ∈ A) →
      Disarms s (msg_free_loop cfg mf msg fs s) := by
  induction fs with
  | nil =>
    intro s _
    exact fun q hq => hq
  | cons f fs ih =>
    intro s hs
    by_cases hmm : cfg.upb_field_ismm f = true
    · rw [msg_free_loop_step cfg mf msg f fs s hmm]
      have hfield : Disarms s (release_field cfg mf msg f s) := by
        unfold release_field
        split
        · dsimp only
          split
          · exact field_unref_disarms cfg n mf hgood _ f _ A hA hs
          · exact disarms_invalid _ _
        · exact disarms_invalid _ _
      cases hr : release_field cfg mf msg f s with
      | ok u s1 =>
        rw [hr] at hfield
        exact disarms_mono s s1 _ hfield (ih s1 (fun q hq => hs q (hfield q hq)))
      | fail e s1 =>
        rw [hr] at hfield
        exact hfield
    · simp only [msg_free_loop, hmm]
      exact ih s hs

theorem msg_free_disarms (cfg : Config) (n : Nat) :
    ∀ (B : Finset Ptr) p md s, B.card < n → (∀ q, armed s q → q ∈ B) →
      Disarms s (_upb_msg_free cfg n p md s) := by
  induction n with
  | zero =>
    intro B p md s hB _
    omega
  | succ n ih =>
    intro B p md s hB hs
    simp only [_upb_msg_free]
    have hk := msg_loop_disarms cfg n (_upb_msg_free cfg n) ih p B (by omega) md.fields
      (log (.msg_free p md) s) hs
    cases hr : msg_free_loop cfg (_upb_msg_free cfg n) p md.fields (log (.msg_free p md) s) with
    | ok u s1 =>
      rw [hr] at hk
      exact disarms_mono s s1 _ hk (free_disarms p s1)
    | fail e s1 =>
      rw [hr] at hk
      exact hk

theorem cycle_depth_unbounded (c : Int) (n : Nat) :
    msg_depth_ok cycleConfig (State.mk (cycleHeap c) []) n 10 cycleNode = false ∧
      msg_depth_ok cycleConfig (State.mk (cycleHeap c) []) n 20 cycleNode = false := by
  induction n with
  | zero => exact ⟨rfl, rfl⟩
  | succ n ih =>
    have h1 : msg_depth_ok cycleConfig (State.mk (cycleHeap c) []) (n + 1) 10 cycleNode =
        (msg_depth_ok cycleConfig (State.mk (cycleHeap c) []) n 20 cycleNode && true) := rfl
    have h2 : msg_depth_ok cycleConfig (State.mk (cycleHeap c) []) (n + 1) 20 cycleNode =
        (msg_depth_ok cycleConfig (State.mk (cycleHeap c) []) n 10 cycleNode && true) := rfl
    rw [h1, h2, ih.1, ih.2]
    exact ⟨rfl, rfl⟩

/-- Counterexample to C16 as stated: the cycle of the claim, in which the
message at 10 holds the only reference to the message at 20 and the message at
20 the only reference to the message at 10 (no bound on the chains of nested
messages). `_upb_msg_free` on the message at 10 does not recurse without end:
the decrement of the count of 10 from 1 to 0 inside the release of 20 starts a
second release of 10, in which the count of 20 goes from 0 to -1 and nothing
more is released; the nested calls return, and the run stops at the outer
`free` of 10, a block already freed. Every nesting budget from 3 on gives this
outcome. When the message at 10 is also referenced from outside (count 2) the
release returns, with both messages freed. -/
theorem cycle_release_terminates :
    (∀ n, msg_depth_ok cycleConfig cycleState n 10 cycleNode = false) ∧
    (_upb_msg_free cycleConfig 3 10 cycleNode cycleState).fault = some .invalid ∧
    (_upb_msg_free cycleConfig 3 10 cycleNode cycleState).trace.filter
        (fun e => decide (e = .unref 10 ∨ e = .unref 20 ∨ e = .free 10 ∨ e = .free 20)) =
      [.unref 20, .unref 10, .unref 20, .free 10, .free 20, .free 10] ∧
    (∀ n, 3 ≤ n → _upb_msg_free cycleConfig n 10 cycleNode cycleState =
      _upb_msg_free cycleConfig 3 10 cycleNode cycleState) ∧
    (∀ n, msg_depth_ok cycleConfig ownedCycleState n 10 cycleNode = false) ∧
    (_upb_msg_free cycleConfig 2 10 cycleNode ownedCycleState).fault = none ∧
    (_upb_msg_free cycleConfig 2 10 cycleNode ownedCycleState).heap 10 = none ∧
    (_upb_msg_free cycleConfig 2 10 cycleNode ownedCycleState).heap 20 = none ∧
    (_upb_msg_free cycleConfig 2 10 cycleNode ownedCycleState).trace.filter
        (fun e => decide (e = .unref 10 ∨ e = .unref 20 ∨ e = .free 10 ∨ e = .free 20)) =
      [.unref 20, .unref 10, .free 20, .free 10] ∧
    (∀ n, 2 ≤ n → _upb_msg_free cycleConfig n 10 cycleNode ownedCycleState =
      _upb_msg_free cycleConfig 2 10 cycleNode ownedCycleState) := by
  refine ⟨fun n => (cycle_depth_unbounded 1 n).1, by rfl, by rfl, ?_, ?_, by rfl, by rfl,
    by rfl, by rfl, ?_⟩
  · intro n hn
    exact msg_free_fuel_mono cycleConfig 3 n hn 10 cycleNode cycleState (by decide)
  · intro n
    exact (cycle_depth_unbounded 2 n).1
  · intro n hn
    exact msg_free_fuel_mono cycleConfig 2 n hn 10 cycleNode ownedCycleState (by decide)

/-- C16 (amended): release does not recurse without bound, also when the
object graph reachable from the message contains a cycle. For every finite
heap (`A` is a finite set that holds the live blocks) and every nesting budget
above the size of `A`, `_upb_msg_free` comes to an end of its own, never for
lack of budget: it returns, or it stops at a fault of the program (an invalid
memory access such as the use of a block already freed, where the behaviour
of the C program is undefined from then on; `abort()`; a failed assertion).
Every larger budget gives the same outcome. The reason is that a nested
release of a block follows a decrement of its count from 1 to 0, and no count
is ever raised, so this happens at most once per block. -/
theorem msg_free_terminates_finite (cfg : Config) (A : Finset Ptr) (msg : Ptr)
    (md : upb_msgdef) (s : State) (n : Nat)
    (hfin : ∀ q, s.heap q ≠ none → q ∈ A) (hn : A.card < n) :
    (_upb_msg_free cfg n msg md s).fault ≠ some .fuel ∧
      ∀ m, n ≤ m → _upb_msg_free cfg m msg md s = _upb_msg_free cfg n msg md s := by
  have hend : (_upb_msg_free cfg n msg md s).ended :=
    disarms_ended s _ (msg_free_disarms cfg n A msg md s hn (by
      rintro q ⟨o, c, ho, _, _⟩
      exact hfin q (by simp [ho])))
  exact ⟨hend, fun m hm => msg_free_fuel_mono cfg n m hm msg md s hend⟩

/-- Witness of C16 (amended): the cycle of two messages with counts 1, whose
live blocks are those at 10 and 20, with nesting budget 3. -/
theorem msg_free_terminates_finite_witness :
    (∀ q, cycleState.heap q ≠ none → q ∈ ({10, 20} : Finset Ptr)) ∧
      (_upb_msg_free cycleConfig 3 10 cycleNode cycleState).fault ≠ some .fuel ∧
      ∀ m, 3 ≤ m → _upb_msg_free cycleConfig m 10 cycleNode cycleState =
        _upb_msg_free cycleConfig 3 10 cycleNode cycleState :=
  have hfin : ∀ q, cycleState.heap q ≠ none → q ∈ ({10, 20} : Finset Ptr) := by
    intro q hq
    by_cases h10 : q = 10
    · simp [h10]
    · by_cases h20 : q = 20
      · simp [h20]
      · exact absurd (by simp [cycleState, cycleHeap, h10, h20]) hq
  ⟨hfin, msg_free_terminates_finite cycleConfig {10, 20} 10 cycleNode cycleState 3 hfin
    (by decide)⟩

/-! ## C15: the message's own count -/

theorem count_log_le (e0 e : Event) (s : State) :
    s.trace.count e ≤ (log e0 s).trace.count e := by
  simp [log, List.count_append]

theorem unref_count_log (tgt : Ptr) (e : Event) (s : State) (he : e ≠ .unref tgt) :
    (log e s).trace.count (.unref tgt) = s.trace.count (.unref tgt) := by
  simp [log, List.count_append, List.count_cons, he]

theorem grows_ok {α : Type} (s : State) (a : α) : Grows s (.ok a s) := fun _ => Nat.le_refl _

theorem grows_fail {α : Type} (s : State) (e : Fault) : Grows s (.fail e s : Res α) :=
  fun _ => Nat.le_refl _

theorem grows_log {α : Type} (e0 : Event) (s : State) (r : Res α)
    (h : Grows (log e0 s) r) : Grows s r :=
  fun e => Nat.le_trans (count_log_le e0 e s) (h e)

theorem grows_andThen (s : State) (r : Res Unit) (k : State → Res Unit)
    (h1 : Grows s r) (h2 : ∀ s1, Grows s1 (k s1)) : Grows s (r.andThen k) := by
  cases r with
  | ok u s1 => exact fun e => Nat.le_trans (h1 e) (h2 s1 e)
  | fail e s1 => exact h1

theorem grows_gate (s : State) (r : Res Bool) (k : State → Res Unit)
    (h2 : ∀ s1, Grows s1 (k s1)) :
    Grows s r →
      Grows s (match r with
        | .ok true s2 => k s2
        | .ok false s2 => .ok () s2
        | .fail e s2 => .fail e s2 : Res Unit) := by
  intro h1
  cases r with
  | ok z s1 =>
    cases z with
    | true => exact fun e => Nat.le_trans (h1 e) (h2 s1 e)
    | false => exact h1
  | fail e s1 => exact h1

theorem free_grows (p : Ptr) (s : State) : Grows s (free p s) := by
  intro e
  unfold free
  dsimp only
  split
  · simp [Res.trace, log, List.count_append]
  · split <;> simp [Res.trace, log, store, List.count_append]

theorem string_free_grows (p : Ptr) (s : State) : Grows s (_upb_string_free p s) := by
  intro e
  unfold _upb_string_free
  dsimp only
  split <;> simp [Res.trace, log, store, List.count_append]

theorem atomic_unref_grows (p : Ptr) (s : State) : Grows s (upb_atomic_unref p s) := by
  intro e
  unfold upb_atomic_unref
  dsimp only
  split
  · split <;> simp [Res.trace, log, store, List.count_append]
  · simp [Res.trace, log, List.count_append]

theorem elem_free_grows (cfg : Config) (mf : Ptr → upb_msgdef → State → Res Unit)
    (hg : ∀ p md s, Grows s (mf p md s)) (v : upb_value) (f : upb_fielddef) (s : State) :
    Grows s (upb_elem_free cfg mf v f s) := by
  apply grows_log (.elem_free v f)
  unfold upb_elem_free
  cases ht : f.type with
  | MESSAGE =>
    simp only
    cases hdc : cfg.upb_downcast_msgdef f.def_ with
    | none => exact grows_fail _ _
    | some md => exact hg _ _ _
  | GROUP =>
    simp only
    cases hdc : cfg.upb_downcast_msgdef f.def_ with
    | none => exact grows_fail _ _
    | some md => exact hg _ _ _
  | STRING => exact string_free_grows _ _
  | BYTES => exact string_free_grows _ _
  | other code => exact grows_fail _ _

theorem elem_unref_grows (cfg : Config) (mf : Ptr → upb_msgdef → State → Res Unit)
    (hg : ∀ p md s, Grows s (mf p md s)) (v : upb_value) (f : upb_fielddef) (s : State) :
    Grows s (upb_elem_unref cfg mf v f s) := by
  apply grows_log (.elem_unref v f)
  unfold upb_elem_unref
  dsimp only
  split
  · exact grows_fail _ _
  · split
    · exact grows_ok _ _
    · exact grows_gate _ _ (upb_elem_free cfg mf v f)
        (fun s1 => elem_free_grows cfg mf hg v f s1) (atomic_unref_grows _ _)

theorem release_slot_grows (cfg : Config) (mf : Ptr → upb_msgdef → State → Res Unit)
    (hg : ∀ p md s, Grows s (mf p md s)) (arr : Ptr) (f : upb_fielddef) (i : Nat)
    (s : State) : Grows s (release_slot cfg mf arr f i s) := by
  unfold release_slot
  split
  · split
    · dsimp only
      split
      · exact grows_log _ _ _ (elem_unref_grows cfg mf hg _ f _)
      · exact grows_fail _ _
    · exact grows_fail _ _
  · exact grows_fail _ _

theorem array_loop_grows (cfg : Config) (mf : Ptr → upb_msgdef → State → Res Unit)
    (hg : ∀ p md s, Grows s (mf p md s)) (arr : Ptr) (f : upb_fielddef) (k : Nat) :
    ∀ (i : Nat) (s : State), Grows s (array_free_loop cfg mf arr f k i s) := by
  induction k with
  | zero =>
    intro i s
    exact grows_ok _ _
  | succ k ih =>
    intro i s
    rw [array_free_loop_step]
    exact grows_andThen s _ _ (release_slot_grows cfg mf hg arr f i s) (fun s1 => ih (i + 1) s1)

theorem array_tail_grows (arr : Ptr) (s2 : State) :
    Grows s2 (match deref s2 arr with
      | some (.arr a) =>
        if a.elements ≠ 0 then
          match free a.elements s2 with
          | .ok _ s3 => free arr s3
          | .fail e s3 => .fail e s3
        else free arr s2
      | _ => .fail .invalid s2 : Res Unit) := by
  cases hd : deref s2 arr with
  | none => exact grows_fail _ _
  | some o =>
    cases o with
    | arr a =>
      simp only
      by_cases he : a.elements = 0
      · simp only [he, ne_eq, not_true_eq_false, if_false]
        exact free_grows arr s2
      · simp only [ne_eq, he, not_false_eq_true, if_true]
        exact grows_andThen s2 (free a.elements s2) (free arr) (free_grows _ _)
          (fun s3 => free_grows arr s3)
    | msg m => exact grows_fail _ _
    | str st => exact grows_fail _ _
    | raw b => exact grows_fail _ _

theorem array_free_grows (cfg : Config) (mf : Ptr → upb_msgdef → State → Res Unit)
    (hg : ∀ p md s, Grows s (mf p md s)) (arr : Ptr) (f : upb_fielddef) (s : State) :
    Grows s (_upb_array_free cfg mf arr f s) := by
  apply grows_log (.array_free arr f)
  unfold _upb_array_free
  dsimp only
  by_cases hmm : cfg.upb_elem_ismm f = true
  · simp only [hmm, if_true]
    cases h1 : deref (log (.array_free arr f) s) arr with
    | none => exact grows_fail _ _
    | some o =>
      cases o with
      | arr a =>
        simp only
        have hk := array_loop_grows cfg mf hg arr f a.size 0 (log (.array_free arr f) s)
        cases hr : array_free_loop cfg mf arr f a.size 0 (log (.array_free arr f) s) with
        | ok u s2 =>
          rw [hr] at hk
          exact fun e => Nat.le_trans (hk e) (array_tail_grows arr s2 e)
        | fail e s2 =>
          rw [hr] at hk
          exact hk
      | msg m => exact grows_fail _ _
      | str st => exact grows_fail _ _
      | raw b => exact grows_fail _ _
  · have hmmf : cfg.upb_elem_ismm f = false := by simpa using hmm
    simp only [hmmf, Bool.false_eq_true, if_false]
    exact array_tail_grows arr _

theorem field_free_grows (cfg : Config) (mf : Ptr → upb_msgdef → State → Res Unit)
    (hg : ∀ p md s, Grows s (mf p md s)) (v : upb_value) (f : upb_fielddef) (s : State) :
    Grows s (upb_field_free cfg mf v f s) := by
  apply grows_log (.field_free v f)
  unfold upb_field_free
  dsimp only
  split
  · exact array_free_grows cfg mf hg _ f _
  · exact elem_free_grows cfg mf hg v f _

theorem field_unref_grows (cfg : Config) (mf : Ptr → upb_msgdef → State → Res Unit)
    (hg : ∀ p md s, Grows s (mf p md s)) (v : upb_value) (f : upb_fielddef) (s : State) :
    Grows s (upb_field_unref cfg mf v f s) := by
  apply grows_log (.field_unref v f)
  unfold upb_field_unref
  dsimp only
  split
  · exact grows_fail _ _
  · split
    · exact grows_ok _ _
    · exact grows_gate _ _ (upb_field_free cfg mf v f)
        (fun s1 => field_free_grows cfg mf hg v f s1) (atomic_unref_grows _ _)

theorem release_field_grows (cfg : Config) (mf : Ptr → upb_msgdef → State → Res Unit)
    (hg : ∀ p md s, Grows s (mf p md s)) (msg : Ptr) (f : upb_fielddef) (s : State) :
    Grows s (release_field cfg mf msg f s) := by
  unfold release_field
  split
  · dsimp only
    split
    · exact grows_log _ _ _ (field_unref_grows cfg mf hg _ f _)
    · exact grows_fail _ _
  · exact grows_fail _ _

theorem msg_loop_grows (cfg : Config) (mf : Ptr → upb_msgdef → State → Res Unit)
    (hg : ∀ p md s, Grows s (mf p md s)) (msg : Ptr) (fs : List upb_fielddef) :
    ∀ s : State, Grows s (msg_free_loop cfg mf msg fs s) := by
  induction fs with
  | nil =>
    intro s
    exact grows_ok _ _
  | cons f fs ih =>
    intro s
    by_cases hmm : cfg.upb_field_ismm f = true
    · rw [msg_free_loop_step cfg mf msg f fs s hmm]
      exact grows_andThen s _ _ (release_field_grows cfg mf hg msg f s) ih
    · simp only [msg_free_loop, hmm]
      exact ih s

theorem msg_free_grows (cfg : Config) (n : Nat) :
    ∀ p md s, Grows s (_upb_msg_free cfg n p md s) := by
  induction n with
  | zero =>
    intro p md s
    exact grows_fail _ _
  | succ n ih =>
    intro p md s
    apply grows_log (.msg_free p md)
    simp only [_upb_msg_free]
    exact grows_andThen _
      (msg_free_loop cfg (_upb_msg_free cfg n) p md.fields (log (.msg_free p md) s)) (free p)
      (msg_loop_grows cfg (_upb_msg_free cfg n) ih p md.fields _) (free_grows p)

theorem calm_of_le {α : Type} (tgt : Ptr) (s0 s s1 : State) (r : Res α)
    (hle : s1.trace.count (.unref tgt) ≤ s.trace.count (.unref tgt))
    (h : Calm tgt s0 s1 r) : Calm tgt s0 s r :=
  ⟨Nat.le_trans h.1 hle, h.2⟩

theorem calm_log {α : Type} (tgt : Ptr) (s0 s : State) (r : Res α) (e : Event)
    (he : e ≠ .unref tgt) (h : Calm tgt s0 (log e s) r) : Calm tgt s0 s r :=
  calm_of_le tgt s0 s (log e s) r (Nat.le_of_eq (unref_count_log tgt e s he)) h

theorem calm_fail {α : Type} (tgt : Ptr) (s0 s : State) (e : Fault) :
    Calm tgt s0 s (.fail e s : Res α) :=
  ⟨Nat.le_refl _, trivial⟩

theorem calm_ok {α : Type} (tgt : Ptr) (s0 s : State) (a : α) (h : Same s0 s) :
    Calm tgt s0 s (.ok a s) :=
  ⟨Nat.le_refl _, h⟩

theorem free_calm (tgt : Ptr) (s0 s : State) (p : Ptr) (h : Same s0 s) :
    Calm tgt s0 s (free p s) := by
  apply calm_log tgt s0 s _ (.free p) (by simp)
  unfold free
  dsimp only
  split
  · exact calm_ok tgt s0 _ _ (same_log s0 s _ h)
  · split
    · exact ⟨Nat.le_refl _, same_free s0 _ p (same_log s0 s _ h)⟩
    · exact calm_fail tgt s0 _ _

theorem string_free_calm (tgt : Ptr) (s0 s : State) (p : Ptr) (h : Same s0 s) :
    Calm tgt s0 s (_upb_string_free p s) := by
  apply calm_log tgt s0 s _ (.string_free p) (by simp)
  unfold _upb_string_free
  dsimp only
  split
  · exact ⟨Nat.le_refl _, same_free s0 _ p (same_log s0 s _ h)⟩
  · exact calm_fail tgt s0 _ _

theorem atomic_unref_calm (tgt : Ptr) (s0 s : State) (p : Ptr) (hp : p ≠ tgt)
    (h : Same s0 s) : Calm tgt s0 s (upb_atomic_unref p s) := by
  apply calm_log tgt s0 s _ (.unref p) (by simp [hp])
  unfold upb_atomic_unref
  dsimp only
  cases hd : deref (log (.unref p) s) p with
  | none => exact calm_fail tgt s0 _ _
  | some o =>
    simp only
    cases hc : o.refcount with
    | none => exact calm_fail tgt s0 _ _
    | some c =>
      simp only
      exact ⟨Nat.le_refl _,
        same_unref s0 _ p o _ (same_log s0 s _ h) (deref_eq_heap _ p o hd).2⟩

theorem elem_free_calm (cfg : Config) (tgt : Ptr) (s0 : State) (n : Nat)
    (mf : Ptr → upb_msgdef → State → Res Unit)
    (hgood : ∀ p md s, Same s0 s → msg_avoids cfg s0 tgt n p md = true →
      Calm tgt s0 s (mf p md s))
    (v : upb_value) (f : upb_fielddef) (s : State) (hv : v ≠ 0) (hvt : v ≠ tgt)
    (hs : Same s0 s)
    (hd : elem_avoids cfg (msg_avoids cfg s0 tgt n) tgt v f = true) :
    Calm tgt s0 s (upb_elem_free cfg mf v f s) := by
  apply calm_log tgt s0 s _ (.elem_free v f) (by simp)
  unfold upb_elem_free
  unfold elem_avoids at hd
  simp only [hv, hvt, if_false] at hd
  cases ht : f.type with
  | MESSAGE =>
    simp only [ht] at hd ⊢
    cases hdc : cfg.upb_downcast_msgdef f.def_ with
    | none => exact calm_fail tgt s0 _ _
    | some md =>
      simp only [hdc] at hd
      exact hgood _ md _ (same_log s0 s _ hs) hd
  | GROUP =>
    simp only [ht] at hd ⊢
    cases hdc : cfg.upb_downcast_msgdef f.def_ with
    | none => exact calm_fail tgt s0 _ _
    | some md =>
      simp only [hdc] at hd
      exact hgood _ md _ (same_log s0 s _ hs) hd
  | STRING => exact string_free_calm tgt s0 _ _ (same_log s0 s _ hs)
  | BYTES => exact string_free_calm tgt s0 _ _ (same_log s0 s _ hs)
  | other code => exact calm_fail tgt s0 _ _

theorem elem_avoids_ne (cfg : Config) (nested : Ptr → upb_msgdef → Bool) (tgt : Ptr)
    (v : upb_value) (f : upb_fielddef) (hv : v ≠ 0)
    (hd : elem_avoids cfg nested tgt v f = true) : v ≠ tgt := by
  intro h
  subst h
  unfold elem_avoids at hd
  simp [hv] at hd

theorem elem_unref_calm (cfg : Config) (tgt : Ptr) (s0 : State) (n : Nat)
    (mf : Ptr → upb_msgdef → State → Res Unit)
    (hgood : ∀ p md s, Same s0 s → msg_avoids cfg s0 tgt n p md = true →
      Calm tgt s0 s (mf p md s))
    (v : upb_value) (f : upb_fielddef) (s : State) (hs : Same s0 s)
    (hd : elem_avoids cfg (msg_avoids cfg s0 tgt n) tgt v f = true) :
    Calm tgt s0 s (upb_elem_unref cfg mf v f s) := by
  apply calm_log tgt s0 s _ (.elem_unref v f) (by simp)
  unfold upb_elem_unref
  dsimp only
  split
  · exact calm_fail tgt s0 _ _
  · split
    · exact calm_ok tgt s0 _ _ (same_log s0 s _ hs)
    · rename_i _ hv
      have hv0 : v ≠ 0 := hv
      have hvt : v ≠ tgt := elem_avoids_ne cfg _ tgt v f hv0 hd
      have hk := atomic_unref_calm tgt s0 (log (.elem_unref v f) s)
        (upb_value_getrefcount v) hvt (same_log s0 s _ hs)
      cases hu : upb_atomic_unref (upb_value_getrefcount v) (log (.elem_unref v f) s) with
      | ok z s2 =>
        rw [hu] at hk
        cases z with
        | true =>
          exact calm_of_le tgt s0 _ s2 _ hk.1
            (elem_free_calm cfg tgt s0 n mf hgood v f s2 hv0 hvt hk.2 hd)
        | false => exact hk
      | fail e s2 =>
        rw [hu] at hk
        exact hk

theorem array_loop_calm (cfg : Config) (tgt : Ptr) (s0 : State) (n : Nat)
    (mf : Ptr → upb_msgdef → State → Res Unit)
    (hgood : ∀ p md s, Same s0 s → msg_avoids cfg s0 tgt n p md = true →
      Calm tgt s0 s (mf p md s))
    (arr : Ptr) (f : upb_fielddef) (k : Nat) :
    ∀ (i : Nat) (s : State), Same s0 s →
      (∀ a0 bytes, deref s0 arr = some (.arr a0) → deref s0 a0.elements = some (.raw bytes) →
        slots_avoid cfg (msg_avoids cfg s0 tgt n) tgt bytes f k i = true) →
      Calm tgt s0 s (array_free_loop cfg mf arr f k i s) := by
  induction k with
  | zero =>
    intro i s hs _
    exact calm_ok tgt s0 _ _ hs
  | succ k ih =>
    intro i s hs hd
    rw [array_free_loop_step]
    unfold release_slot
    cases h1 : deref s arr with
    | none => exact calm_fail tgt s0 _ _
    | some o =>
      cases o with
      | arr a =>
        simp only
        cases h2 : deref s a.elements with
        | none => exact calm_fail tgt s0 _ _
        | some o2 =>
          cases o2 with
          | raw bytes =>
            simp only
            obtain ⟨a0, ha0, _, hel⟩ := same_arr s0 s arr a hs h1
            have hb0 : deref s0 a0.elements = some (.raw bytes) := by
              rw [hel]
              exact same_raw s0 s _ bytes hs h2
            have hsl := hd a0 bytes ha0 hb0
            simp only [slots_avoid, Bool.and_eq_true] at hsl
            cases h3 : upb_value_read cfg bytes (_upb_array_getptr cfg f i)
                (cfg.upb_elem_valuetype f) with
            | none => exact calm_fail tgt s0 _ _
            | some v =>
              simp only
              have hv := hsl.1
              simp only [h3] at hv
              have hk := calm_log tgt s0 s _
                (.read a.elements (_upb_array_getptr cfg f i)
                  (cfg.sizeof_value (cfg.upb_elem_valuetype f))) (by simp)
                (elem_unref_calm cfg tgt s0 n mf hgood v f
                  (log (.read a.elements (_upb_array_getptr cfg f i)
                    (cfg.sizeof_value (cfg.upb_elem_valuetype f))) s) (same_log s0 s _ hs) hv)
              cases hr : upb_elem_unref cfg mf v f
                  (log (.read a.elements (_upb_array_getptr cfg f i)
                    (cfg.sizeof_value (cfg.upb_elem_valuetype f))) s) with
              | ok u s1 =>
                rw [hr] at hk
                refine calm_of_le tgt s0 s s1 _ hk.1 (ih (i + 1) s1 hk.2 ?_)
                intro a1 bytes1 ha1 hb1
                rw [ha0] at ha1
                cases ha1
                rw [hb0] at hb1
                cases hb1
                exact hsl.2
              | fail e s1 =>
                rw [hr] at hk
                exact hk
          | msg m => exact calm_fail tgt s0 _ _
          | arr a2 => exact calm_fail tgt s0 _ _
          | str st => exact calm_fail tgt s0 _ _
      | msg m => exact calm_fail tgt s0 _ _
      | str st => exact calm_fail tgt s0 _ _
      | raw b => exact calm_fail tgt s0 _ _

theorem array_tail_calm (tgt : Ptr) (s0 : State) (arr : Ptr) (s2 : State)
    (hs : Same s0 s2) :
    Calm tgt s0 s2 (match deref s2 arr with
      | some (.arr a) =>
        if a.elements ≠ 0 then
          match free a.elements s2 with
          | .ok _ s3 => free arr s3
          | .fail e s3 => .fail e s3
        else free arr s2
      | _ => .fail .invalid s2 : Res Unit) := by
  cases hd : deref s2 arr with
  | none => exact calm_fail tgt s0 _ _
  | some o =>
    cases o with
    | arr a =>
      simp only
      by_cases he : a.elements = 0
      · simp only [he, ne_eq, not_true_eq_false, if_false]
        exact free_calm tgt s0 s2 arr hs
      · simp only [ne_eq, he, not_false_eq_true, if_true]
        have hk := free_calm tgt s0 s2 a.elements hs
        cases hf : free a.elements s2 with
        | ok u s3 =>
          rw [hf] at hk
          exact calm_of_le tgt s0 s2 s3 _ hk.1 (free_calm tgt s0 s3 arr hk.2)
        | fail e s3 =>
          rw [hf] at hk
          exact hk
    | msg m => exact calm_fail tgt s0 _ _
    | str st => exact calm_fail tgt s0 _ _
    | raw b => exact calm_fail tgt s0 _ _

theorem array_free_calm (cfg : Config) (tgt : Ptr) (s0 : State) (n : Nat)
    (mf : Ptr → upb_msgdef → State → Res Unit)
    (hgood : ∀ p md s, Same s0 s → msg_avoids cfg s0 tgt n p md = true →
      Calm tgt s0 s (mf p md s))
    (arr : Ptr) (f : upb_fielddef) (s : State) (hs : Same s0 s)
    (hd : array_avoids cfg (msg_avoids cfg s0 tgt n) tgt s0 arr f = true) :
    Calm tgt s0 s (_upb_array_free cfg mf arr f s) := by
  apply calm_log tgt s0 s _ (.array_free arr f) (by simp)
  unfold _upb_array_free
  dsimp only
  by_cases hmm : cfg.upb_elem_ismm f = true
  · simp only [hmm, if_true]
    cases h1 : deref (log (.array_free arr f) s) arr with
    | none => exact calm_fail tgt s0 _ _
    | some o =>
      cases o with
      | arr a =>
        simp only
        obtain ⟨a0, ha0, hsz, _⟩ := same_arr s0 _ arr a (same_log s0 s _ hs) h1
        have hk := array_loop_calm cfg tgt s0 n mf hgood arr f a.size 0
          (log (.array_free arr f) s) (same_log s0 s _ hs) (by
            intro a1 bytes ha1 hb1
            rw [ha0] at ha1
            cases ha1
            unfold array_avoids at hd
            simp only [hmm, if_true, ha0, hb1] at hd
            rw [← hsz]
            exact hd)
        cases hr : array_free_loop cfg mf arr f a.size 0 (log (.array_free arr f) s) with
        | ok u s2 =>
          rw [hr] at hk
          exact calm_of_le tgt s0 _ s2 _ hk.1 (array_tail_calm tgt s0 arr s2 hk.2)
        | fail e s2 =>
          rw [hr] at hk
          exact hk
      | msg m => exact calm_fail tgt s0 _ _
      | str st => exact calm_fail tgt s0 _ _
      | raw b => exact calm_fail tgt s0 _ _
  · have hmmf : cfg.upb_elem_ismm f = false := by simpa using hmm
    simp only [hmmf, Bool.false_eq_true, if_false]
    exact array_tail_calm tgt s0 arr _ (same_log s0 s _ hs)

theorem field_unref_calm (cfg : Config) (tgt : Ptr) (s0 : State) (n : Nat)
    (mf : Ptr → upb_msgdef → State → Res Unit)
    (hgood : ∀ p md s, Same s0 s → msg_avoids cfg s0 tgt n p md = true →
      Calm tgt s0 s (mf p md s))
    (v : upb_value) (f : upb_fielddef) (s : State) (hs : Same s0 s)
    (hd : field_avoids cfg (msg_avoids cfg s0 tgt n) tgt s0 v f = true) :
    Calm tgt s0 s (upb_field_unref cfg mf v f s) := by
  apply calm_log tgt s0 s _ (.field_unref v f) (by simp)
  unfold upb_field_unref
  dsimp only
  split
  · exact calm_fail tgt s0 _ _
  · split
    · exact calm_ok tgt s0 _ _ (same_log s0 s _ hs)
    · rename_i _ hv
      have hv0 : v ≠ 0 := hv
      have hvt : v ≠ tgt := by
        intro h
        subst h
        unfold field_avoids at hd
        simp [hv0] at hd
      unfold field_avoids at hd
      simp only [hv0, hvt, if_false] at hd
      have hk := atomic_unref_calm tgt s0 (log (.field_unref v f) s)
        (upb_value_getrefcount v) hvt (same_log s0 s _ hs)
      cases hu : upb_atomic_unref (upb_value_getrefcount v) (log (.field_unref v f) s) with
      | ok z s2 =>
        rw [hu] at hk
        cases z with
        | true =>
          simp only
          refine calm_of_le tgt s0 _ s2 _ hk.1 ?_
          apply calm_log tgt s0 s2 _ (.field_free v f) (by simp)
          unfold upb_field_free
          dsimp only
          by_cases harr : cfg.upb_isarray f = true
          · simp only [harr, if_true] at hd ⊢
            exact array_free_calm cfg tgt s0 n mf hgood _ f _ (same_log s0 s2 _ hk.2) hd
          · have harrf : cfg.upb_isarray f = false := by simpa using harr
            simp only [harrf, Bool.false_eq_true, if_false] at hd ⊢
            exact elem_free_calm cfg tgt s0 n mf hgood v f _ hv0 hvt
              (same_log s0 s2 _ hk.2) hd
        | false => exact hk
      | fail e s2 =>
        rw [hu] at hk
        exact hk

theorem msg_loop_calm (cfg : Config) (tgt : Ptr) (s0 : State) (n : Nat)
    (mf : Ptr → upb_msgdef → State → Res Unit)
    (hgood : ∀ p md s, Same s0 s → msg_avoids cfg s0 tgt n p md = true →
      Calm tgt s0 s (mf p md s))
    (msg : Ptr) (fs : List upb_fielddef) :
    ∀ s : State, Same s0 s →
      (∀ m0, deref s0 msg = some (.msg m0) →
        fields_avoid cfg (msg_avoids cfg s0 tgt n) tgt s0 m0.data fs = true) →
      Calm tgt s0 s (msg_free_loop cfg mf msg fs s) := by
  induction fs with
  | nil =>
    intro s hs _
    exact calm_ok tgt s0 _ _ hs
  | cons f fs ih =>
    intro s hs hd
    have hd' : ∀ m0, deref s0 msg = some (.msg m0) →
        fields_avoid cfg (msg_avoids cfg s0 tgt n) tgt s0 m0.data fs = true := by
      intro m0 hm0
      have := hd m0 hm0
      simp only [fields_avoid, Bool.and_eq_true] at this
      exact this.2
    by_cases hmm : cfg.upb_field_ismm f = true
    · rw [msg_free_loop_step cfg mf msg f fs s hmm]
      unfold release_field
      cases h1 : deref s msg with
      | none => exact calm_fail tgt s0 _ _
      | some o =>
        cases o with
        | msg m =>
          simp only
          obtain ⟨m0, hm0, hdata⟩ := same_msg s0 s msg m hs h1
          have hf := hd m0 hm0
          simp only [fields_avoid, hmm, if_true, Bool.and_eq_true, hdata] at hf
          cases h3 : upb_value_read cfg m.data (_upb_msg_getptr f)
              (cfg.upb_field_valuetype f) with
          | none => exact calm_fail tgt s0 _ _
          | some v =>
            simp only
            have hv := hf.1
            simp only [h3] at hv
            have hk := calm_log tgt s0 s _
              (.read msg (_upb_msg_getptr f)
                (cfg.sizeof_value (cfg.upb_field_valuetype f))) (by simp)
              (field_unref_calm cfg tgt s0 n mf hgood v f
                (log (.read msg (_upb_msg_getptr f)
                  (cfg.sizeof_value (cfg.upb_field_valuetype f))) s) (same_log s0 s _ hs) hv)
            cases hr : upb_field_unref cfg mf v f
                (log (.read msg (_upb_msg_getptr f)
                  (cfg.sizeof_value (cfg.upb_field_valuetype f))) s) with
            | ok u s1 =>
              rw [hr] at hk
              exact calm_of_le tgt s0 s s1 _ hk.1 (ih s1 hk.2 hd')
            | fail e s1 =>
              rw [hr] at hk
              exact hk
        | arr a => exact calm_fail tgt s0 _ _
        | str st => exact calm_fail tgt s0 _ _
        | raw b => exact calm_fail tgt s0 _ _
    · simp only [msg_free_loop, hmm]
      exact ih s hs hd'

theorem msg_free_calm (cfg : Config) (tgt : Ptr) (s0 : State) (n : Nat) :
    ∀ p md s, Same s0 s → msg_avoids cfg s0 tgt n p md = true →
      Calm tgt s0 s (_upb_msg_free cfg n p md s) := by
  induction n with
  | zero =>
    intro p md s _ _
    exact calm_fail tgt s0 _ _
  | succ n ih =>
    intro p md s hs hd
    apply calm_log tgt s0 s _ (.msg_free p md) (by simp)
    simp only [_upb_msg_free]
    have hk := msg_loop_calm cfg tgt s0 n (_upb_msg_free cfg n) ih p md.fields
      (log (.msg_free p md) s) (same_log s0 s _ hs) (by
        intro m0 hm0
        simpa [msg_avoids, hm0] using hd)
    cases hr : msg_free_loop cfg (_upb_msg_free cfg n) p md.fields (log (.msg_free p md) s) with
    | ok u s1 =>
      rw [hr] at hk
      exact calm_of_le tgt s0 _ s1 _ hk.1 (free_calm tgt s0 s1 p hk.2)
    | fail e s1 =>
      rw [hr] at hk
      exact hk

theorem quiet_log {α : Type} (msg : Ptr) (e : Event) (s : State) (r : Res α)
    (h : Quiet msg s r) : Quiet msg (log e s) r :=
  Nat.le_trans h (count_log_le e _ s)

theorem agree_log (msg : Ptr) (e : Event) (s t : State) (h : Agree msg s t) :
    Agree msg (log e s) (log e t) :=
  ⟨by show t.trace ++ [e] = s.trace ++ [e]; rw [h.1], h.2⟩

theorem agree_store (msg : Ptr) (s t : State) (p : Ptr) (o : Option Obj)
    (h : Agree msg s t) : Agree msg (store s p o) (store t p o) := by
  refine ⟨h.1, fun q => ?_⟩
  by_cases hq : q = p
  · left
    simp [store, hq]
  · rcases h.2 q with h1 | ⟨hqm, m, c, h1, h2⟩
    · left
      simp [store, Function.update, hq, h1]
    · right
      refine ⟨hqm, m, c, ?_, ?_⟩
      · simp [store, Function.update, hq, h1]
      · simp [store, Function.update, hq, h2]

theorem agree_deref (msg : Ptr) (s t : State) (p : Ptr) (h : Agree msg s t) :
    deref t p = deref s p ∨
      (p = msg ∧ ∃ m c, deref s p = some (.msg m) ∧
        deref t p = some (.msg (upb_msg.mk c m.data))) := by
  unfold deref
  by_cases hp : p = 0
  · left
    simp [hp]
  · simp only [hp, if_false]
    exact h.2 p

theorem alike_ok_inv {α : Type} (msg : Ptr) (a : α) (s1 : State) (r2 : Res α)
    (h : Alike msg (.ok a s1) r2) : ∃ t1, r2 = .ok a t1 ∧ Agree msg s1 t1 := by
  cases r2 with
  | ok b t1 =>
    simp only [Alike] at h
    exact ⟨t1, by rw [h.1], h.2⟩
  | fail e t1 => exact False.elim h

theorem alike_fail_inv {α : Type} (msg : Ptr) (e : Fault) (s1 : State) (r2 : Res α)
    (h : Alike msg (.fail e s1) r2) : ∃ t1, r2 = .fail e t1 ∧ Agree msg s1 t1 := by
  cases r2 with
  | ok b t1 => exact False.elim h
  | fail e2 t1 =>
    simp only [Alike] at h
    exact ⟨t1, by rw [h.1], h.2⟩

theorem alike_andThen (msg : Ptr) (s : State) (r r2 : Res Unit) (k : State → Res Unit)
    (hr : Grows s r) (hk : ∀ s1, Grows s1 (k s1))
    (hno : Quiet msg s (r.andThen k))
    (h1 : Quiet msg s r → Alike msg r r2)
    (h2 : ∀ s1 t1, Agree msg s1 t1 → Quiet msg s1 (k s1) → Alike msg (k s1) (k t1)) :
    Alike msg (r.andThen k) (r2.andThen k) := by
  cases r with
  | ok u s1 =>
    have hno1 : Quiet msg s (Res.ok u s1 : Res Unit) := Nat.le_trans (hk s1 _) hno
    have hno2 : Quiet msg s1 (k s1) := Nat.le_trans hno (hr _)
    obtain ⟨t1, hr2, hag⟩ := alike_ok_inv msg u s1 r2 (h1 hno1)
    rw [hr2]
    exact h2 s1 t1 hag hno2
  | fail e s1 =>
    obtain ⟨t1, hr2, hag⟩ := alike_fail_inv msg e s1 r2 (h1 hno)
    rw [hr2]
    exact ⟨rfl, hag⟩

theorem alike_gate (msg : Ptr) (s : State) (r r2 : Res Bool) (k : State → Res Unit)
    (hk : ∀ s1, Grows s1 (k s1))
    (h2 : ∀ s1 t1, Agree msg s1 t1 → Quiet msg s1 (k s1) → Alike msg (k s1) (k t1)) :
    Grows s r → (Quiet msg s r → Alike msg r r2) →
    Quiet msg s (match r with
        | .ok true s2 => k s2
        | .ok false s2 => .ok () s2
        | .fail e s2 => .fail e s2 : Res Unit) →
      Alike msg
        (match r with
          | .ok true s2 => k s2
          | .ok false s2 => .ok () s2
          | .fail e s2 => .fail e s2 : Res Unit)
        (match r2 with
          | .ok true s2 => k s2
          | .ok false s2 => .ok () s2
          | .fail e s2 => .fail e s2 : Res Unit) := by
  intro hr h1 hno
  cases r with
  | ok z s1 =>
    cases z with
    | true =>
      have hno1 : Quiet msg s (Res.ok true s1 : Res Bool) := Nat.le_trans (hk s1 _) hno
      have hno2 : Quiet msg s1 (k s1) := Nat.le_trans hno (hr _)
      obtain ⟨t1, hr2, hag⟩ := alike_ok_inv msg true s1 r2 (h1 hno1)
      rw [hr2]
      exact h2 s1 t1 hag hno2
    | false =>
      obtain ⟨t1, hr2, hag⟩ := alike_ok_inv msg false s1 r2 (h1 hno)
      rw [hr2]
      exact ⟨rfl, hag⟩
  | fail e s1 =>
    obtain ⟨t1, hr2, hag⟩ := alike_fail_inv msg e s1 r2 (h1 hno)
    rw [hr2]
    exact ⟨rfl, hag⟩

theorem free_alike (msg p : Ptr) (s t : State) (h : Agree msg s t) :
    Alike msg (free p s) (free p t) := by
  have hl := agree_log msg (.free p) s t h
  unfold free
  dsimp only
  by_cases hp : p = 0
  · simp only [if_pos hp]
    exact ⟨rfl, hl⟩
  · simp only [if_neg hp]
    rcases hl.2 p with h1 | ⟨_, m, c, h1, h2⟩
    · rw [h1]
      cases hh : (log (.free p) s).heap p with
      | none => exact ⟨rfl, hl⟩
      | some o => exact ⟨rfl, agree_store msg _ _ p none hl⟩
    · rw [h1, h2]
      exact ⟨rfl, agree_store msg _ _ p none hl⟩

theorem string_free_alike (msg p : Ptr) (s t : State) (h : Agree msg s t) :
    Alike msg (_upb_string_free p s) (_upb_string_free p t) := by
  have hl := agree_log msg (.string_free p) s t h
  unfold _upb_string_free
  dsimp only
  rcases agree_deref msg _ _ p hl with h1 | ⟨_, m, c, h1, h2⟩
  · rw [h1]
    cases hd : deref (log (.string_free p) s) p with
    | none => exact ⟨rfl, hl⟩
    | some o =>
      cases o with
      | str st => exact ⟨rfl, agree_store msg _ _ p none hl⟩
      | msg m => exact ⟨rfl, hl⟩
      | arr a => exact ⟨rfl, hl⟩
      | raw b => exact ⟨rfl, hl⟩
  · rw [h1, h2]
    exact ⟨rfl, hl⟩

theorem atomic_unref_alike (msg rc : Ptr) (s t : State) (h : Agree msg s t)
    (hno : Quiet msg s (upb_atomic_unref rc s)) :
    Alike msg (upb_atomic_unref rc s) (upb_atomic_unref rc t) := by
  have hl := agree_log msg (.unref rc) s t h
  have hin : (upb_atomic_unref rc s).trace.count (.unref rc) =
      s.trace.count (.unref rc) + 1 := by
    unfold upb_atomic_unref
    dsimp only
    split
    · split <;> simp [Res.trace, log, store, List.count_append]
    · simp [Res.trace, log, List.count_append]
  have hne : rc ≠ msg := by
    intro hrc
    subst hrc
    unfold Quiet at hno
    omega
  have hd : deref (log (.unref rc) t) rc = deref (log (.unref rc) s) rc := by
    rcases agree_deref msg _ _ rc hl with h1 | ⟨hrc, _⟩
    · exact h1
    · exact absurd hrc hne
  unfold upb_atomic_unref
  dsimp only
  rw [hd]
  cases hdd : deref (log (.unref rc) s) rc with
  | none => exact ⟨rfl, hl⟩
  | some o =>
    simp only
    cases hc : o.refcount with
    | none => exact ⟨rfl, hl⟩
    | some c => exact ⟨rfl, agree_store msg _ _ rc _ hl⟩

theorem elem_free_alike (cfg : Config) (msg : Ptr)
    (mf : Ptr → upb_msgdef → State → Res Unit)
    (hsim : ∀ p md s t, Agree msg s t → Quiet msg s (mf p md s) →
      Alike msg (mf p md s) (mf p md t))
    (v : upb_value) (f : upb_fielddef) (s t : State) (hag : Agree msg s t)
    (hno : Quiet msg s (upb_elem_free cfg mf v f s)) :
    Alike msg (upb_elem_free cfg mf v f s) (upb_elem_free cfg mf v f t) := by
  have hl := agree_log msg (.elem_free v f) s t hag
  have hno := quiet_log msg (.elem_free v f) s _ hno
  revert hno
  unfold upb_elem_free
  cases ht : f.type with
  | MESSAGE =>
    simp only
    cases hdc : cfg.upb_downcast_msgdef f.def_ with
    | none => exact fun _ => ⟨rfl, hl⟩
    | some md => exact fun hno => hsim _ md _ _ hl hno
  | GROUP =>
    simp only
    cases hdc : cfg.upb_downcast_msgdef f.def_ with
    | none => exact fun _ => ⟨rfl, hl⟩
    | some md => exact fun hno => hsim _ md _ _ hl hno
  | STRING => exact fun _ => string_free_alike msg _ _ _ hl
  | BYTES => exact fun _ => string_free_alike msg _ _ _ hl
  | other code => exact fun _ => ⟨rfl, hl⟩

theorem elem_unref_alike (cfg : Config) (msg : Ptr)
    (mf : Ptr → upb_msgdef → State → Res Unit)
    (hg : ∀ p md s, Grows s (mf p md s))
    (hsim : ∀ p md s t, Agree msg s t → Quiet msg s (mf p md s) →
      Alike msg (mf p md s) (mf p md t))
    (v : upb_value) (f : upb_fielddef) (s t : State) (hag : Agree msg s t)
    (hno : Quiet msg s (upb_elem_unref cfg mf v f s)) :
    Alike msg (upb_elem_unref cfg mf v f s) (upb_elem_unref cfg mf v f t) := by
  have hl := agree_log msg (.elem_unref v f) s t hag
  have hno := quiet_log msg (.elem_unref v f) s _ hno
  revert hno
  unfold upb_elem_unref
  dsimp only
  by_cases hmm : cfg.upb_elem_ismm f = false
  · simp only [if_pos hmm]
    exact fun _ => ⟨rfl, hl⟩
  · simp only [if_neg hmm]
    by_cases hv : upb_value_getrefcount v = 0
    · simp only [if_pos hv]
      exact fun _ => ⟨rfl, hl⟩
    · simp only [if_neg hv]
      exact alike_gate msg (log (.elem_unref v f) s)
        (upb_atomic_unref (upb_value_getrefcount v) (log (.elem_unref v f) s))
        (upb_atomic_unref (upb_value_getrefcount v) (log (.elem_unref v f) t))
        (upb_elem_free cfg mf v f)
        (fun s1 => elem_free_grows cfg mf hg v f s1)
        (fun s1 t1 h1 h2 => elem_free_alike cfg msg mf hsim v f s1 t1 h1 h2)
        (atomic_unref_grows _ _)
        (fun h => atomic_unref_alike msg _ _ _ hl h)

theorem release_slot_alike (cfg : Config) (msg : Ptr)
    (mf : Ptr → upb_msgdef → State → Res Unit)
    (hg : ∀ p md s, Grows s (mf p md s))
    (hsim : ∀ p md s t, Agree msg s t → Quiet msg s (mf p md s) →
      Alike msg (mf p md s) (mf p md t))
    (arr : Ptr) (f : upb_fielddef) (i : Nat) (s t : State) (hag : Agree msg s t)
    (hno : Quiet msg s (release_slot cfg mf arr f i s)) :
    Alike msg (release_slot cfg mf arr f i s) (release_slot cfg mf arr f i t) := by
  revert hno
  unfold release_slot
  rcases agree_deref msg s t arr hag with h1 | ⟨_, m, c, h1, h2⟩
  · rw [h1]
    cases hd : deref s arr with
    | none => exact fun _ => ⟨rfl, hag⟩
    | some o =>
      cases o with
      | arr a =>
        simp only
        rcases agree_deref msg s t a.elements hag with h3 | ⟨_, m, c, h3, h4⟩
        · rw [h3]
          cases hb : deref s a.elements with
          | none => exact fun _ => ⟨rfl, hag⟩
          | some o2 =>
            cases o2 with
            | raw bytes =>
              simp only
              cases hr : upb_value_read cfg bytes (_upb_array_getptr cfg f i)
                  (cfg.upb_elem_valuetype f) with
              | none => exact fun _ => ⟨rfl, hag⟩
              | some v =>
                exact fun hno => elem_unref_alike cfg msg mf hg hsim v f _ _
                  (agree_log msg _ s t hag) (quiet_log msg _ s _ hno)
            | msg m => exact fun _ => ⟨rfl, hag⟩
            | arr a2 => exact fun _ => ⟨rfl, hag⟩
            | str st => exact fun _ => ⟨rfl, hag⟩
        · rw [h3, h4]
          exact fun _ => ⟨rfl, hag⟩
      | msg m => exact fun _ => ⟨rfl, hag⟩
      | str st => exact fun _ => ⟨rfl, hag⟩
      | raw b => exact fun _ => ⟨rfl, hag⟩
  · rw [h1, h2]
    exact fun _ => ⟨rfl, hag⟩

theorem array_loop_alike (cfg : Config) (msg : Ptr)
    (mf : Ptr → upb_msgdef → State → Res Unit)
    (hg : ∀ p md s, Grows s (mf p md s))
    (hsim : ∀ p md s t, Agree msg s t → Quiet msg s (mf p md s) →
      Alike msg (mf p md s) (mf p md t))
    (arr : Ptr) (f : upb_fielddef) (k : Nat) :
    ∀ (i : Nat) (s t : State), Agree msg s t →
      Quiet msg s (array_free_loop cfg mf arr f k i s) →
      Alike msg (array_free_loop cfg mf arr f k i s) (array_free_loop cfg mf arr f k i t) := by
  induction k with
  | zero =>
    intro i s t hag _
    exact ⟨rfl, hag⟩
  | succ k ih =>
    intro i s t hag hno
    rw [array_free_loop_step] at hno
    rw [array_free_loop_step cfg mf arr f k i s, array_free_loop_step cfg mf arr f k i t]
    exact alike_andThen msg s _ _ _ (release_slot_grows cfg mf hg arr f i s)
      (fun s1 => array_loop_grows cfg mf hg arr f k (i + 1) s1) hno
      (fun h => release_slot_alike cfg msg mf hg hsim arr f i s t hag h)
      (fun s1 t1 h1 h2 => ih (i + 1) s1 t1 h1 h2)

theorem array_tail_alike (msg arr : Ptr) (s2 t2 : State) (hag : Agree msg s2 t2) :
    Alike msg
      (match deref s2 arr with
        | some (.arr a) =>
          if a.elements ≠ 0 then
            match free a.elements s2 with
            | .ok _ s3 => free arr s3
            | .fail e s3 => .fail e s3
          else free arr s2
        | _ => .fail .invalid s2 : Res Unit)
      (match deref t2 arr with
        | some (.arr a) =>
          if a.elements ≠ 0 then
            match free a.elements t2 with
            | .ok _ s3 => free arr s3
            | .fail e s3 => .fail e s3
          else free arr t2
        | _ => .fail .invalid t2 : Res Unit) := by
  rcases agree_deref msg s2 t2 arr hag with h1 | ⟨_, m, c, h1, h2⟩
  · rw [h1]
    cases hd : deref s2 arr with
    | none => exact ⟨rfl, hag⟩
    | some o =>
      cases o with
      | arr a =>
        simp only
        by_cases he : a.elements = 0
        · simp only [he, ne_eq, not_true_eq_false, if_false]
          exact free_alike msg arr s2 t2 hag
        · simp only [ne_eq, he, not_false_eq_true, if_true]
          have hf := free_alike msg a.elements s2 t2 hag
          cases hr : free a.elements s2 with
          | ok u s3 =>
            rw [hr] at hf
            obtain ⟨t3, hr2, hag3⟩ := alike_ok_inv msg u s3 _ hf
            rw [hr2]
            exact free_alike msg arr s3 t3 hag3
          | fail e s3 =>
            rw [hr] at hf
            obtain ⟨t3, hr2, hag3⟩ := alike_fail_inv msg e s3 _ hf
            rw [hr2]
            exact ⟨rfl, hag3⟩
      | msg m => exact ⟨rfl, hag⟩
      | str st => exact ⟨rfl, hag⟩
      | raw b => exact ⟨rfl, hag⟩
  · rw [h1, h2]
    exact ⟨rfl, hag⟩

theorem array_free_alike (cfg : Config) (msg : Ptr)
    (mf : Ptr → upb_msgdef → State → Res Unit)
    (hg : ∀ p md s, Grows s (mf p md s))
    (hsim : ∀ p md s t, Agree msg s t → Quiet msg s (mf p md s) →
      Alike msg (mf p md s) (mf p md t))
    (arr : Ptr) (f : upb_fielddef) (s t : State) (hag : Agree msg s t)
    (hno : Quiet msg s (_upb_array_free cfg mf arr f s)) :
    Alike msg (_upb_array_free cfg mf arr f s) (_upb_array_free cfg mf arr f t) := by
  have hl := agree_log msg (.array_free arr f) s t hag
  have hno := quiet_log msg (.array_free arr f) s _ hno
  revert hno
  unfold _upb_array_free
  dsimp only
  by_cases hmm : cfg.upb_elem_ismm f = true
  · simp only [hmm, if_true]
    rcases agree_deref msg _ _ arr hl with h1 | ⟨_, m, c, h1, h2⟩
    · rw [h1]
      cases hd : deref (log (.array_free arr f) s) arr with
      | none => exact fun _ => ⟨rfl, hl⟩
      | some o =>
        cases o with
        | arr a =>
          simp only
          intro hno
          cases hr : array_free_loop cfg mf arr f a.size 0 (log (.array_free arr f) s) with
          | ok u s2 =>
            rw [hr] at hno
            have hno1 : Quiet msg (log (.array_free arr f) s)
                (array_free_loop cfg mf arr f a.size 0 (log (.array_free arr f) s)) := by
              rw [hr]
              exact Nat.le_trans (array_tail_grows arr s2 _) hno
            have hA := array_loop_alike cfg msg mf hg hsim arr f a.size 0 _ _ hl hno1
            rw [hr] at hA
            obtain ⟨t2, hr2, hag2⟩ := alike_ok_inv msg u s2 _ hA
            rw [hr2]
            exact array_tail_alike msg arr s2 t2 hag2
          | fail e s2 =>
            rw [hr] at hno
            have hno1 : Quiet msg (log (.array_free arr f) s)
                (array_free_loop cfg mf arr f a.size 0 (log (.array_free arr f) s)) := by
              rw [hr]
              exact hno
            have hA := array_loop_alike cfg msg mf hg hsim arr f a.size 0 _ _ hl hno1
            rw [hr] at hA
            obtain ⟨t2, hr2, hag2⟩ := alike_fail_inv msg e s2 _ hA
            rw [hr2]
            exact ⟨rfl, hag2⟩
        | msg m => exact fun _ => ⟨rfl, hl⟩
        | str st => exact fun _ => ⟨rfl, hl⟩
        | raw b => exact fun _ => ⟨rfl, hl⟩
    · rw [h1, h2]
      exact fun _ => ⟨rfl, hl⟩
  · have hmmf : cfg.upb_elem_ismm f = false := by simpa using hmm
    simp only [hmmf, Bool.false_eq_true, if_false]
    exact fun _ => array_tail_alike msg arr _ _ hl

theorem field_free_alike (cfg : Config) (msg : Ptr)
    (mf : Ptr → upb_msgdef → State → Res Unit)
    (hg : ∀ p md s, Grows s (mf p md s))
    (hsim : ∀ p md s t, Agree msg s t → Quiet msg s (mf p md s) →
      Alike msg (mf p md s) (mf p md t))
    (v : upb_value) (f : upb_fielddef) (s t : State) (hag : Agree msg s t)
    (hno : Quiet msg s (upb_field_free cfg mf v f s)) :
    Alike msg (upb_field_free cfg mf v f s) (upb_field_free cfg mf v f t) := by
  have hl := agree_log msg (.field_free v f) s t hag
  have hno := quiet_log msg (.field_free v f) s _ hno
  revert hno
  unfold upb_field_free
  dsimp only
  by_cases harr : cfg.upb_isarray f = true
  · simp only [harr, if_true]
    exact fun hno => array_free_alike cfg msg mf hg hsim _ f _ _ hl hno
  · have harrf : cfg.upb_isarray f = false := by simpa using harr
    simp only [harrf, Bool.false_eq_true, if_false]
    exact fun hno => elem_free_alike cfg msg mf hsim v f _ _ hl hno

theorem field_unref_alike (cfg : Config) (msg : Ptr)
    (mf : Ptr → upb_msgdef → State → Res Unit)
    (hg : ∀ p md s, Grows s (mf p md s))
    (hsim : ∀ p md s t, Agree msg s t → Quiet msg s (mf p md s) →
      Alike msg (mf p md s) (mf p md t))
    (v : upb_value) (f : upb_fielddef) (s t : State) (hag : Agree msg s t)
    (hno : Quiet msg s (upb_field_unref cfg mf v f s)) :
    Alike msg (upb_field_unref cfg mf v f s) (upb_field_unref cfg mf v f t) := by
  have hl := agree_log msg (.field_unref v f) s t hag
  have hno := quiet_log msg (.field_unref v f) s _ hno
  revert hno
  unfold upb_field_unref
  dsimp only
  by_cases hmm : cfg.upb_field_ismm f = false
  · simp only [if_pos hmm]
    exact fun _ => ⟨rfl, hl⟩
  · simp only [if_neg hmm]
    by_cases hv : upb_value_getrefcount v = 0
    · simp only [if_pos hv]
      exact fun _ => ⟨rfl, hl⟩
    · simp only [if_neg hv]
      exact alike_gate msg (log (.field_unref v f) s)
        (upb_atomic_unref (upb_value_getrefcount v) (log (.field_unref v f) s))
        (upb_atomic_unref (upb_value_getrefcount v) (log (.field_unref v f) t))
        (upb_field_free cfg mf v f)
        (fun s1 => field_free_grows cfg mf hg v f s1)
        (fun s1 t1 h1 h2 => field_free_alike cfg msg mf hg hsim v f s1 t1 h1 h2)
        (atomic_unref_grows _ _)
        (fun h => atomic_unref_alike msg _ _ _ hl h)

theorem release_field_alike (cfg : Config) (msg : Ptr)
    (mf : Ptr → upb_msgdef → State → Res Unit)
    (hg : ∀ p md s, Grows s (mf p md s))
    (hsim : ∀ p md s t, Agree msg s t → Quiet msg s (mf p md s) →
      Alike msg (mf p md s) (mf p md t))
    (p : Ptr) (f : upb_fielddef) (s t : State) (hag : Agree msg s t)
    (hno : Quiet msg s (release_field cfg mf p f s)) :
    Alike msg (release_field cfg mf p f s) (release_field cfg mf p f t) := by
  revert hno
  unfold release_field
  rcases agree_deref msg s t p hag with h1 | ⟨_, m, c, h1, h2⟩
  · rw [h1]
    cases hd : deref s p with
    | none => exact fun _ => ⟨rfl, hag⟩
    | some o =>
      cases o with
      | msg m =>
        simp only
        cases hr : upb_value_read cfg m.data (_upb_msg_getptr f)
            (cfg.upb_field_valuetype f) with
        | none => exact fun _ => ⟨rfl, hag⟩
        | some v =>
          exact fun hno => field_unref_alike cfg msg mf hg hsim v f _ _
            (agree_log msg _ s t hag) (quiet_log msg _ s _ hno)
      | arr a => exact fun _ => ⟨rfl, hag⟩
      | str st => exact fun _ => ⟨rfl, hag⟩
      | raw b => exact fun _ => ⟨rfl, hag⟩
  · rw [h1, h2]
    dsimp only
    cases hr : upb_value_read cfg m.data (_upb_msg_getptr f)
        (cfg.upb_field_valuetype f) with
    | none => exact fun _ => ⟨rfl, hag⟩
    | some v =>
      exact fun hno => field_unref_alike cfg msg mf hg hsim v f _ _
        (agree_log msg _ s t hag) (quiet_log msg _ s _ hno)

theorem msg_loop_alike (cfg : Config) (msg : Ptr)
    (mf : Ptr → upb_msgdef → State → Res Unit)
    (hg : ∀ p md s, Grows s (mf p md s))
    (hsim : ∀ p md s t, Agree msg s t → Quiet msg s (mf p md s) →
      Alike msg (mf p md s) (mf p md t))
    (p : Ptr) (fs : List upb_fielddef) :
    ∀ s t : State, Agree msg s t →
      Quiet msg s (msg_free_loop cfg mf p fs s) →
      Alike msg (msg_free_loop cfg mf p fs s) (msg_free_loop cfg mf p fs t) := by
  induction fs with
  | nil =>
    intro s t hag _
    exact ⟨rfl, hag⟩
  | cons f fs ih =>
    intro s t hag hno
    by_cases hmm : cfg.upb_field_ismm f = true
    · rw [msg_free_loop_step cfg mf p f fs s hmm] at hno
      rw [msg_free_loop_step cfg mf p f fs s hmm, msg_free_loop_step cfg mf p f fs t hmm]
      exact alike_andThen msg s _ _ _ (release_field_grows cfg mf hg p f s)
        (msg_loop_grows cfg mf hg p fs) hno
        (fun h => release_field_alike cfg msg mf hg hsim p f s t hag h) ih
    · simp only [msg_free_loop, hmm] at hno ⊢
      exact ih s t hag hno

theorem msg_free_alike (cfg : Config) (msg : Ptr) (n : Nat) :
    ∀ p md s t, Agree msg s t → Quiet msg s (_upb_msg_free cfg n p md s) →
      Alike msg (_upb_msg_free cfg n p md s) (_upb_msg_free cfg n p md t) := by
  induction n with
  | zero =>
    intro p md s t hag _
    exact ⟨rfl, hag⟩
  | succ n ih =>
    intro p md s t hag hno
    have hno := quiet_log msg (.msg_free p md) s _ hno
    simp only [_upb_msg_free] at hno ⊢
    exact alike_andThen msg (log (.msg_free p md) s)
      (msg_free_loop cfg (_upb_msg_free cfg n) p md.fields (log (.msg_free p md) s))
      (msg_free_loop cfg (_upb_msg_free cfg n) p md.fields (log (.msg_free p md) t))
      (free p) (msg_loop_grows cfg (_upb_msg_free cfg n) (msg_free_grows cfg n) p md.fields _)
      (free_grows p) hno
      (fun h => msg_loop_alike cfg msg (_upb_msg_free cfg n) (msg_free_grows cfg n) ih p
        md.fields _ _ (agree_log msg _ s t hag) h)
      (fun s1 t1 h1 _ => free_alike msg p s1 t1 h1)

theorem alike_obs {α : Type} (msg : Ptr) (r r2 : Res α) (h : Alike msg r r2) :
    r2.fault = r.fault ∧ r2.trace = r.trace ∧ ∀ q, q ≠ msg → r2.heap q = r.heap q := by
  cases r with
  | ok a s1 =>
    obtain ⟨t1, hr2, hag⟩ := alike_ok_inv msg a s1 r2 h
    subst hr2
    refine ⟨rfl, hag.1, fun q hq => ?_⟩
    rcases hag.2 q with h1 | ⟨hqm, _⟩
    · exact h1
    · exact absurd hqm hq
  | fail e s1 =>
    obtain ⟨t1, hr2, hag⟩ := alike_fail_inv msg e s1 r2 h
    subst hr2
    refine ⟨rfl, hag.1, fun q hq => ?_⟩
    rcases hag.2 q with h1 | ⟨hqm, _⟩
    · exact h1
    · exact absurd hqm hq

theorem free_ok_gone (p : Ptr) (s s2 : State) (u : Unit) (hp : p ≠ 0)
    (h : free p s = .ok u s2) :
    s2.heap p = none ∧ s2.trace = s.trace ++ [.free p] := by
  unfold free at h
  dsimp only at h
  rw [if_neg hp] at h
  cases hh : (log (.free p) s).heap p with
  | none => simp [hh] at h
  | some o =>
    simp only [hh, Res.ok.injEq, true_and] at h
    subst h
    exact ⟨by simp [store], rfl⟩

theorem msg_free_ok_free (cfg : Config) (n : Nat) (p : Ptr) (md : upb_msgdef)
    (s s2 : State) (u : Unit) (h : _upb_msg_free cfg n p md s = .ok u s2) :
    ∃ s1, free p s1 = .ok u s2 := by
  cases n with
  | zero => simp [_upb_msg_free] at h
  | succ n =>
    simp only [_upb_msg_free] at h
    cases hr : msg_free_loop cfg (_upb_msg_free cfg n) p md.fields
        (log (.msg_free p md) s) with
    | ok u1 s1 =>
      simp only [hr] at h
      exact ⟨s1, h⟩
    | fail e s1 => simp [hr] at h

/-- Counterexample to C15 as stated: in the cycle of two messages the message
at 10 is held, through the message at 20, below itself. `_upb_msg_free` on the
message at 10 then decrements the count of that very message (the release of
20 reads the handle 10 from its slot and passes it to `upb_field_unref`), and
the outcome depends on the count: with count 1 the decrement reaches zero, the
message is released inside the nested call and the outer `free` is an invalid
one; with count 2 or count 0 the decrement does not reach zero and the call
returns. -/
theorem cycle_release_uses_own_count :
    msg_avoids cycleConfig cycleState 10 2 10 cycleNode = false ∧
    (_upb_msg_free cycleConfig 3 10 cycleNode cycleState).trace.count (.unref 10) = 1 ∧
    (_upb_msg_free cycleConfig 3 10 cycleNode ownedCycleState).trace.count (.unref 10) = 1 ∧
    (_upb_msg_free cycleConfig 3 10 cycleNode cycleState).fault = some .invalid ∧
    (_upb_msg_free cycleConfig 3 10 cycleNode ownedCycleState).fault = none ∧
    (_upb_msg_free cycleConfig 3 10 cycleNode (State.mk (cycleHeap 0) [])).fault = none ∧
    (∀ q, q ≠ 10 → ownedCycleState.heap q = cycleState.heap q) := by
  refine ⟨by rfl, by rfl, by rfl, by rfl, by rfl, by rfl, ?_⟩
  intro q hq
  simp [ownedCycleState, cycleState, cycleHeap, hq]

/-- C15 (amended): `_upb_msg_free(msg, md)` does not consult the reference
count of the message it is called on, provided the message is not held below
itself. Let `msg` be a live message with data `m.data` such that no
memory-managed slot the release can reach from `msg` (through field slots and
the slots of held arrays, within the nesting budget) holds a handle to `msg`.
Then the run records no decrement of the count of `msg`; the run from the
state in which that count is any other value `c` (1, more than 1, 0 or less)
ends the same way, with the same trace of calls, reads, decrements and frees,
and the same blocks elsewhere; and when the release of the fields returns, the
last step is `free(msg)`, after which `msg` is gone, whatever its count was. A
block `v` reached through a slot is treated differently: when its count `k` is
not 1, `upb_field_unref` and `upb_elem_unref` lower the count to `k - 1` and
return, freeing nothing. -/
theorem msg_free_ignores_own_count (cfg : Config) (n : Nat) (msg : Ptr) (md : upb_msgdef)
    (s : State) (m : upb_msg) (c : Int)
    (mf : Ptr → upb_msgdef → State → Res Unit) (v : upb_value) (f : upb_fielddef)
    (s0 : State) (o : Obj) (k : Int)
    (hm : deref s msg = some (.msg m))
    (hfree : msg_avoids cfg s msg n msg md = true)
    (hv : v ≠ 0) (ho : s0.heap v = some o) (hk : o.refcount = some k) (hk1 : k ≠ 1) :
    (_upb_msg_free cfg n msg md s).trace.count (.unref msg) = s.trace.count (.unref msg) ∧
    ((_upb_msg_free cfg n msg md (store s msg (some (.msg (upb_msg.mk c m.data))))).fault =
        (_upb_msg_free cfg n msg md s).fault ∧
      (_upb_msg_free cfg n msg md (store s msg (some (.msg (upb_msg.mk c m.data))))).trace =
        (_upb_msg_free cfg n msg md s).trace ∧
      (∀ q, q ≠ msg →
        (_upb_msg_free cfg n msg md (store s msg (some (.msg (upb_msg.mk c m.data))))).heap q =
          (_upb_msg_free cfg n msg md s).heap q) ∧
      ((_upb_msg_free cfg n msg md s).fault = none →
        (_upb_msg_free cfg n msg md s).heap msg = none ∧
        (_upb_msg_free cfg n msg md
          (store s msg (some (.msg (upb_msg.mk c m.data))))).heap msg = none ∧
        ∃ t1, (_upb_msg_free cfg n msg md s).trace = t1 ++ [.free msg])) ∧
    (cfg.upb_field_ismm f = true →
      upb_field_unref cfg mf v f s0 =
        .ok () (store (log (.unref v) (log (.field_unref v f) s0)) v
          (some (o.setRefcount (k - 1))))) ∧
    (cfg.upb_elem_ismm f = true →
      upb_elem_unref cfg mf v f s0 =
        .ok () (store (log (.unref v) (log (.elem_unref v f) s0)) v
          (some (o.setRefcount (k - 1))))) := by
  have hz : k - 1 ≠ 0 := by omega
  obtain ⟨hmsg, hheap⟩ := deref_eq_heap s msg _ hm
  have hquiet : Quiet msg s (_upb_msg_free cfg n msg md s) :=
    (msg_free_calm cfg msg s n msg md s (same_refl s) hfree).1
  have hag : Agree msg s (store s msg (some (.msg (upb_msg.mk c m.data)))) := by
    refine ⟨rfl, fun q => ?_⟩
    by_cases hq : q = msg
    · right
      subst hq
      exact ⟨rfl, m, c, hheap, by simp [store]⟩
    · left
      simp [store, Function.update, hq]
  have hal := msg_free_alike cfg msg n msg md s _ hag hquiet
  obtain ⟨h1, h2, h3⟩ := alike_obs msg _ _ hal
  refine ⟨Nat.le_antisymm hquiet (msg_free_grows cfg n msg md s _), ⟨h1, h2, h3, ?_⟩, ?_, ?_⟩
  · intro hret
    cases hr : _upb_msg_free cfg n msg md s with
    | fail e s2 => simp [hr, Res.fault] at hret
    | ok u s2 =>
      rw [hr] at hal
      obtain ⟨t2, hr2, hag2⟩ := alike_ok_inv msg u s2 _ hal
      obtain ⟨s1, hfree1⟩ := msg_free_ok_free cfg n msg md s s2 u hr
      obtain ⟨hgone, htr⟩ := free_ok_gone msg s1 s2 u hmsg hfree1
      rw [hr2]
      refine ⟨hgone, ?_, s1.trace, htr⟩
      rcases hag2.2 msg with h4 | ⟨_, m2, c2, h4, _⟩
      · exact h4.trans hgone
      · rw [hgone] at h4
        cases h4
  · intro hmm
    simp [upb_field_unref, upb_atomic_unref, upb_value_getrefcount,
      deref, log, hmm, hv, ho, hk, hz]
  · intro hmm
    simp [upb_elem_unref, upb_atomic_unref, upb_value_getrefcount,
      deref, log, hmm, hv, ho, hk, hz]

/-- Witness of C15 (amended): the message at 10, whose two slots hold the
shared sub-message at 20 (count 2) and no handle to 10, with its count 1
replaced by 0. -/
theorem msg_free_ignores_own_count_witness :
    deref sharedSubState 10 =
        some (.msg (upb_msg.mk 1
          [3, 0, 0, 0, 0, 0, 0, 0, 20, 0, 0, 0, 0, 0, 0, 0, 20, 0, 0, 0, 0, 0, 0, 0])) ∧
    msg_avoids witnessConfig sharedSubState 10 2 10 witnessTwoSubs = true ∧
    sharedSubState.heap 20 = some (.msg (upb_msg.mk 2 [1, 0, 0, 0, 42, 0, 0, 0])) ∧
    (_upb_msg_free witnessConfig 2 10 witnessTwoSubs sharedSubState).trace.count (.unref 10) =
      sharedSubState.trace.count (.unref 10) ∧
    ((_upb_msg_free witnessConfig 2 10 witnessTwoSubs
        (store sharedSubState 10 (some (.msg (upb_msg.mk 0
          [3, 0, 0, 0, 0, 0, 0, 0, 20, 0, 0, 0, 0, 0, 0, 0,
           20, 0, 0, 0, 0, 0, 0, 0]))))).fault =
      (_upb_msg_free witnessConfig 2 10 witnessTwoSubs sharedSubState).fault) ∧
    ((_upb_msg_free witnessConfig 2 10 witnessTwoSubs
        (store sharedSubState 10 (some (.msg (upb_msg.mk 0
          [3, 0, 0, 0, 0, 0, 0, 0, 20, 0, 0, 0, 0, 0, 0, 0,
           20, 0, 0, 0, 0, 0, 0, 0]))))).trace =
      (_upb_msg_free witnessConfig 2 10 witnessTwoSubs sharedSubState).trace) ∧
    (_upb_msg_free witnessConfig 2 10 witnessTwoSubs sharedSubState).heap 10 = none ∧
    upb_field_unref witnessConfig (_upb_msg_free witnessConfig 1) 20 witnessSubField
        sharedSubState =
      .ok () (store (log (.unref 20) (log (.field_unref 20 witnessSubField) sharedSubState)) 20
        (some (.msg (upb_msg.mk 1 [1, 0, 0, 0, 42, 0, 0, 0])))) :=
  have h := msg_free_ignores_own_count witnessConfig 2 10 witnessTwoSubs sharedSubState
    (upb_msg.mk 1 [3, 0, 0, 0, 0, 0, 0, 0, 20, 0, 0, 0, 0, 0, 0, 0, 20, 0, 0, 0, 0, 0, 0, 0])
    0 (_upb_msg_free witnessConfig 1) 20 witnessSubField sharedSubState
    (.msg (upb_msg.mk 2 [1, 0, 0, 0, 42, 0, 0, 0])) 2 (by rfl) (by rfl) (by decide) (by rfl)
    (by rfl) (by decide)
  ⟨by rfl, by rfl, by rfl, h.1, h.2.1.1, h.2.1.2.1, (h.2.1.2.2.2 (by rfl)).1,
    h.2.2.1 (by rfl)⟩

end Upb
